import Mathlib

/-!
# Verification of the DWRF Byte/Boolean RLE codec

A shallow embedding of `velox/dwio/dwrf/common/ByteRLE.cpp`:
the byte RLE encoder (`ByteRleEncoderImpl`), the boolean RLE encoder
(`BooleanRleEncoderImpl`), the byte RLE decoder (`ByteRleDecoder`) and the
boolean RLE decoder (`BooleanRleDecoder`).

Modelling conventions:
* machine bytes are `Nat` values; casts to `char` are explicit `% 256`;
* the output stream (`BufferedOutputStream`) is a `List Nat` of committed
  bytes: `writeByte` appends, `flush`'s `BackUp` bookkeeping is absorbed by
  the fact that only committed bytes appear in the list;
* the input stream and the decoder's current buffer window are modelled as a
  single `List Nat` of the remaining bytes; failing reads (`nextBuffer` on an
  exhausted stream, short literal payloads) yield `none`;
* the null mask (`bits::isBitNull`) is an abstract predicate
  `Nat → Bool` (`true` = the position is null), wrapped in `Option` to model
  the `nulls == nullptr` fast paths;
* `common::Ranges` is a `List Nat` of positions;
* fixed-size on-stack arrays (`literals_`) are a `List Nat` holding the
  written prefix of the array.
-/

namespace VeloxDwrf

def RLE_MINIMUM_REPEAT : Nat := 3
def RLE_MAXIMUM_REPEAT : Nat := 127 + RLE_MINIMUM_REPEAT
def RLE_MAX_LITERAL_SIZE : Nat := 128

/-- Is position `pos` null under the optional mask? (`bits::isBitNull`,
with `nulls == nullptr` meaning nothing is null). -/
def isNullAt (nulls : Option (Nat → Bool)) (pos : Nat) : Bool :=
  match nulls with
  | none => false
  | some isNull => isNull pos

/-- State of `ByteRleEncoderImpl`.  `out` is the byte stream committed to the
output sink so far; the buffer-window fields (`bufferPosition_` etc.) of the
C++ class are absorbed into it. -/
structure ByteRleEncoderImpl where
  literals_ : List Nat
  numLiterals_ : Nat
  repeat_ : Bool
  tailRunLength_ : Nat
  out : List Nat
deriving Repr, DecidableEq

/-- The freshly constructed encoder. -/
def ByteRleEncoderImpl.init : ByteRleEncoderImpl :=
  { literals_ := [], numLiterals_ := 0, repeat_ := false,
    tailRunLength_ := 0, out := [] }

/-- `ByteRleEncoderImpl::writeByte`: commit one byte (`char` cast = `% 256`). -/
def ByteRleEncoderImpl.writeByte (s : ByteRleEncoderImpl) (c : Nat) :
    ByteRleEncoderImpl :=
  { s with out := s.out ++ [c % 256] }

/-- `ByteRleEncoderImpl::writeValues`: emit the staged frame, if any.
A run frame is `[numLiterals_ - RLE_MINIMUM_REPEAT, literals_[0]]`; a literal
frame is the header `-numLiterals_` (as a byte: `256 - numLiterals_`)
followed by the first `numLiterals_` staged bytes. -/
def ByteRleEncoderImpl.writeValues (s : ByteRleEncoderImpl) :
    ByteRleEncoderImpl :=
  if s.numLiterals_ = 0 then s
  else
    let s1 :=
      if s.repeat_ then
        (s.writeByte (s.numLiterals_ - RLE_MINIMUM_REPEAT)).writeByte
          (s.literals_.headD 0)
      else
        (s.literals_.take s.numLiterals_).foldl ByteRleEncoderImpl.writeByte
          (s.writeByte (256 - s.numLiterals_))
    { s1 with repeat_ := false, tailRunLength_ := 0, numLiterals_ := 0,
              literals_ := [] }

/-- `ByteRleEncoderImpl::write`: feed one value into the run/literal state
machine. -/
def ByteRleEncoderImpl.write (s : ByteRleEncoderImpl) (value : Nat) :
    ByteRleEncoderImpl :=
  if s.numLiterals_ = 0 then
    { s with literals_ := [value], numLiterals_ := 1, tailRunLength_ := 1 }
  else if s.repeat_ then
    if value = s.literals_.headD 0 then
      let s1 := { s with numLiterals_ := s.numLiterals_ + 1 }
      if s1.numLiterals_ = RLE_MAXIMUM_REPEAT then s1.writeValues else s1
    else
      let s1 := s.writeValues
      { s1 with literals_ := [value], numLiterals_ := 1, tailRunLength_ := 1 }
  else
    let s0 :=
      if value = s.literals_.getLastD 0 then
        { s with tailRunLength_ := s.tailRunLength_ + 1 }
      else
        { s with tailRunLength_ := 1 }
    if s0.tailRunLength_ = RLE_MINIMUM_REPEAT then
      if s0.numLiterals_ + 1 > RLE_MINIMUM_REPEAT then
        let s1 :=
          { s0 with numLiterals_ := s0.numLiterals_ - (RLE_MINIMUM_REPEAT - 1) }
        let s2 := s1.writeValues
        { s2 with literals_ := [value], repeat_ := true,
                  numLiterals_ := RLE_MINIMUM_REPEAT }
      else
        { s0 with repeat_ := true, numLiterals_ := RLE_MINIMUM_REPEAT }
    else
      let s1 := { s0 with literals_ := s0.literals_ ++ [value],
                          numLiterals_ := s0.numLiterals_ + 1 }
      if s1.numLiterals_ = RLE_MAX_LITERAL_SIZE then s1.writeValues else s1

/-- `ByteRleEncoderImpl::flush`: drain the staged frame and report the total
committed byte count (the sink's `BackUp`/`flush` bookkeeping collapses to
the length of the committed stream). -/
def ByteRleEncoderImpl.flush (s : ByteRleEncoderImpl) :
    ByteRleEncoderImpl × Nat :=
  let s1 := s.writeValues
  (s1, s1.out.length)

/-- `ByteRleEncoderImpl::add(data, ranges, nulls)`: write the value at every
non-null position of `ranges`, returning the new state and the count of
values written. -/
def ByteRleEncoderImpl.add (s : ByteRleEncoderImpl) (data : Nat → Nat)
    (ranges : List Nat) (nulls : Option (Nat → Bool)) :
    ByteRleEncoderImpl × Nat :=
  match nulls with
  | some isNull =>
    ranges.foldl
      (fun acc pos =>
        if isNull pos then acc else (acc.1.write (data pos), acc.2 + 1))
      (s, 0)
  | none =>
    ranges.foldl (fun acc pos => (acc.1.write (data pos), acc.2 + 1)) (s, 0)

/-- `ByteRleEncoderImpl::addBits(data, ranges, nulls, invert)`: misuse on the
byte-only encoder, always `throw std::runtime_error`. -/
def ByteRleEncoderImpl.addBits (_s : ByteRleEncoderImpl)
    (_data : Option (Nat → Bool)) (_ranges : List Nat)
    (_nulls : Option (Nat → Bool)) (_invert : Bool) :
    Except String (ByteRleEncoderImpl × Nat) :=
  Except.error "addBits is only for bool stream"

/-- The functional overload `ByteRleEncoderImpl::addBits(isNullAt, ranges,
valueAt, invert)`: also always `throw std::runtime_error`. -/
def ByteRleEncoderImpl.addBitsFn (_s : ByteRleEncoderImpl)
    (_isNullAtFn : Option (Nat → Bool)) (_ranges : List Nat)
    (_valueAtFn : Option (Nat → Bool)) (_invert : Bool) :
    Except String (ByteRleEncoderImpl × Nat) :=
  Except.error "addBits is only for bool stream"

example :
    ((ByteRleEncoderImpl.init.add (fun i => [1,2,3,4,4,4,4,4].getD i 0)
      (List.range 8) none).1.flush).1.out = [0xFD, 1, 2, 3, 0x02, 4] := by
  decide

/-! ## Boolean RLE encoder -/

/-- State of `BooleanRleEncoderImpl`: the byte encoder it derives from, plus
the bit accumulator (`current`) and the number of free bits in it
(`bitsRemained`). -/
structure BooleanRleEncoderImpl where
  base : ByteRleEncoderImpl
  bitsRemained : Nat
  current : Nat
deriving Repr, DecidableEq

/-- The freshly constructed boolean encoder. -/
def BooleanRleEncoderImpl.init : BooleanRleEncoderImpl :=
  { base := ByteRleEncoderImpl.init, bitsRemained := 8, current := 0 }

/-- `BooleanRleEncoderImpl::writeByte` (private): push the accumulator into
the byte encoder and reset it. -/
def BooleanRleEncoderImpl.writeByte (s : BooleanRleEncoderImpl) :
    BooleanRleEncoderImpl :=
  { s with base := s.base.write s.current, bitsRemained := 8, current := 0 }

/-- `BooleanRleEncoderImpl::writeBool`: place a bit MSB-first into the
accumulator, flushing it into the byte encoder when full. -/
def BooleanRleEncoderImpl.writeBool (s : BooleanRleEncoderImpl) (val : Bool) :
    BooleanRleEncoderImpl :=
  let s1 := { s with bitsRemained := s.bitsRemained - 1,
                     current := s.current |||
                       ((if val then 1 else 0) <<< (s.bitsRemained - 1)) }
  if s1.bitsRemained = 0 then s1.writeByte else s1

/-- `BooleanRleEncoderImpl::flush`: emit the partially filled byte, if any,
then flush the byte encoder. -/
def BooleanRleEncoderImpl.flush (s : BooleanRleEncoderImpl) :
    BooleanRleEncoderImpl × Nat :=
  if s.bitsRemained ≠ 8 then
    ({ s.writeByte with base := s.writeByte.base.flush.1 },
      s.writeByte.base.flush.2)
  else
    ({ s with base := s.base.flush.1 }, s.base.flush.2)

/-- `BooleanRleEncoderImpl::add(data, ranges, nulls)`: write the bit
`data[pos] != 0` (or `1` when `data` is absent) at every non-null position.
`data` is the optional byte array, as a getter for `data[pos] != 0`. -/
def BooleanRleEncoderImpl.add (s : BooleanRleEncoderImpl)
    (data : Option (Nat → Bool)) (ranges : List Nat)
    (nulls : Option (Nat → Bool)) : BooleanRleEncoderImpl × Nat :=
  match nulls with
  | some isNull =>
    ranges.foldl
      (fun acc pos =>
        if isNull pos then acc
        else (acc.1.writeBool (match data with
                | none => true
                | some d => d pos), acc.2 + 1))
      (s, 0)
  | none =>
    ranges.foldl
      (fun acc pos =>
        (acc.1.writeBool (match data with
          | none => true
          | some d => d pos), acc.2 + 1))
      (s, 0)

/-- `BooleanRleEncoderImpl::addBits(data, ranges, nulls, invert)`: write the
bit `!data || invert != bits::isBitSet(data, pos)` at every non-null
position.  `data` is the optional bit-packed source, as a bit getter. -/
def BooleanRleEncoderImpl.addBits (s : BooleanRleEncoderImpl)
    (data : Option (Nat → Bool)) (ranges : List Nat)
    (nulls : Option (Nat → Bool)) (invert : Bool) :
    BooleanRleEncoderImpl × Nat :=
  match nulls with
  | some isNull =>
    ranges.foldl
      (fun acc pos =>
        if isNull pos then acc
        else (acc.1.writeBool (match data with
                | none => true
                | some d => invert != d pos), acc.2 + 1))
      (s, 0)
  | none =>
    ranges.foldl
      (fun acc pos =>
        (acc.1.writeBool (match data with
          | none => true
          | some d => invert != d pos), acc.2 + 1))
      (s, 0)

example :
    ((BooleanRleEncoderImpl.init.add none (List.range 9) none).1.flush).1.base.out
      = [0xFE, 0xFF, 0x80] := by decide

/-! ## Byte RLE decoder

The input stream (`SeekableInputStream`) and the decoder's current buffer
window (`bufferStart_`/`bufferEnd_`) are modelled as one `List Nat` of the
remaining stream bytes. -/

/-- State of `ByteRleDecoder`. -/
structure ByteRleDecoder where
  input : List Nat
  remainingValues_ : Nat
  repeating_ : Bool
  value_ : Nat
  pendingSkip_ : Nat
deriving Repr, DecidableEq

/-- Modelled from the spec: a freshly constructed decoder over a stream has
no current frame and no pending skip (the constructor lives in the missing
header `ByteRLE.h`). -/
def ByteRleDecoder.mk0 (input : List Nat) : ByteRleDecoder :=
  { input := input, remainingValues_ := 0, repeating_ := false,
    value_ := 0, pendingSkip_ := 0 }

/-- Modelled from the spec: `ByteRleDecoder::readByte` (missing header) reads
the next stream byte, a short read being fatal. -/
def ByteRleDecoder.readByte (s : ByteRleDecoder) :
    Option (ByteRleDecoder × Nat) :=
  match s.input with
  | [] => none
  | b :: rest => some ({ s with input := rest }, b)

/-- Modelled from the spec: `ByteRleDecoder::readHeader` (missing header)
reads one signed control byte `h`; `h ≥ 0` starts a run frame of
`h + MINIMUM_REPEAT` copies of the next byte, `h < 0` starts a literal frame
of `−h` raw bytes. -/
def ByteRleDecoder.readHeader (s : ByteRleDecoder) : Option ByteRleDecoder :=
  match s.input with
  | [] => none
  | h :: rest =>
    if h < 128 then
      match rest with
      | [] => none
      | v :: rest2 =>
        some { s with input := rest2,
                      remainingValues_ := h + RLE_MINIMUM_REPEAT,
                      repeating_ := true, value_ := v }
    else
      some { s with input := rest, remainingValues_ := 256 - h,
                    repeating_ := false }

/-- `ByteRleDecoder::skipBytes`: advance the source by `count` bytes.  In the
single-list stream model the buffered part and `SkipInt64` collapse into one
bounded drop; skipping past the end of the stream is a fatal short read. -/
def ByteRleDecoder.skipBytes (s : ByteRleDecoder) (count : Nat) :
    Option ByteRleDecoder :=
  if count ≤ s.input.length then some { s with input := s.input.drop count }
  else none

/-- Modelled from the spec: `ByteRleDecoder::skipPending` (missing header)
walks frames, consuming `min(pending, remainingValues)` per frame and
advancing the source by that many bytes for literal frames.  `fuel` bounds
the iteration count; since every iteration consumes at least one value,
`fuel = n` always suffices. -/
def ByteRleDecoder.skipPendingLoop :
    Nat → ByteRleDecoder → Nat → Option ByteRleDecoder
  | 0, s, n => if n = 0 then some s else none
  | fuel + 1, s, n =>
    if n = 0 then some s
    else
      match (if s.remainingValues_ = 0 then s.readHeader else some s) with
      | none => none
      | some s1 =>
        let chunk := min n s1.remainingValues_
        match (if s1.repeating_ then some s1 else s1.skipBytes chunk) with
        | none => none
        | some s2 =>
          ByteRleDecoder.skipPendingLoop fuel
            { s2 with remainingValues_ := s2.remainingValues_ - chunk }
            (n - chunk)

/-- Apply the deferred skip. -/
def ByteRleDecoder.skipPending (s : ByteRleDecoder) : Option ByteRleDecoder :=
  ByteRleDecoder.skipPendingLoop s.pendingSkip_ { s with pendingSkip_ := 0 }
    s.pendingSkip_

/-- `ByteRleDecoder::skip`: a logical skip is deferred into `pendingSkip_`
(modelled from the spec; the accumulation lives in the missing header). -/
def ByteRleDecoder.skip (s : ByteRleDecoder) (n : Nat) : ByteRleDecoder :=
  { s with pendingSkip_ := s.pendingSkip_ + n }

/-- `ByteRleDecoder::seekToRowGroup`: seek the source, invalidate the window,
clear `remainingValues_` and set `pendingSkip_` from the provider. -/
def ByteRleDecoder.seekToRowGroup (s : ByteRleDecoder) (newInput : List Nat)
    (skipCount : Nat) : ByteRleDecoder :=
  { s with input := newInput, remainingValues_ := 0, pendingSkip_ := skipCount }

/-- Overwrite `dst` starting at `start` with the bytes of `src`
(`std::copy` / `memset` into a caller buffer). -/
def overwriteAt (dst : List Nat) (start : Nat) (src : List Nat) : List Nat :=
  dst.take start ++ src ++ dst.drop (start + src.length)

/-- The null-skip loop of `ByteRleDecoder::next`:
`while (position < numValues && isBitNull(nulls, position)) ++position`. -/
def skipNullsSome (isNull : Nat → Bool) (numValues : Nat) (pos : Nat) : Nat :=
  if pos < numValues then
    if isNull pos then skipNullsSome isNull numValues (pos + 1) else pos
  else pos
termination_by numValues - pos

/-- Null skipping with an optional mask (`nulls == nullptr` skips nothing). -/
def skipNulls (nulls : Option (Nat → Bool)) (numValues : Nat) (pos : Nat) :
    Nat :=
  match nulls with
  | none => pos
  | some isNull => skipNullsSome isNull numValues pos

/-- The run-frame masked inner loop of `ByteRleDecoder::next`: write `value`
at each non-null position of the window, counting values consumed. -/
def runChunkNulls (isNull : Nat → Bool) (value : Nat) (dst : List Nat)
    (pos : Nat) : Nat → List Nat × Nat
  | 0 => (dst, 0)
  | c + 1 =>
    if isNull pos then runChunkNulls isNull value dst (pos + 1) c
    else
      let r := runChunkNulls isNull value (dst.set pos value) (pos + 1) c
      (r.1, r.2 + 1)

/-- The literal-frame masked inner loop of `ByteRleDecoder::next`: read one
source byte into each non-null position of the window; returns the new
destination, the remaining input and the count of bytes consumed. -/
def litChunkNulls (isNull : Nat → Bool) (dst : List Nat) (input : List Nat)
    (pos : Nat) : Nat → Option (List Nat × List Nat × Nat)
  | 0 => some (dst, input, 0)
  | c + 1 =>
    if isNull pos then litChunkNulls isNull dst input (pos + 1) c
    else
      match input with
      | [] => none
      | b :: rest =>
        (litChunkNulls isNull (dst.set pos b) rest (pos + 1) c).map
          (fun r => (r.1, r.2.1, r.2.2 + 1))

/-- The frame loop of `ByteRleDecoder::next` (after `skipPending`).  `fuel`
bounds the iteration count; every iteration advances `position` by at least
one, so `fuel = numValues` always suffices. -/
def ByteRleDecoder.nextLoop (nulls : Option (Nat → Bool)) (numValues : Nat) :
    Nat → ByteRleDecoder → List Nat → Nat → Option (ByteRleDecoder × List Nat)
  | fuel, s, data, position =>
    let pos := skipNulls nulls numValues position
    if pos < numValues then
      match fuel with
      | 0 => none
      | fuel + 1 =>
        match (if s.remainingValues_ = 0 then s.readHeader else some s) with
        | none => none
        | some s1 =>
          let count := min (numValues - pos) s1.remainingValues_
          match
            (if s1.repeating_ then
              match nulls with
              | some isNull =>
                let r := runChunkNulls isNull s1.value_ data pos count
                some (s1, r.1, r.2)
              | none =>
                some (s1, overwriteAt data pos (List.replicate count s1.value_),
                      count)
            else
              match nulls with
              | some isNull =>
                (litChunkNulls isNull data s1.input pos count).map
                  (fun r => ({ s1 with input := r.2.1 }, r.1, r.2.2))
              | none =>
                if count ≤ s1.input.length then
                  some ({ s1 with input := s1.input.drop count },
                        overwriteAt data pos (s1.input.take count), count)
                else none) with
          | none => none
          | some (s2, data2, consumed) =>
            ByteRleDecoder.nextLoop nulls numValues fuel
              { s2 with remainingValues_ := s2.remainingValues_ - consumed }
              data2 (pos + count)
    else some (s, data)

/-- `ByteRleDecoder::next(data, numValues, nulls)`: apply the pending skip,
then materialize `numValues` bytes into `data`, leaving null positions
untouched. -/
def ByteRleDecoder.next (s : ByteRleDecoder) (data : List Nat)
    (numValues : Nat) (nulls : Option (Nat → Bool)) :
    Option (ByteRleDecoder × List Nat) :=
  match s.skipPending with
  | none => none
  | some s1 => ByteRleDecoder.nextLoop nulls numValues numValues s1 data 0

example :
    ByteRleDecoder.next (ByteRleDecoder.mk0 [0x07, 0x41])
      (List.replicate 10 0) 10 none =
    some ({ input := [], remainingValues_ := 0, repeating_ := true,
            value_ := 0x41, pendingSkip_ := 0 }, List.replicate 10 0x41) := by
  decide

/-! ## Boolean RLE decoder

Bit utilities from `velox/common/base/BitUtil.h` (not part of the sources)
are modelled from the spec at the bit level. -/

/-- Modelled from the spec: `bits::reverseBits` on one byte reverses its
eight bits. -/
def reverseByte (b : Nat) : Nat :=
  (List.range 8).foldl
    (fun acc i => acc ||| (if b.testBit i then 1 <<< (7 - i) else 0)) 0

/-- Modelled from the spec: `bits::countNonNulls(nulls, 0, numValues)` counts
the non-null positions below `numValues`. -/
def countNonNulls (isNull : Nat → Bool) (numValues : Nat) : Nat :=
  ((List.range numValues).filter (fun i => !isNull i)).length

/-- Modelled from the spec: `bits::divRoundUp`. -/
def divRoundUp (x y : Nat) : Nat := (x + y - 1) / y

/-- Bit `i` of a byte buffer, LSB-first within each byte (the host bit
addressing used by `bits::scatterBits` and the shifted output buffer). -/
def bitOfBytes (data : List Nat) (i : Nat) : Bool :=
  (data.getD (i / 8) 0).testBit (i % 8)

/-- Assemble a byte from its eight LSB-first bits. -/
def byteFromBits (f : Nat → Bool) : Nat :=
  (List.range 8).foldl (fun acc k => acc ||| (if f k then 1 <<< k else 0)) 0

/-- `bits::reverseBits(data, n)`: reverse the bit order inside each of the
first `n` bytes (modelled from the spec). -/
def reverseFirstBytes (data : List Nat) (n : Nat) : List Nat :=
  (data.take n).map reverseByte ++ data.drop n

/-- Modelled from the spec: `bits::scatterBits(nonNulls, numValues, src,
nulls, target)` spreads the densely packed source bits over the non-null
positions; null positions and bits at or beyond `numValues` become zero.
The in-place back-to-front walk of the C++ is modelled as a pure function of
the original source bytes. -/
def scatterBits (_nonNulls numValues : Nat) (src : List Nat)
    (isNull : Nat → Bool) (data : List Nat) : List Nat :=
  (List.range ((numValues + 7) / 8)).map
    (fun jByte => byteFromBits (fun k =>
      let i := 8 * jByte + k
      i < numValues && !isNull i && bitOfBytes src (countNonNulls isNull i)))
  ++ data.drop ((numValues + 7) / 8)

/-- Read a 64-bit little-endian word starting at byte `8 * i`
(`reinterpret_cast of an 8-byte-aligned little-endian buffer`). -/
def getLe64 (data : List Nat) (i : Nat) : Nat :=
  (List.range 8).foldl (fun acc j => acc + (data.getD (8 * i + j) 0 <<< (8 * j)))
    0

/-- Write a 64-bit little-endian word at byte `8 * i`. -/
def setLe64 (data : List Nat) (i : Nat) (w : Nat) : List Nat :=
  overwriteAt data (8 * i) ((List.range 8).map (fun j => (w >>> (8 * j)) % 256))

/-- The 64-bit chunk loop of `BooleanRleDecoder::next` (source lines
536-541): process `k` dwords starting at dword index `i`, shifting each left
by `r` bits, OR-ing the carry in at the LSB end and carrying the top `r`
bits out.  The `uint64_t` arithmetic wraps modulo `2 ^ 64` and the carry is
masked to a byte. -/
def shiftDwords (r : Nat) : Nat → Nat → List Nat → Nat → List Nat × Nat
  | _i, 0, data, prev => (data, prev)
  | i, k + 1, data, prev =>
    let tmp := getLe64 data i
    let data1 := setLe64 data i ((prev ||| (tmp <<< r)) % 2 ^ 64)
    shiftDwords r (i + 1) k data1 ((tmp >>> (64 - r)) % 256)

/-- The byte tail loop of `BooleanRleDecoder::next` (source lines 544-549):
process `k` bytes starting at byte index `i`. -/
def shiftTailBytes (r : Nat) : Nat → Nat → List Nat → Nat → List Nat × Nat
  | _i, 0, data, prev => (data, prev)
  | i, k + 1, data, prev =>
    let tmp := data.getD i 0
    let data1 := data.set i ((prev ||| (tmp <<< r)) % 256)
    shiftTailBytes r (i + 1) k data1 (tmp >>> (8 - r))

/-- State of `BooleanRleDecoder`. -/
structure BooleanRleDecoder extends ByteRleDecoder where
  remainingBits_ : Nat
  reversedLastByte_ : Nat
deriving Repr, DecidableEq

/-- Modelled from the spec: a freshly constructed boolean decoder. -/
def BooleanRleDecoder.mk0 (input : List Nat) : BooleanRleDecoder :=
  { toByteRleDecoder := ByteRleDecoder.mk0 input, remainingBits_ := 0,
    reversedLastByte_ := 0 }

/-- `BooleanRleDecoder::skipPending`: consume the pending bit count, first
from `remainingBits_`, then as whole bytes through the byte decoder's skip,
then, for a residual bit count, by reading one byte, reversing its bits and
retaining `8 - residual` bits. -/
def BooleanRleDecoder.skipPending (s : BooleanRleDecoder) :
    Option BooleanRleDecoder :=
  let numValues := s.pendingSkip_
  if numValues ≤ s.remainingBits_ then
    some { s with pendingSkip_ := 0,
                  remainingBits_ := s.remainingBits_ - numValues }
  else
    let numValues := numValues - s.remainingBits_
    match ({ s.toByteRleDecoder with
             pendingSkip_ := numValues / 8 } : ByteRleDecoder).skipPending with
    | none => none
    | some sb =>
      let bitsToSkip := numValues % 8
      if bitsToSkip ≠ 0 then
        match sb.next [s.reversedLastByte_] 1 none with
        | none => none
        | some (sb2, buf) =>
          some { toByteRleDecoder := sb2,
                 remainingBits_ := 8 - bitsToSkip,
                 reversedLastByte_ := reverseByte (buf.getD 0 0) }
      else
        some { toByteRleDecoder := sb, remainingBits_ := 0,
               reversedLastByte_ := s.reversedLastByte_ }

/-- `BooleanRleDecoder::skip` defers into the bit-level pending counter
(modelled from the spec; the accumulation lives in the missing header). -/
def BooleanRleDecoder.skip (s : BooleanRleDecoder) (n : Nat) :
    BooleanRleDecoder :=
  { s with pendingSkip_ := s.pendingSkip_ + n }

/-- `BooleanRleDecoder::seekToRowGroup`: the byte-level seek, then the bit
offset from the provider, which must be at most 8. -/
def BooleanRleDecoder.seekToRowGroup (s : BooleanRleDecoder)
    (newInput : List Nat) (skipCount consumed : Nat) :
    Except String BooleanRleDecoder :=
  let sb := s.toByteRleDecoder.seekToRowGroup newInput skipCount
  if consumed ≤ 8 then
    Except.ok { toByteRleDecoder :=
                  { sb with pendingSkip_ := 8 * sb.pendingSkip_ + consumed },
                remainingBits_ := 0,
                reversedLastByte_ := s.reversedLastByte_ }
  else
    Except.error "bad position"

/-- `BooleanRleDecoder::next(data, numValues, nulls)`: materialize
`numValues` booleans bit-packed into `data`. -/
def BooleanRleDecoder.next (s : BooleanRleDecoder) (data : List Nat)
    (numValues : Nat) (nulls : Option (Nat → Bool)) :
    Option (BooleanRleDecoder × List Nat) :=
  match s.skipPending with
  | none => none
  | some s =>
    let nonNulls := match nulls with
      | none => numValues
      | some isNull => countNonNulls isNull numValues
    let outputBytes := (numValues + 7) / 8
    if nonNulls = 0 then
      some (s, overwriteAt data 0 (List.replicate outputBytes 0))
    else
      match
        (if s.remainingBits_ ≥ nonNulls then
          some (({ s with remainingBits_ := s.remainingBits_ - nonNulls }
                  : BooleanRleDecoder),
                data.set 0 ((s.reversedLastByte_ >>> (8 - s.remainingBits_))
                  &&& (0xff >>> (8 - nonNulls))))
        else
          let previousByte :=
            if s.remainingBits_ > 0 then
              s.reversedLastByte_ >>> (8 - s.remainingBits_)
            else 0
          let bytesRead := divRoundUp (nonNulls - s.remainingBits_) 8
          match s.toByteRleDecoder.next data bytesRead none with
          | none => none
          | some (sb, data1) =>
            let data2 := reverseFirstBytes data1 bytesRead
            let rlb := data2.getD (bytesRead - 1) 0 % 256
            let data3 :=
              if s.remainingBits_ > 0 then
                let nonNullDWords := nonNulls / 64
                let rd := shiftDwords s.remainingBits_ 0 nonNullDWords data2
                  previousByte
                let nonNullOutputBytes := (nonNulls + 7) / 8
                (shiftTailBytes s.remainingBits_ (nonNullDWords * 8)
                  (nonNullOutputBytes - nonNullDWords * 8) rd.1 rd.2).1
              else data2
            some ({ toByteRleDecoder := sb,
                    remainingBits_ := bytesRead * 8 + s.remainingBits_ - nonNulls,
                    reversedLastByte_ := rlb }, data3)) with
      | none => none
      | some (s2, data3) =>
        let data4 :=
          match nulls with
          | some isNull =>
            if numValues > nonNulls then
              scatterBits nonNulls numValues data3 isNull data3
            else data3
          | none => data3
        let data5 := data4.set (outputBytes - 1)
          ((data4.getD (outputBytes - 1) 0) &&&
            (0xff >>> (outputBytes * 8 - numValues)))
        some (s2, data5)

example :
    (BooleanRleDecoder.next (BooleanRleDecoder.mk0 [0xFE, 0xFF, 0x80])
      [0, 0] 9 none).map (fun r => r.2) = some [0xFF, 0x01] := by decide

/-! ## Helper lemmas about the encoder's `writeValues` and `flush` -/

/-! ## The wire format: frames

The spec's frame grammar (§3): a signed control byte `h`; `h ≥ 0` introduces
a run of `h + MINIMUM_REPEAT` copies of the following byte, `h < 0`
introduces `−h` raw bytes. -/

/-- An abstract frame of the wire format. -/
inductive RleFrame where
  | run (len : Nat) (v : Nat)
  | lit (bytes : List Nat)
deriving Repr, DecidableEq

/-- The value sequence a frame encodes. -/
def RleFrame.payload : RleFrame → List Nat
  | .run n v => List.replicate n v
  | .lit bs => bs

/-- The wire bytes of a frame. -/
def RleFrame.wire : RleFrame → List Nat
  | .run n v => [n - RLE_MINIMUM_REPEAT, v]
  | .lit bs => (256 - bs.length) :: bs

/-- Length of the constant run at the head of a list. -/
def headRun : List Nat → Nat
  | [] => 0
  | [_] => 1
  | a :: b :: t => if a = b then headRun (b :: t) + 1 else 1

/-- Length of the constant run at the tail of a list. -/
def tailRun (l : List Nat) : Nat := headRun l.reverse

/-- Well-formed frames: a run frame holds 3..130 repeats of a byte; a
literal frame holds 1..128 bytes and does not end in a run of 3 or more
equal bytes. -/
def RleFrame.wf : RleFrame → Prop
  | .run n v => RLE_MINIMUM_REPEAT ≤ n ∧ n ≤ RLE_MAXIMUM_REPEAT ∧ v < 256
  | .lit bs => 1 ≤ bs.length ∧ bs.length ≤ RLE_MAX_LITERAL_SIZE ∧
      (∀ b ∈ bs, b < 256) ∧ tailRun bs < RLE_MINIMUM_REPEAT

/-- Parse a byte stream into its frame sequence, requiring the whole stream
to be consumed. -/
def parseFrames : List Nat → Option (List RleFrame)
  | [] => some []
  | h :: rest =>
    if h < 128 then
      match rest with
      | [] => none
      | v :: rest2 =>
        (parseFrames rest2).map (RleFrame.run (h + RLE_MINIMUM_REPEAT) v :: ·)
    else
      if hlen : 256 - h ≤ rest.length then
        (parseFrames (rest.drop (256 - h))).map
          (RleFrame.lit (rest.take (256 - h)) :: ·)
      else none
termination_by l => l.length
decreasing_by
  · simp only [List.length_cons]; omega
  · simp only [List.length_cons, List.length_drop]; omega

/-- The value stream carried by a fully parseable byte stream. -/
def parsePayload (l : List Nat) : Option (List Nat) :=
  (parseFrames l).map (fun fs => (fs.map RleFrame.payload).flatten)

theorem rle_min_eq : RLE_MINIMUM_REPEAT = 3 := rfl

theorem rle_max_eq : RLE_MAXIMUM_REPEAT = 130 := rfl

theorem rle_maxlit_eq : RLE_MAX_LITERAL_SIZE = 128 := rfl

theorem parseFrames_run_cons (h v : Nat) (rest2 : List Nat) (hh : h < 128) :
    parseFrames (h :: v :: rest2) =
      (parseFrames rest2).map (RleFrame.run (h + RLE_MINIMUM_REPEAT) v :: ·) := by
  simp only [parseFrames]
  rw [if_pos hh]

theorem parseFrames_lit_cons (h : Nat) (rest : List Nat) (hh : 128 ≤ h)
    (hb : h < 256) (hlen : 256 - h ≤ rest.length) :
    parseFrames (h :: rest) =
      (parseFrames (rest.drop (256 - h))).map
        (RleFrame.lit (rest.take (256 - h)) :: ·) := by
  cases rest with
  | nil => simp at hlen; omega
  | cons b rest2 =>
    simp only [parseFrames]
    rw [if_neg (by omega), dif_pos hlen]

theorem parseFrames_wire_append (f : RleFrame) (hwf : f.wf) (rest : List Nat) :
    parseFrames (f.wire ++ rest) = (parseFrames rest).map (f :: ·) := by
  cases f with
  | run n v =>
    obtain ⟨h1, h2, _⟩ := hwf
    rw [rle_min_eq] at h1
    rw [rle_max_eq] at h2
    show parseFrames ((n - RLE_MINIMUM_REPEAT) :: v :: rest) = _
    rw [parseFrames_run_cons _ _ _ (by rw [rle_min_eq]; omega)]
    have : n - RLE_MINIMUM_REPEAT + RLE_MINIMUM_REPEAT = n := by
      rw [rle_min_eq]; omega
    rw [this]
  | lit bs =>
    obtain ⟨h1, h2, _, _⟩ := hwf
    rw [rle_maxlit_eq] at h2
    show parseFrames ((256 - bs.length) :: (bs ++ rest)) = _
    have hlen : 256 - (256 - bs.length) = bs.length := by omega
    rw [parseFrames_lit_cons _ _ (by omega) (by omega)
      (by rw [hlen, List.length_append]; omega)]
    rw [hlen, List.take_append_of_le_length (le_refl _),
      List.take_length, List.drop_append_of_le_length (le_refl _),
      List.drop_length, List.nil_append]

theorem parseFrames_join (fs : List RleFrame) (hwf : ∀ f ∈ fs, f.wf) :
    ∀ rest, parseFrames ((fs.map RleFrame.wire).flatten ++ rest) =
      (parseFrames rest).map (fs ++ ·) := by
  induction fs with
  | nil =>
    intro rest
    simp only [List.map_nil, List.flatten_nil, List.nil_append]
    cases parseFrames rest with
    | none => rfl
    | some fs => simp
  | cons f fs ih =>
    intro rest
    simp only [List.map_cons, List.flatten_cons, List.append_assoc]
    rw [parseFrames_wire_append f (hwf f (List.mem_cons_self _ _)),
      ih (fun g hg => hwf g (List.mem_cons_of_mem _ hg))]
    cases parseFrames rest <;> simp

theorem parsePayload_of_frames (fs : List RleFrame) (hwf : ∀ f ∈ fs, f.wf) :
    parsePayload ((fs.map RleFrame.wire).flatten) =
      some ((fs.map RleFrame.payload).flatten) := by
  have := parseFrames_join fs hwf []
  rw [List.append_nil] at this
  unfold parsePayload
  rw [this]
  simp [parseFrames]

/-! ## Run-length bookkeeping lemmas -/

theorem headRun_cons (a : Nat) (t : List Nat) :
    headRun (a :: t) = if t.head? = some a then headRun t + 1 else 1 := by
  cases t with
  | nil => simp [headRun]
  | cons b t' =>
    simp only [headRun, List.head?_cons, Option.some.injEq]
    by_cases h : a = b
    · rw [if_pos h, if_pos h.symm]
    · rw [if_neg h, if_neg (fun hh => h hh.symm)]

theorem tailRun_nil : tailRun [] = 0 := rfl

theorem tailRun_snoc (l : List Nat) (v : Nat) :
    tailRun (l ++ [v]) = if l.getLast? = some v then tailRun l + 1 else 1 := by
  unfold tailRun
  rw [List.reverse_append]
  simp only [List.reverse_cons, List.reverse_nil, List.nil_append,
    List.singleton_append]
  rw [headRun_cons, List.head?_reverse]

theorem headRun_le_length : ∀ m : List Nat, headRun m ≤ m.length
  | [] => by simp [headRun]
  | [_] => by simp [headRun]
  | a :: b :: t => by
    simp only [headRun, List.length_cons]
    by_cases h : a = b
    · rw [if_pos h]
      have := headRun_le_length (b :: t)
      simp only [List.length_cons] at this
      omega
    · rw [if_neg h]; omega

theorem tailRun_le_length (l : List Nat) : tailRun l ≤ l.length := by
  unfold tailRun
  simpa using headRun_le_length l.reverse

theorem headRun_two (m : List Nat) (v : Nat) (h2 : headRun m = 2)
    (hh : m.head? = some v) : m = v :: v :: m.drop 2 := by
  match m with
  | [] => simp [headRun] at h2
  | [a] => simp [headRun] at h2
  | a :: b :: t =>
    simp only [List.head?_cons, Option.some.injEq] at hh
    subst hh
    simp only [headRun] at h2
    by_cases h : a = b
    · subst h; rfl
    · rw [if_neg h] at h2; omega

theorem headRun_eq_length :
    ∀ m : List Nat, headRun m = m.length →
      m = List.replicate m.length (m.headD 0)
  | [], _ => rfl
  | [a], _ => rfl
  | a :: b :: t, h => by
    simp only [headRun, List.length_cons] at h
    by_cases hab : a = b
    · rw [if_pos hab] at h
      have ih := headRun_eq_length (b :: t) (by
        simp only [List.length_cons]; omega)
      simp only [List.length_cons, List.headD_cons] at ih ⊢
      subst hab
      rw [List.replicate_succ]
      exact congrArg (a :: ·) ih
    · rw [if_neg hab] at h; omega

theorem tailRun_eq_length (L : List Nat) (h : tailRun L = L.length) :
    L = List.replicate L.length (L.headD 0) := by
  cases hL : L with
  | nil => rfl
  | cons a t =>
    subst hL
    unfold tailRun at h
    have h' := headRun_eq_length (a :: t).reverse (by simpa using h)
    have hrev := congrArg List.reverse h'
    rw [List.reverse_reverse, List.reverse_replicate] at hrev
    set c := (a :: t).reverse.headD 0 with hc
    have hlen : (a :: t).reverse.length = (a :: t).length := by simp
    rw [hlen] at hrev
    have hhead : (a :: t).headD 0 = c := by
      conv_lhs => rw [hrev]
      simp [List.replicate_succ]
    rw [hhead]
    exact hrev

theorem getLast?_of_ne_nil (l : List Nat) (h : l ≠ []) :
    l.getLast? = some (l.getLastD 0) := by
  cases hx : l.getLast? with
  | none => exact absurd (List.getLast?_eq_none_iff.mp hx) h
  | some x => rw [List.getLastD_eq_getLast?, hx]; rfl

/-! ## Encoder output invariant -/

theorem foldl_writeByte (bs : List Nat) : ∀ s : ByteRleEncoderImpl,
    bs.foldl ByteRleEncoderImpl.writeByte s =
      { s with out := s.out ++ bs.map (· % 256) } := by
  induction bs with
  | nil => intro s; simp
  | cons b bs ih =>
    intro s
    simp only [List.foldl_cons, ih, List.map_cons]
    simp [ByteRleEncoderImpl.writeByte]

theorem writeValues_numLiterals (s : ByteRleEncoderImpl) :
    s.writeValues.numLiterals_ = 0 := by
  unfold ByteRleEncoderImpl.writeValues
  split
  · assumption
  · rfl

theorem writeValues_of_numLiterals_zero (s : ByteRleEncoderImpl)
    (h : s.numLiterals_ = 0) : s.writeValues = s := by
  unfold ByteRleEncoderImpl.writeValues
  simp [h]

theorem writeValues_out_of_numLiterals_zero (s : ByteRleEncoderImpl)
    (h : s.numLiterals_ = 0) : s.writeValues.out = s.out := by
  rw [writeValues_of_numLiterals_zero s h]

theorem map_mod256_of_lt (l : List Nat) (hl : ∀ b ∈ l, b < 256) :
    l.map (· % 256) = l := by
  induction l with
  | nil => rfl
  | cons a t ih =>
    simp only [List.map_cons]
    rw [Nat.mod_eq_of_lt (hl a (List.mem_cons_self _ _)),
      ih (fun b hb => hl b (List.mem_cons_of_mem _ hb))]

/-- The frame the staged state would emit. -/
def ByteRleEncoderImpl.frameOf (s : ByteRleEncoderImpl) : RleFrame :=
  if s.repeat_ then RleFrame.run s.numLiterals_ (s.literals_.headD 0)
  else RleFrame.lit (s.literals_.take s.numLiterals_)

/-- Structural invariant of the encoder state between `write` calls. -/
def StructOk (s : ByteRleEncoderImpl) : Prop :=
  (s.repeat_ = true → RLE_MINIMUM_REPEAT ≤ s.numLiterals_ ∧
      s.numLiterals_ ≤ 129 ∧ s.literals_ ≠ [] ∧ s.literals_.headD 0 < 256) ∧
  (s.repeat_ = false → s.literals_.length = s.numLiterals_ ∧
      s.numLiterals_ ≤ 127 ∧ (∀ b ∈ s.literals_, b < 256) ∧
      (∀ k, tailRun (s.literals_.take k) ≤ 2) ∧
      (s.numLiterals_ ≠ 0 →
        s.tailRunLength_ = tailRun s.literals_ ∧ 1 ≤ s.tailRunLength_))

/-- Full invariant: the committed output is a well-formed frame stream whose
payload, together with the staged values, is exactly the value sequence
processed so far. -/
def EncOk (s : ByteRleEncoderImpl) (p : List Nat) : Prop :=
  StructOk s ∧
  ∃ fs : List RleFrame, s.out = (fs.map RleFrame.wire).flatten ∧
    (∀ f ∈ fs, f.wf) ∧
    (fs.map RleFrame.payload).flatten ++ s.frameOf.payload = p

theorem writeValues_eq (s : ByteRleEncoderImpl) (h : s.numLiterals_ ≠ 0)
    (hlen : s.repeat_ = false → s.numLiterals_ ≤ s.literals_.length)
    (hwf : s.frameOf.wf) :
    s.writeValues = { literals_ := [], numLiterals_ := 0, repeat_ := false,
                      tailRunLength_ := 0, out := s.out ++ s.frameOf.wire } := by
  unfold ByteRleEncoderImpl.writeValues
  rw [if_neg h]
  by_cases hr : s.repeat_ = true
  · unfold ByteRleEncoderImpl.frameOf at hwf ⊢
    rw [if_pos hr] at hwf ⊢
    obtain ⟨h1, h2, h3⟩ := hwf
    rw [rle_min_eq] at h1
    rw [rle_max_eq] at h2
    rw [if_pos hr]
    simp only [ByteRleEncoderImpl.writeByte, RleFrame.wire]
    have e1 : (s.numLiterals_ - RLE_MINIMUM_REPEAT) % 256 =
        s.numLiterals_ - RLE_MINIMUM_REPEAT := by
      rw [rle_min_eq]; omega
    have e2 : s.literals_.headD 0 % 256 = s.literals_.headD 0 :=
      Nat.mod_eq_of_lt h3
    simp only [e1, e2, List.append_assoc, List.singleton_append]
  · have hr' : s.repeat_ = false := by
      cases hrr : s.repeat_
      · rfl
      · exact absurd hrr hr
    unfold ByteRleEncoderImpl.frameOf at hwf ⊢
    rw [if_neg (by simp [hr']), if_neg (by simp [hr'])] at *
    obtain ⟨h1, h2, h3, _⟩ := hwf
    rw [rle_maxlit_eq] at h2
    have hlt : (s.literals_.take s.numLiterals_).length = s.numLiterals_ := by
      rw [List.length_take]
      exact Nat.min_eq_left (hlen hr')
    rw [foldl_writeByte]
    simp only [ByteRleEncoderImpl.writeByte, RleFrame.wire]
    have e1 : (256 - s.numLiterals_) % 256 = 256 - s.numLiterals_ := by
      rw [hlt] at h1; omega
    have e2 : (s.literals_.take s.numLiterals_).map (· % 256) =
        s.literals_.take s.numLiterals_ := map_mod256_of_lt _ h3
    simp only [hlt, e1, e2, List.append_assoc, List.singleton_append]

theorem take_all_of_length_eq (L : List Nat) (n : Nat) (h : L.length = n) :
    L.take n = L := by
  rw [← h]
  exact List.take_length _

theorem headD_mem (L : List Nat) (h : L ≠ []) : L.headD 0 ∈ L := by
  cases L with
  | nil => exact absurd rfl h
  | cons a t => simp

theorem encOk_init : EncOk ByteRleEncoderImpl.init [] := by
  refine ⟨⟨?_, ?_⟩, [], rfl, by simp, rfl⟩
  · intro h; simp [ByteRleEncoderImpl.init] at h
  · intro _
    refine ⟨rfl, by simp [ByteRleEncoderImpl.init], by simp [ByteRleEncoderImpl.init], ?_, ?_⟩
    · intro k; simp [ByteRleEncoderImpl.init, tailRun_nil]
    · intro h; exact absurd rfl h

theorem structOk_lit_of (X : ByteRleEncoderImpl) (hr : X.repeat_ = false)
    (h1 : X.literals_.length = X.numLiterals_) (h2 : X.numLiterals_ ≤ 127)
    (h3 : ∀ b ∈ X.literals_, b < 256)
    (h4 : ∀ k, tailRun (X.literals_.take k) ≤ 2)
    (h5 : X.numLiterals_ ≠ 0 →
      X.tailRunLength_ = tailRun X.literals_ ∧ 1 ≤ X.tailRunLength_) :
    StructOk X :=
  ⟨fun hb => by rw [hr] at hb; exact absurd hb (by simp),
   fun _ => ⟨h1, h2, h3, h4, h5⟩⟩

theorem structOk_run_of (X : ByteRleEncoderImpl) (hr : X.repeat_ = true)
    (h1 : 3 ≤ X.numLiterals_) (h2 : X.numLiterals_ ≤ 129)
    (h3 : X.literals_ ≠ []) (h4 : X.literals_.headD 0 < 256) :
    StructOk X :=
  ⟨fun _ => ⟨by rw [rle_min_eq]; exact h1, h2, h3, h4⟩,
   fun hb => by rw [hr] at hb; exact absurd hb (by simp)⟩

theorem frameOf_run (X : ByteRleEncoderImpl) (hr : X.repeat_ = true) :
    X.frameOf = RleFrame.run X.numLiterals_ (X.literals_.headD 0) := by
  unfold ByteRleEncoderImpl.frameOf
  rw [hr]
  simp

theorem frameOf_lit (X : ByteRleEncoderImpl) (hr : X.repeat_ = false) :
    X.frameOf = RleFrame.lit (X.literals_.take X.numLiterals_) := by
  unfold ByteRleEncoderImpl.frameOf
  rw [hr]
  simp

/-! Branch equations of `ByteRleEncoderImpl.write`. -/

theorem write_eq_fresh (s : ByteRleEncoderImpl) (v : Nat)
    (h0 : s.numLiterals_ = 0) :
    s.write v =
      { s with literals_ := [v], numLiterals_ := 1, tailRunLength_ := 1 } := by
  unfold ByteRleEncoderImpl.write
  rw [if_pos h0]

theorem write_eq_run_max (s : ByteRleEncoderImpl) (v : Nat)
    (h0 : s.numLiterals_ ≠ 0) (hr : s.repeat_ = true)
    (hveq : v = s.literals_.headD 0) (hmax : s.numLiterals_ + 1 = 130) :
    s.write v =
      ({ s with numLiterals_ := s.numLiterals_ + 1 } : ByteRleEncoderImpl).writeValues := by
  unfold ByteRleEncoderImpl.write
  simp only []
  rw [if_neg h0, hr, if_pos rfl, if_pos hveq,
    if_pos (show s.numLiterals_ + 1 = RLE_MAXIMUM_REPEAT by rw [rle_max_eq]; exact hmax)]

theorem write_eq_run_cont (s : ByteRleEncoderImpl) (v : Nat)
    (h0 : s.numLiterals_ ≠ 0) (hr : s.repeat_ = true)
    (hveq : v = s.literals_.headD 0) (hmax : s.numLiterals_ + 1 ≠ 130) :
    s.write v = { s with numLiterals_ := s.numLiterals_ + 1 } := by
  unfold ByteRleEncoderImpl.write
  simp only []
  rw [if_neg h0, hr, if_pos rfl, if_pos hveq,
    if_neg (show ¬ s.numLiterals_ + 1 = RLE_MAXIMUM_REPEAT by rw [rle_max_eq]; exact hmax)]

theorem write_eq_run_brk (s : ByteRleEncoderImpl) (v : Nat)
    (h0 : s.numLiterals_ ≠ 0) (hr : s.repeat_ = true)
    (hveq : ¬ v = s.literals_.headD 0) :
    s.write v =
      { s.writeValues with literals_ := [v], numLiterals_ := 1, tailRunLength_ := 1 } := by
  unfold ByteRleEncoderImpl.write
  simp only []
  rw [if_neg h0, hr, if_pos rfl, if_neg hveq]

theorem write_eq_lit_split (s : ByteRleEncoderImpl) (v t' : Nat)
    (h0 : s.numLiterals_ ≠ 0) (hr : s.repeat_ = false)
    (ht' : (if v = s.literals_.getLastD 0 then s.tailRunLength_ + 1 else 1) = t')
    (h3 : t' = 3) (hgt : s.numLiterals_ + 1 > 3) :
    s.write v =
      { ({ s with tailRunLength_ := t', numLiterals_ := s.numLiterals_ - (RLE_MINIMUM_REPEAT - 1) } : ByteRleEncoderImpl).writeValues with literals_ := [v], repeat_ := true, numLiterals_ := RLE_MINIMUM_REPEAT } := by
  unfold ByteRleEncoderImpl.write
  simp only []
  rw [if_neg h0, hr, if_neg (by simp)]
  by_cases hl : v = s.literals_.getLastD 0
  · rw [if_pos hl] at ht'
    subst ht'
    rw [if_pos hl]
    simp only []
    rw [if_pos (show s.tailRunLength_ + 1 = RLE_MINIMUM_REPEAT by rw [rle_min_eq]; exact h3),
      if_pos (show s.numLiterals_ + 1 > RLE_MINIMUM_REPEAT by rw [rle_min_eq]; exact hgt)]
  · rw [if_neg hl] at ht'
    subst ht'
    exact absurd h3 (by decide)

theorem write_eq_lit_to_run (s : ByteRleEncoderImpl) (v t' : Nat)
    (h0 : s.numLiterals_ ≠ 0) (hr : s.repeat_ = false)
    (ht' : (if v = s.literals_.getLastD 0 then s.tailRunLength_ + 1 else 1) = t')
    (h3 : t' = 3) (hle : ¬(s.numLiterals_ + 1 > 3)) :
    s.write v =
      { s with tailRunLength_ := t', repeat_ := true, numLiterals_ := RLE_MINIMUM_REPEAT } := by
  unfold ByteRleEncoderImpl.write
  simp only []
  rw [if_neg h0, hr, if_neg (by simp)]
  by_cases hl : v = s.literals_.getLastD 0
  · rw [if_pos hl] at ht'
    subst ht'
    rw [if_pos hl]
    simp only []
    rw [if_pos (show s.tailRunLength_ + 1 = RLE_MINIMUM_REPEAT by rw [rle_min_eq]; exact h3),
      if_neg (show ¬ s.numLiterals_ + 1 > RLE_MINIMUM_REPEAT by rw [rle_min_eq]; exact hle)]
  · rw [if_neg hl] at ht'
    subst ht'
    exact absurd h3 (by decide)

theorem write_eq_lit_full (s : ByteRleEncoderImpl) (v t' : Nat)
    (h0 : s.numLiterals_ ≠ 0) (hr : s.repeat_ = false)
    (ht' : (if v = s.literals_.getLastD 0 then s.tailRunLength_ + 1 else 1) = t')
    (h3 : ¬ t' = 3) (hfull : s.numLiterals_ + 1 = 128) :
    s.write v =
      ({ s with tailRunLength_ := t', literals_ := s.literals_ ++ [v], numLiterals_ := s.numLiterals_ + 1 } : ByteRleEncoderImpl).writeValues := by
  unfold ByteRleEncoderImpl.write
  simp only []
  rw [if_neg h0, hr, if_neg (by simp)]
  by_cases hl : v = s.literals_.getLastD 0
  · rw [if_pos hl] at ht'
    subst ht'
    rw [if_pos hl]
    simp only []
    rw [if_neg (show ¬ s.tailRunLength_ + 1 = RLE_MINIMUM_REPEAT by rw [rle_min_eq]; exact h3),
      if_pos (show s.numLiterals_ + 1 = RLE_MAX_LITERAL_SIZE by rw [rle_maxlit_eq]; exact hfull)]
  · rw [if_neg hl] at ht'
    subst ht'
    rw [if_neg hl]
    simp only []
    rw [if_neg (show ¬ (1 : Nat) = RLE_MINIMUM_REPEAT by rw [rle_min_eq]; decide),
      if_pos (show s.numLiterals_ + 1 = RLE_MAX_LITERAL_SIZE by rw [rle_maxlit_eq]; exact hfull)]

theorem write_eq_lit_stage (s : ByteRleEncoderImpl) (v t' : Nat)
    (h0 : s.numLiterals_ ≠ 0) (hr : s.repeat_ = false)
    (ht' : (if v = s.literals_.getLastD 0 then s.tailRunLength_ + 1 else 1) = t')
    (h3 : ¬ t' = 3) (hnf : ¬ s.numLiterals_ + 1 = 128) :
    s.write v =
      { s with tailRunLength_ := t', literals_ := s.literals_ ++ [v], numLiterals_ := s.numLiterals_ + 1 } := by
  unfold ByteRleEncoderImpl.write
  simp only []
  rw [if_neg h0, hr, if_neg (by simp)]
  by_cases hl : v = s.literals_.getLastD 0
  · rw [if_pos hl] at ht'
    subst ht'
    rw [if_pos hl]
    simp only []
    rw [if_neg (show ¬ s.tailRunLength_ + 1 = RLE_MINIMUM_REPEAT by rw [rle_min_eq]; exact h3),
      if_neg (show ¬ s.numLiterals_ + 1 = RLE_MAX_LITERAL_SIZE by rw [rle_maxlit_eq]; exact hnf)]
  · rw [if_neg hl] at ht'
    subst ht'
    rw [if_neg hl]
    simp only []
    rw [if_neg (show ¬ (1 : Nat) = RLE_MINIMUM_REPEAT by rw [rle_min_eq]; decide),
      if_neg (show ¬ s.numLiterals_ + 1 = RLE_MAX_LITERAL_SIZE by rw [rle_maxlit_eq]; exact hnf)]

theorem wf_append_one (fs : List RleFrame) (f : RleFrame)
    (hwf : ∀ g ∈ fs, g.wf) (hf : f.wf) : ∀ g ∈ fs ++ [f], g.wf := by
  intro g hg
  rcases List.mem_append.mp hg with h | h
  · exact hwf g h
  · rw [List.mem_singleton.mp h]; exact hf

theorem wire_append_one (fs : List RleFrame) (f : RleFrame) (out : List Nat)
    (hout : out = (fs.map RleFrame.wire).flatten) :
    out ++ f.wire = ((fs ++ [f]).map RleFrame.wire).flatten := by
  rw [hout]; simp [List.flatten_append]

theorem payload_append_one (fs : List RleFrame) (f : RleFrame) :
    ((fs ++ [f]).map RleFrame.payload).flatten =
      (fs.map RleFrame.payload).flatten ++ f.payload := by
  simp [List.flatten_append]

theorem decomp_of_tailRun_three (L : List Nat) (v : Nat)
    (h3 : tailRun (L ++ [v]) = 3) :
    L = L.take (L.length - 2) ++ [v, v] := by
  have hsnoc := tailRun_snoc L v
  rw [h3] at hsnoc
  by_cases hg : L.getLast? = some v
  · rw [if_pos hg] at hsnoc
    have htr : headRun L.reverse = 2 := by
      have : tailRun L = 2 := by omega
      unfold tailRun at this
      exact this
    have hdec := headRun_two L.reverse v htr
      (by rw [List.head?_reverse]; exact hg)
    have hrev := congrArg List.reverse hdec
    rw [List.reverse_reverse] at hrev
    set X := (L.reverse.drop 2).reverse with hX
    have hform : L = X ++ [v, v] := by
      rw [hrev]
      simp [hX]
    rw [hform, show (X ++ [v, v]).length - 2 = X.length by simp,
      List.take_append_of_le_length (le_refl _), List.take_length]
  · rw [if_neg hg] at hsnoc
    omega

theorem const_of_tailRun_full (L : List Nat) (v : Nat) (hne : L ≠ [])
    (hlen : L.length = 2) (h3 : tailRun (L ++ [v]) = 3) :
    L ++ [v] = List.replicate 3 (L.headD 0) := by
  have hfull := tailRun_eq_length (L ++ [v])
    (by rw [h3]; simp [hlen])
  have hh : (L ++ [v]).headD 0 = L.headD 0 := by
    cases L with
    | nil => exact absurd rfl hne
    | cons a t => simp
  rw [hh] at hfull
  rw [hfull]
  congr 1
  simp [hlen]

theorem encOk_write (s : ByteRleEncoderImpl) (p : List Nat) (v : Nat)
    (hs : EncOk s p) (hv : v < 256) : EncOk (s.write v) (p ++ [v]) := by
  obtain ⟨⟨hrepOk, hlitOk⟩, fs, hout, hwf, hpay⟩ := hs
  by_cases h0 : s.numLiterals_ = 0
  · -- A: fresh staging
    have hrf : s.repeat_ = false := by
      cases hb : s.repeat_
      · rfl
      · have := (hrepOk hb).1; rw [rle_min_eq] at this; omega
    rw [write_eq_fresh s v h0]
    rw [frameOf_lit s hrf, h0] at hpay
    simp only [RleFrame.payload, List.take_zero, List.append_nil] at hpay
    have hXA : ({ s with literals_ := [v], numLiterals_ := 1, tailRunLength_ := 1 } : ByteRleEncoderImpl).repeat_ = false := hrf
    refine ⟨structOk_lit_of _ hrf (by simp) (by simp) (by simpa using hv)
      ?_ ?_, fs, hout, hwf, ?_⟩
    · intro k
      show tailRun ([v].take k) ≤ 2
      cases k with
      | zero => simp [tailRun_nil]
      | succ k => simp [tailRun, headRun]
    · intro _
      exact ⟨rfl, le_refl _⟩
    · rw [frameOf_lit _ hXA]
      show (fs.map RleFrame.payload).flatten ++ List.take 1 [v] = p ++ [v]
      rw [hpay]
      rfl
  · by_cases hr : s.repeat_ = true
    · -- run mode
      obtain ⟨h3n, h129, hLne, hhead⟩ := hrepOk hr
      rw [rle_min_eq] at h3n
      rw [frameOf_run s hr] at hpay
      simp only [RleFrame.payload] at hpay
      have hnotf : ¬ s.repeat_ = false := by rw [hr]; simp
      by_cases hveq : v = s.literals_.headD 0
      · by_cases hmax : s.numLiterals_ + 1 = 130
        · -- B1: run reaches MAXIMUM_REPEAT, emit
          rw [write_eq_run_max s v h0 hr hveq hmax]
          have hXB : ({ s with numLiterals_ := s.numLiterals_ + 1 } : ByteRleEncoderImpl).repeat_ = true := hr
          have hwfX : (ByteRleEncoderImpl.frameOf { s with numLiterals_ := s.numLiterals_ + 1 }).wf := by
            rw [frameOf_run _ hXB]
            refine ⟨?_, ?_, hhead⟩
            · show RLE_MINIMUM_REPEAT ≤ s.numLiterals_ + 1
              rw [rle_min_eq]; omega
            · show s.numLiterals_ + 1 ≤ RLE_MAXIMUM_REPEAT
              rw [rle_max_eq]; omega
          rw [writeValues_eq { s with numLiterals_ := s.numLiterals_ + 1 } (by simp) (fun hf => absurd hf hnotf) hwfX]
          refine ⟨structOk_lit_of _ rfl (by simp) (by simp) (by simp)
            (fun k => by simp [tailRun_nil]) (fun h => absurd rfl h),
            fs ++ [ByteRleEncoderImpl.frameOf
              { s with numLiterals_ := s.numLiterals_ + 1 }], ?_, ?_, ?_⟩
          · exact wire_append_one fs _ _ hout
          · exact wf_append_one fs _ hwf hwfX
          · rw [payload_append_one]
            have hRfp : (ByteRleEncoderImpl.frameOf
                { literals_ := [], numLiterals_ := 0, repeat_ := false,
                  tailRunLength_ := 0,
                  out := s.out ++ (ByteRleEncoderImpl.frameOf
                    { s with numLiterals_ := s.numLiterals_ + 1 }).wire
                }).payload = [] := rfl
            rw [hRfp, List.append_nil, frameOf_run _ hXB]
            show (fs.map RleFrame.payload).flatten ++
              List.replicate (s.numLiterals_ + 1) (s.literals_.headD 0) =
              p ++ [v]
            rw [List.replicate_succ', ← List.append_assoc, hpay, hveq]
        · -- B2: run continues
          rw [write_eq_run_cont s v h0 hr hveq hmax]
          have hXB : ({ s with numLiterals_ := s.numLiterals_ + 1 } : ByteRleEncoderImpl).repeat_ = true := hr
          refine ⟨structOk_run_of _ hXB (by simp only []; omega)
            (by simp only []; omega) hLne hhead, fs, hout, hwf, ?_⟩
          rw [frameOf_run _ hXB]
          show (fs.map RleFrame.payload).flatten ++
            List.replicate (s.numLiterals_ + 1) (s.literals_.headD 0) =
            p ++ [v]
          rw [List.replicate_succ', ← List.append_assoc, hpay, hveq]
      · -- C: run broken, emit and stage v
        rw [write_eq_run_brk s v h0 hr hveq]
        have hwfC : s.frameOf.wf := by
          rw [frameOf_run s hr]
          exact ⟨by rw [rle_min_eq]; omega, by rw [rle_max_eq]; omega, hhead⟩
        rw [writeValues_eq _ h0 (fun hf => absurd hf hnotf) hwfC]
        refine ⟨structOk_lit_of _ rfl (by simp) (by simp) (by simpa using hv)
          ?_ ?_, fs ++ [s.frameOf], ?_, ?_, ?_⟩
        · intro k
          show tailRun ([v].take k) ≤ 2
          cases k with
          | zero => simp [tailRun_nil]
          | succ k => simp [tailRun, headRun]
        · intro _
          exact ⟨rfl, le_refl _⟩
        · exact wire_append_one fs _ _ hout
        · exact wf_append_one fs _ hwf hwfC
        · rw [payload_append_one, frameOf_run s hr]
          show (fs.map RleFrame.payload).flatten ++
            List.replicate s.numLiterals_ (s.literals_.headD 0) ++
            List.take 1 [v] = p ++ [v]
          rw [show (List.take 1 [v] : List Nat) = [v] from rfl,
            List.append_assoc, ← hpay, List.append_assoc]
    · -- D: literal mode, n ≠ 0
      have hrf : s.repeat_ = false := by
        cases hb : s.repeat_
        · rfl
        · exact absurd hb hr
      obtain ⟨hL, hn127, hbyt, htk, htrf⟩ := hlitOk hrf
      obtain ⟨htr, htr1⟩ := htrf h0
      have hLne : s.literals_ ≠ [] := by
        intro hc
        rw [hc] at hL
        exact h0 hL.symm
      have htv : (if v = s.literals_.getLastD 0 then s.tailRunLength_ + 1
          else 1) = tailRun (s.literals_ ++ [v]) := by
        rw [tailRun_snoc]
        have hg := getLast?_of_ne_nil s.literals_ hLne
        by_cases hl : v = s.literals_.getLastD 0
        · rw [if_pos hl, if_pos (by rw [hg]; exact congrArg some hl.symm), htr]
        · have hns : ¬ s.literals_.getLast? = some v := by
            rw [hg]
            intro hc
            apply hl
            injection hc with h2
            exact h2.symm
          rw [if_neg hl, if_neg hns]
      have htrL : tailRun s.literals_ ≤ 2 := by
        have := htk s.literals_.length
        rw [List.take_length] at this
        exact this
      rw [frameOf_lit s hrf, take_all_of_length_eq _ _ hL] at hpay
      simp only [RleFrame.payload] at hpay
      by_cases h3 : tailRun (s.literals_ ++ [v]) = 3
      · by_cases hgt : s.numLiterals_ + 1 > 3
        · -- D1a: split off the literal prefix, seed a run
          rw [write_eq_lit_split s v _ h0 hrf htv h3 hgt]
          have hn3 : 3 ≤ s.numLiterals_ := by omega
          have htk2 : (s.literals_.take (s.numLiterals_ - 2)).length =
              s.numLiterals_ - 2 := by
            rw [List.length_take]
            omega
          have hXD : ({ s with tailRunLength_ := tailRun (s.literals_ ++ [v]), numLiterals_ := s.numLiterals_ - (RLE_MINIMUM_REPEAT - 1) } : ByteRleEncoderImpl).repeat_ = false := hrf
          have hwfD : (RleFrame.lit (s.literals_.take (s.numLiterals_ - 2))).wf := by
            refine ⟨by rw [htk2]; omega, by rw [htk2, rle_maxlit_eq]; omega,
              fun b hb => hbyt b (List.mem_of_mem_take hb), ?_⟩
            rw [rle_min_eq]
            have := htk (s.numLiterals_ - 2)
            omega
          have hwfD' : (ByteRleEncoderImpl.frameOf { s with tailRunLength_ := tailRun (s.literals_ ++ [v]), numLiterals_ := s.numLiterals_ - (RLE_MINIMUM_REPEAT - 1) }).wf := by
            rw [frameOf_lit _ hXD]
            show (RleFrame.lit (s.literals_.take
              (s.numLiterals_ - (RLE_MINIMUM_REPEAT - 1)))).wf
            rw [rle_min_eq]
            exact hwfD
          rw [writeValues_eq { s with tailRunLength_ := tailRun (s.literals_ ++ [v]), numLiterals_ := s.numLiterals_ - (RLE_MINIMUM_REPEAT - 1) } (show ¬ s.numLiterals_ - (RLE_MINIMUM_REPEAT - 1) = 0 by rw [rle_min_eq]; omega) (fun _ => show s.numLiterals_ - (RLE_MINIMUM_REPEAT - 1) ≤ s.literals_.length by rw [rle_min_eq]; omega) hwfD']
          refine ⟨structOk_run_of _ rfl (by simp only [rle_min_eq]; omega)
            (by simp only [rle_min_eq]; omega) (by simp) (by simpa using hv),
            fs ++ [RleFrame.lit (s.literals_.take (s.numLiterals_ - 2))], ?_,
            ?_, ?_⟩
          · rw [frameOf_lit _ hXD]
            show s.out ++ (RleFrame.lit (s.literals_.take
              (s.numLiterals_ - (RLE_MINIMUM_REPEAT - 1)))).wire = _
            rw [rle_min_eq]
            exact wire_append_one fs _ _ hout
          · exact wf_append_one fs _ hwf hwfD
          · rw [payload_append_one, List.append_assoc]
            show (fs.map RleFrame.payload).flatten ++
              (s.literals_.take (s.numLiterals_ - 2) ++
                List.replicate RLE_MINIMUM_REPEAT v) = p ++ [v]
            rw [rle_min_eq]
            have hdec := decomp_of_tailRun_three s.literals_ v h3
            rw [hL] at hdec
            calc (fs.map RleFrame.payload).flatten ++
                (s.literals_.take (s.numLiterals_ - 2) ++
                  List.replicate 3 v)
                = (fs.map RleFrame.payload).flatten ++
                  ((s.literals_.take (s.numLiterals_ - 2) ++ [v, v]) ++ [v]) := by
                  simp [List.replicate_succ]
              _ = (fs.map RleFrame.payload).flatten ++ (s.literals_ ++ [v]) := by
                  rw [← hdec]
              _ = p ++ [v] := by rw [← List.append_assoc, hpay]
        · -- D1b: n = 2, convert the staged pair into a run
          rw [write_eq_lit_to_run s v _ h0 hrf htv h3 hgt]
          have hn2 : s.numLiterals_ = 2 := by
            have hlen3 := tailRun_le_length (s.literals_ ++ [v])
            rw [h3] at hlen3
            simp only [List.length_append, List.length_singleton, hL] at hlen3
            omega
          have hconst := const_of_tailRun_full s.literals_ v hLne
            (by rw [hL, hn2]) h3
          refine ⟨structOk_run_of _ rfl (by simp only [rle_min_eq]; omega)
            (by simp only [rle_min_eq]; omega) hLne
            (hbyt _ (headD_mem _ hLne)), fs, hout, hwf, ?_⟩
          show (fs.map RleFrame.payload).flatten ++
            List.replicate RLE_MINIMUM_REPEAT (s.literals_.headD 0) =
            p ++ [v]
          rw [rle_min_eq, ← hconst, ← List.append_assoc, hpay]
      · by_cases hfull : s.numLiterals_ + 1 = 128
        · -- D2a: literal buffer fills, emit
          rw [write_eq_lit_full s v _ h0 hrf htv h3 hfull]
          have hlen' : (s.literals_ ++ [v]).length = s.numLiterals_ + 1 := by
            simp [hL]
          have hbyt' : ∀ b ∈ s.literals_ ++ [v], b < 256 := by
            intro b hb
            rcases List.mem_append.mp hb with h | h
            · exact hbyt b h
            · rw [List.mem_singleton.mp h]; exact hv
          have ht2a : tailRun (s.literals_ ++ [v]) ≤ 2 := by
            rw [tailRun_snoc]
            by_cases hg : s.literals_.getLast? = some v
            · rw [if_pos hg]
              rw [tailRun_snoc, if_pos hg] at h3
              omega
            · rw [if_neg hg]; omega
          have hwfD2 : (RleFrame.lit (s.literals_ ++ [v])).wf := by
            refine ⟨by simp, by rw [hlen', rle_maxlit_eq]; omega, hbyt', ?_⟩
            rw [rle_min_eq]; omega
          have hXD2 : ({ s with tailRunLength_ := tailRun (s.literals_ ++ [v]), literals_ := s.literals_ ++ [v], numLiterals_ := s.numLiterals_ + 1 } : ByteRleEncoderImpl).repeat_ = false := hrf
          have hwfD2' : (ByteRleEncoderImpl.frameOf { s with tailRunLength_ := tailRun (s.literals_ ++ [v]), literals_ := s.literals_ ++ [v], numLiterals_ := s.numLiterals_ + 1 }).wf := by
            rw [frameOf_lit _ hXD2]
            show (RleFrame.lit ((s.literals_ ++ [v]).take
              (s.numLiterals_ + 1))).wf
            rw [take_all_of_length_eq _ _ hlen']
            exact hwfD2
          rw [writeValues_eq { s with tailRunLength_ := tailRun (s.literals_ ++ [v]), literals_ := s.literals_ ++ [v], numLiterals_ := s.numLiterals_ + 1 } (by simp) (fun _ => show s.numLiterals_ + 1 ≤ (s.literals_ ++ [v]).length by rw [hlen']) hwfD2']
          refine ⟨structOk_lit_of _ rfl (by simp) (by simp) (by simp)
            (fun k => by simp [tailRun_nil]) (fun h => absurd rfl h),
            fs ++ [RleFrame.lit (s.literals_ ++ [v])], ?_, ?_, ?_⟩
          · rw [frameOf_lit _ hXD2]
            show s.out ++ (RleFrame.lit ((s.literals_ ++ [v]).take
              (s.numLiterals_ + 1))).wire = _
            rw [take_all_of_length_eq _ _ hlen']
            exact wire_append_one fs _ _ hout
          · exact wf_append_one fs _ hwf hwfD2
          · rw [payload_append_one]
            have hRfp : (ByteRleEncoderImpl.frameOf
                { literals_ := [], numLiterals_ := 0, repeat_ := false,
                  tailRunLength_ := 0,
                  out := s.out ++ (ByteRleEncoderImpl.frameOf { s with tailRunLength_ := tailRun (s.literals_ ++ [v]), literals_ := s.literals_ ++ [v], numLiterals_ := s.numLiterals_ + 1 }).wire
                }).payload = [] := rfl
            rw [hRfp, List.append_nil]
            show (fs.map RleFrame.payload).flatten ++ (s.literals_ ++ [v]) =
              p ++ [v]
            rw [← List.append_assoc, hpay]
        · -- D2b: stage v
          rw [write_eq_lit_stage s v _ h0 hrf htv h3 hfull]
          have ht2 : tailRun (s.literals_ ++ [v]) ≤ 2 := by
            rw [tailRun_snoc]
            by_cases hg : s.literals_.getLast? = some v
            · rw [if_pos hg]
              rw [tailRun_snoc, if_pos hg] at h3
              omega
            · rw [if_neg hg]; omega
          have ht1 : 1 ≤ tailRun (s.literals_ ++ [v]) := by
            rw [tailRun_snoc]
            by_cases hg : s.literals_.getLast? = some v
            · rw [if_pos hg]; omega
            · rw [if_neg hg]
          have hXS : ({ s with tailRunLength_ := tailRun (s.literals_ ++ [v]), literals_ := s.literals_ ++ [v], numLiterals_ := s.numLiterals_ + 1 } : ByteRleEncoderImpl).repeat_ = false := hrf
          have hbyt' : ∀ b ∈ s.literals_ ++ [v], b < 256 := by
            intro b hb
            rcases List.mem_append.mp hb with h | h
            · exact hbyt b h
            · rw [List.mem_singleton.mp h]; exact hv
          refine ⟨structOk_lit_of _ hXS (by simp [hL])
            (by simp only []; omega) hbyt' ?_ ?_, fs, hout, hwf, ?_⟩
          · intro k
            show tailRun ((s.literals_ ++ [v]).take k) ≤ 2
            by_cases hk : k ≤ s.literals_.length
            · rw [List.take_append_of_le_length hk]
              exact htk k
            · rw [List.take_of_length_le (by simp; omega)]
              exact ht2
          · intro _
            exact ⟨rfl, ht1⟩
          · rw [frameOf_lit _ hXS]
            show (fs.map RleFrame.payload).flatten ++
              (s.literals_ ++ [v]).take (s.numLiterals_ + 1) = p ++ [v]
            rw [take_all_of_length_eq _ _ (by simp [hL]),
              ← List.append_assoc, hpay]

theorem encOk_foldl (vs : List Nat) :
    ∀ (s : ByteRleEncoderImpl) (p : List Nat), EncOk s p →
    (∀ v ∈ vs, v < 256) →
    EncOk (vs.foldl ByteRleEncoderImpl.write s) (p ++ vs) := by
  induction vs with
  | nil => intro s p h _; simpa using h
  | cons v vs ih =>
    intro s p h hv
    simp only [List.foldl_cons]
    have := ih (s.write v) (p ++ [v])
      (encOk_write s p v h (hv v (List.mem_cons_self _ _)))
      (fun b hb => hv b (List.mem_cons_of_mem _ hb))
    simpa [List.append_assoc] using this

/-- The value sequence `add` feeds into `write`: the data at the non-null
positions of `ranges`, in order. -/
def nonNullValues (data : Nat → Nat) (ranges : List Nat)
    (nulls : Option (Nat → Bool)) : List Nat :=
  (ranges.filter (fun pos => !isNullAt nulls pos)).map data

theorem add_foldl_spec (data : Nat → Nat) (isNull : Nat → Bool) :
    ∀ (ranges : List Nat) (s : ByteRleEncoderImpl) (c : Nat),
    ranges.foldl
      (fun acc pos =>
        if isNull pos then acc else (acc.1.write (data pos), acc.2 + 1))
      (s, c) =
      ((((ranges.filter (fun pos => !isNull pos)).map data).foldl
          ByteRleEncoderImpl.write s),
        c + ((ranges.filter (fun pos => !isNull pos)).map data).length) := by
  intro ranges
  induction ranges with
  | nil => intro s c; simp
  | cons pos rest ih =>
    intro s c
    simp only [List.foldl_cons]
    by_cases hn : isNull pos
    · rw [if_pos hn, ih]
      simp [hn]
    · rw [if_neg hn, ih]
      have hf : List.filter (fun pos => !isNull pos) (pos :: rest) =
          pos :: List.filter (fun pos => !isNull pos) rest := by
        simp [hn]
      rw [hf]
      simp only [List.map_cons, List.foldl_cons, List.length_cons,
        Prod.mk.injEq]
      exact ⟨by trivial, by omega⟩

theorem add_foldl_spec_none (data : Nat → Nat) :
    ∀ (ranges : List Nat) (s : ByteRleEncoderImpl) (c : Nat),
    ranges.foldl (fun acc pos => (acc.1.write (data pos), acc.2 + 1)) (s, c) =
      ((ranges.map data).foldl ByteRleEncoderImpl.write s,
        c + ranges.length) := by
  intro ranges
  induction ranges with
  | nil => intro s c; simp
  | cons pos rest ih =>
    intro s c
    simp only [List.foldl_cons, List.map_cons, List.length_cons, ih,
      Prod.mk.injEq]
    exact ⟨by trivial, by omega⟩

theorem add_eq (s : ByteRleEncoderImpl) (data : Nat → Nat) (ranges : List Nat)
    (nulls : Option (Nat → Bool)) :
    s.add data ranges nulls =
      ((nonNullValues data ranges nulls).foldl ByteRleEncoderImpl.write s,
        (nonNullValues data ranges nulls).length) := by
  cases nulls with
  | none =>
    show ranges.foldl _ (s, 0) = _
    rw [add_foldl_spec_none data ranges s 0]
    unfold nonNullValues
    simp [isNullAt]
  | some isNull =>
    show ranges.foldl _ (s, 0) = _
    rw [add_foldl_spec data isNull ranges s 0]
    unfold nonNullValues
    simp [isNullAt]

/-- Master encoder theorem: `add` over `ranges` followed by `flush` writes a
well-formed frame stream whose payload is exactly the non-null values. -/
theorem encode_spec (data : Nat → Nat) (ranges : List Nat)
    (nulls : Option (Nat → Bool))
    (h : ∀ pos ∈ ranges, data pos < 256) :
    ∃ fs : List RleFrame,
      ((ByteRleEncoderImpl.init.add data ranges nulls).1.flush).1.out =
        (fs.map RleFrame.wire).flatten ∧ (∀ f ∈ fs, f.wf) ∧
      (fs.map RleFrame.payload).flatten = nonNullValues data ranges nulls := by
  have hvals : ∀ v ∈ nonNullValues data ranges nulls, v < 256 := by
    intro v hv
    unfold nonNullValues at hv
    obtain ⟨pos, hpos, rfl⟩ := List.mem_map.mp hv
    exact h pos (List.mem_of_mem_filter hpos)
  have hfold := encOk_foldl (nonNullValues data ranges nulls) _ _ encOk_init
    hvals
  rw [List.nil_append] at hfold
  rw [add_eq]
  obtain ⟨⟨hrep, hlit⟩, fs, hout, hwf, hpay⟩ := hfold
  simp only [ByteRleEncoderImpl.flush]
  set t := (nonNullValues data ranges nulls).foldl ByteRleEncoderImpl.write
    ByteRleEncoderImpl.init with hT
  by_cases h0 : t.numLiterals_ = 0
  · have hrf : t.repeat_ = false := by
      cases hb : t.repeat_
      · rfl
      · have := (hrep hb).1; rw [rle_min_eq] at this; omega
    rw [frameOf_lit t hrf, h0] at hpay
    simp only [RleFrame.payload, List.take_zero, List.append_nil] at hpay
    exact ⟨fs, by rw [writeValues_of_numLiterals_zero _ h0]; exact hout,
      hwf, hpay⟩
  · have hlen : t.repeat_ = false → t.numLiterals_ ≤ t.literals_.length := by
      intro hf
      rw [(hlit hf).1]
    have hfwf : t.frameOf.wf := by
      by_cases hb : t.repeat_ = true
      · rw [frameOf_run t hb]
        obtain ⟨h1, h2, _, h4⟩ := hrep hb
        exact ⟨h1, by rw [rle_max_eq]; omega, h4⟩
      · have hrf : t.repeat_ = false := by
          cases hc : t.repeat_
          · rfl
          · exact absurd hc hb
        rw [frameOf_lit t hrf]
        obtain ⟨h1, h2, h3, h4, _⟩ := hlit hrf
        have htake : t.literals_.take t.numLiterals_ = t.literals_ :=
          take_all_of_length_eq _ _ h1
        rw [htake]
        refine ⟨by rw [h1]; omega, by rw [h1, rle_maxlit_eq]; omega, h3, ?_⟩
        rw [rle_min_eq]
        have := h4 t.literals_.length
        rw [List.take_length] at this
        omega
    rw [writeValues_eq t h0 hlen hfwf]
    refine ⟨fs ++ [t.frameOf], wire_append_one fs _ _ hout, ?_, ?_⟩
    · exact wf_append_one fs _ hwf hfwf
    · rw [payload_append_one]
      exact hpay

/-- C4: every frame the encoder emits is well-formed: the flushed output of
any `add`-then-`flush` run parses into a frame sequence in which every run
frame holds between `MINIMUM_REPEAT = 3` and `MAXIMUM_REPEAT = 130` repeats
of a byte (so its header byte is in `[0, 127]`), every literal frame holds
between 1 and `MAX_LITERAL_SIZE = 128` bytes, and no literal frame's payload
ends in 3 or more consecutive equal bytes. -/
theorem c4_emitted_frames_wellformed (data : Nat → Nat) (ranges : List Nat)
    (nulls : Option (Nat → Bool))
    (h : ∀ pos ∈ ranges, data pos < 256) :
    ∃ fs : List RleFrame,
      parseFrames
        (((ByteRleEncoderImpl.init.add data ranges nulls).1.flush).1.out) =
        some fs ∧
      ∀ f ∈ fs, f.wf := by
  obtain ⟨fs, hout, hwf, _⟩ := encode_spec data ranges nulls h
  refine ⟨fs, ?_, hwf⟩
  rw [hout]
  have := parseFrames_join fs hwf []
  rw [List.append_nil] at this
  rw [this]
  simp [parseFrames]

/-- C4 witness. -/
theorem c4_emitted_frames_wellformed_witness :
    (∀ pos ∈ List.range 8, (fun i => [1,2,3,4,4,4,4,4].getD i 0) pos < 256) ∧
    ∃ fs : List RleFrame,
      parseFrames
        (((ByteRleEncoderImpl.init.add (fun i => [1,2,3,4,4,4,4,4].getD i 0)
          (List.range 8) none).1.flush).1.out) = some fs ∧
      ∀ f ∈ fs, f.wf :=
  ⟨by decide,
   c4_emitted_frames_wellformed _ _ _ (by decide)⟩

/-! ## Decoder: payload abstraction and the reference writer -/

/-- Count of non-null positions in the window `[pos, nv)`. -/
def nnCount (nulls : Option (Nat → Bool)) (nv : Nat) : Nat → Nat
  | pos =>
    if pos < nv then
      (if isNullAt nulls pos then 0 else 1) + nnCount nulls nv (pos + 1)
    else 0
termination_by pos => nv - pos

/-- Reference writer: place the successive elements of `u` at the successive
non-null positions of `[pos, nv)` in `dst`. -/
def maskedScatter (nulls : Option (Nat → Bool)) (nv : Nat) :
    List Nat → List Nat → Nat → List Nat
  | dst, u, pos =>
    if pos < nv then
      if isNullAt nulls pos then maskedScatter nulls nv dst u (pos + 1)
      else
        match u with
        | [] => dst
        | x :: u' => maskedScatter nulls nv (dst.set pos x) u' (pos + 1)
    else dst
termination_by dst u pos => nv - pos

/-- The byte sequence still obtainable from a decoder state: the rest of the
current frame, then the payloads of the remaining frames. -/
def avail (s : ByteRleDecoder) : Option (List Nat) :=
  if s.repeating_ then
    (parsePayload s.input).map
      (List.replicate s.remainingValues_ s.value_ ++ ·)
  else if s.remainingValues_ ≤ s.input.length then
    (parsePayload (s.input.drop s.remainingValues_)).map
      (s.input.take s.remainingValues_ ++ ·)
  else none

theorem nnCount_stop (nulls : Option (Nat → Bool)) (nv pos : Nat)
    (h : ¬ pos < nv) : nnCount nulls nv pos = 0 := by
  rw [nnCount]
  rw [if_neg h]

theorem nnCount_step (nulls : Option (Nat → Bool)) (nv pos : Nat)
    (h : pos < nv) :
    nnCount nulls nv pos =
      (if isNullAt nulls pos then 0 else 1) + nnCount nulls nv (pos + 1) := by
  conv_lhs => rw [nnCount]
  rw [if_pos h]

theorem nnCount_split (nulls : Option (Nat → Bool)) (nv mid pos : Nat)
    (h1 : pos ≤ mid) (h2 : mid ≤ nv) :
    nnCount nulls nv pos = nnCount nulls mid pos + nnCount nulls nv mid := by
  have H : ∀ d pos, mid - pos = d → pos ≤ mid →
      nnCount nulls nv pos = nnCount nulls mid pos + nnCount nulls nv mid := by
    intro d
    induction d with
    | zero =>
      intro pos hd hp
      have : pos = mid := by omega
      subst this
      rw [nnCount_stop nulls pos pos (by omega)]
      omega
    | succ d ih =>
      intro pos hd hp
      have hlt : pos < mid := by omega
      rw [nnCount_step nulls nv pos (by omega),
        nnCount_step nulls mid pos hlt, ih (pos + 1) (by omega) (by omega)]
      omega
  exact H (mid - pos) pos rfl h1

theorem nnCount_le (nulls : Option (Nat → Bool)) (nv : Nat) (pos : Nat) :
    nnCount nulls nv pos ≤ nv - pos := by
  have H : ∀ d pos, nv - pos = d → nnCount nulls nv pos ≤ nv - pos := by
    intro d
    induction d with
    | zero =>
      intro pos hd
      rw [nnCount_stop nulls nv pos (by omega)]
      omega
    | succ d ih =>
      intro pos hd
      rw [nnCount_step nulls nv pos (by omega)]
      have := ih (pos + 1) (by omega)
      by_cases hn : isNullAt nulls pos <;> simp [hn] <;> omega
  exact H (nv - pos) pos rfl

theorem nnCount_none (nv pos : Nat) : nnCount none nv pos = nv - pos := by
  have H : ∀ d pos, nv - pos = d → nnCount none nv pos = nv - pos := by
    intro d
    induction d with
    | zero =>
      intro pos hd
      rw [nnCount_stop none nv pos (by omega)]
      omega
    | succ d ih =>
      intro pos hd
      rw [nnCount_step none nv pos (by omega)]
      have := ih (pos + 1) (by omega)
      simp [isNullAt] at this ⊢
      omega
  exact H (nv - pos) pos rfl

theorem nnCount_pos_of_nonnull (nulls : Option (Nat → Bool)) (nv pos : Nat)
    (h : pos < nv) (hn : isNullAt nulls pos = false) :
    1 ≤ nnCount nulls nv pos := by
  rw [nnCount_step nulls nv pos h, hn]
  simp

theorem maskedScatter_stop (nulls : Option (Nat → Bool)) (nv : Nat)
    (dst u : List Nat) (pos : Nat) (h : ¬ pos < nv) :
    maskedScatter nulls nv dst u pos = dst := by
  rw [maskedScatter.eq_def]
  simp only []
  rw [if_neg h]

theorem maskedScatter_step_null (nulls : Option (Nat → Bool)) (nv : Nat)
    (dst u : List Nat) (pos : Nat) (h : pos < nv)
    (hn : isNullAt nulls pos = true) :
    maskedScatter nulls nv dst u pos =
      maskedScatter nulls nv dst u (pos + 1) := by
  conv_lhs => rw [maskedScatter.eq_def]
  simp only []
  rw [if_pos h, if_pos hn]

theorem maskedScatter_step_nil (nulls : Option (Nat → Bool)) (nv : Nat)
    (dst : List Nat) (pos : Nat) (h : pos < nv)
    (hn : isNullAt nulls pos = false) :
    maskedScatter nulls nv dst [] pos = dst := by
  rw [maskedScatter.eq_def]
  simp only []
  rw [if_pos h, if_neg (by simp [hn])]

theorem maskedScatter_step_cons (nulls : Option (Nat → Bool)) (nv : Nat)
    (dst u' : List Nat) (x pos : Nat) (h : pos < nv)
    (hn : isNullAt nulls pos = false) :
    maskedScatter nulls nv dst (x :: u') pos =
      maskedScatter nulls nv (dst.set pos x) u' (pos + 1) := by
  conv_lhs => rw [maskedScatter.eq_def]
  simp only []
  rw [if_pos h, if_neg (by simp [hn])]

theorem maskedScatter_length (nulls : Option (Nat → Bool)) (nv : Nat)
    (pos : Nat) (dst u : List Nat) :
    (maskedScatter nulls nv dst u pos).length = dst.length := by
  have H : ∀ d pos (dst u : List Nat), nv - pos = d →
      (maskedScatter nulls nv dst u pos).length = dst.length := by
    intro d
    induction d with
    | zero =>
      intro pos dst u hd
      rw [maskedScatter_stop nulls nv dst u pos (by omega)]
    | succ d ih =>
      intro pos dst u hd
      by_cases hn : isNullAt nulls pos
      · rw [maskedScatter_step_null nulls nv dst u pos (by omega) hn,
          ih (pos + 1) dst u (by omega)]
      · have hn' : isNullAt nulls pos = false := by
          cases hb : isNullAt nulls pos
          · rfl
          · exact absurd hb hn
        cases u with
        | nil => rw [maskedScatter_step_nil nulls nv dst pos (by omega) hn']
        | cons x u' =>
          rw [maskedScatter_step_cons nulls nv dst u' x pos (by omega) hn',
            ih (pos + 1) _ u' (by omega), List.length_set]
  exact H (nv - pos) pos dst u rfl

theorem bool_eq_false_of_not {b : Bool} (h : ¬ b = true) : b = false := by
  cases b
  · rfl
  · exact absurd rfl h

theorem isNullAt_some (f : Nat → Bool) (i : Nat) : isNullAt (some f) i = f i :=
  rfl

theorem getD_set_ne (l : List Nat) (i j a : Nat) (h : i ≠ j) :
    (l.set i a).getD j 0 = l.getD j 0 := by
  rw [List.getD_eq_getElem?_getD, List.getD_eq_getElem?_getD,
    List.getElem?_set_ne h]

theorem getD_set_self (l : List Nat) (i a : Nat) (h : i < l.length) :
    (l.set i a).getD i 0 = a := by
  rw [List.getD_eq_getElem?_getD, List.getElem?_set_self h]
  rfl

theorem getD_take (l : List Nat) (n k : Nat) (h : k < n) :
    (l.take n).getD k 0 = l.getD k 0 := by
  rw [List.getD_eq_getElem?_getD, List.getD_eq_getElem?_getD,
    List.getElem?_take, if_pos h]

theorem getD_drop (l : List Nat) (n k : Nat) :
    (l.drop n).getD k 0 = l.getD (n + k) 0 := by
  rw [List.getD_eq_getElem?_getD, List.getD_eq_getElem?_getD,
    List.getElem?_drop]

theorem getD_replicate (v n k : Nat) (h : k < n) :
    (List.replicate n v).getD k 0 = v := by
  rw [List.getD_eq_getElem?_getD, List.getElem?_replicate, if_pos h]
  rfl

theorem getD_append_left (l1 l2 : List Nat) (i : Nat) (h : i < l1.length) :
    (l1 ++ l2).getD i 0 = l1.getD i 0 := by
  rw [List.getD_eq_getElem?_getD, List.getD_eq_getElem?_getD,
    List.getElem?_append_left h]

theorem getD_append_right (l1 l2 : List Nat) (i : Nat) (h : l1.length ≤ i) :
    (l1 ++ l2).getD i 0 = l2.getD (i - l1.length) 0 := by
  rw [List.getD_eq_getElem?_getD, List.getD_eq_getElem?_getD,
    List.getElem?_append_right h]

theorem list_eq_of_getD (a b : List Nat) (hl : a.length = b.length)
    (h : ∀ i, i < a.length → a.getD i 0 = b.getD i 0) : a = b := by
  apply List.ext_getElem hl
  intro i h1 h2
  have hi := h i h1
  rw [List.getD_eq_getElem?_getD, List.getD_eq_getElem?_getD,
    List.getElem?_eq_getElem h1, List.getElem?_eq_getElem h2] at hi
  simpa using hi

theorem maskedScatter_getD_preserved (nulls : Option (Nat → Bool))
    (nv i pos : Nat) (dst u : List Nat)
    (hcond : i < pos ∨ nv ≤ i ∨ isNullAt nulls i = true) :
    (maskedScatter nulls nv dst u pos).getD i 0 = dst.getD i 0 := by
  have H : ∀ d pos (dst u : List Nat), nv - pos = d →
      (i < pos ∨ nv ≤ i ∨ isNullAt nulls i = true) →
      (maskedScatter nulls nv dst u pos).getD i 0 = dst.getD i 0 := by
    intro d
    induction d with
    | zero =>
      intro pos dst u hd _
      rw [maskedScatter_stop nulls nv dst u pos (by omega)]
    | succ d ih =>
      intro pos dst u hd hcond
      by_cases hn : isNullAt nulls pos
      · rw [maskedScatter_step_null nulls nv dst u pos (by omega) hn]
        refine ih (pos + 1) dst u (by omega) ?_
        rcases hcond with h | h
        · left; omega
        · right; exact h
      · have hn' : isNullAt nulls pos = false := bool_eq_false_of_not hn
        cases u with
        | nil => rw [maskedScatter_step_nil nulls nv dst pos (by omega) hn']
        | cons x u' =>
          have hcond' : i < pos + 1 ∨ nv ≤ i ∨ isNullAt nulls i = true := by
            rcases hcond with h | h
            · left; omega
            · right; exact h
          have hne : pos ≠ i := by
            intro he
            subst he
            rcases hcond with h | h | h
            · omega
            · omega
            · rw [hn'] at h
              cases h
          rw [maskedScatter_step_cons nulls nv dst u' x pos (by omega) hn',
            ih (pos + 1) (dst.set pos x) u' (by omega) hcond',
            getD_set_ne dst pos i x hne]
  exact H (nv - pos) pos dst u rfl hcond

theorem maskedScatter_getD_write (nulls : Option (Nat → Bool)) (nv i : Nat)
    (pos : Nat) (dst u : List Nat) (h1 : pos ≤ i) (h2 : i < nv)
    (hni : isNullAt nulls i = false)
    (hcnt : nnCount nulls i pos < u.length) (hdl : i < dst.length) :
    (maskedScatter nulls nv dst u pos).getD i 0 =
      u.getD (nnCount nulls i pos) 0 := by
  have H : ∀ d pos (dst u : List Nat), i - pos = d → pos ≤ i →
      nnCount nulls i pos < u.length → i < dst.length →
      (maskedScatter nulls nv dst u pos).getD i 0 =
        u.getD (nnCount nulls i pos) 0 := by
    intro d
    induction d with
    | zero =>
      intro pos dst u hd hpi hcnt hdl
      have hpe : pos = i := by omega
      subst hpe
      rw [nnCount_stop nulls pos pos (by omega)] at hcnt ⊢
      cases u with
      | nil => simp at hcnt
      | cons x u' =>
        rw [maskedScatter_step_cons nulls nv dst u' x pos (by omega) hni,
          maskedScatter_getD_preserved nulls nv pos (pos + 1) (dst.set pos x)
            u' (Or.inl (by omega)),
          getD_set_self dst pos x hdl]
        rfl
    | succ d ih =>
      intro pos dst u hd hpi hcnt hdl
      have hpil : pos < i := by omega
      by_cases hn : isNullAt nulls pos
      · rw [maskedScatter_step_null nulls nv dst u pos (by omega) hn]
        have hc : nnCount nulls i pos = nnCount nulls i (pos + 1) := by
          rw [nnCount_step nulls i pos hpil, if_pos hn]
          omega
        rw [hc] at hcnt ⊢
        exact ih (pos + 1) dst u (by omega) (by omega) hcnt hdl
      · have hn' : isNullAt nulls pos = false := bool_eq_false_of_not hn
        have hcpos : nnCount nulls i pos = nnCount nulls i (pos + 1) + 1 := by
          rw [nnCount_step nulls i pos hpil, if_neg (by simp [hn'])]
          omega
        cases u with
        | nil =>
          rw [hcpos] at hcnt
          simp at hcnt
        | cons x u' =>
          have hrec := ih (pos + 1) (dst.set pos x) u' (by omega) (by omega)
            (by rw [hcpos] at hcnt; simp only [List.length_cons] at hcnt; omega)
            (by rw [List.length_set]; exact hdl)
          rw [maskedScatter_step_cons nulls nv dst u' x pos (by omega) hn',
            hrec, hcpos]
          rfl
  exact H (i - pos) pos dst u rfl h1 hcnt hdl

theorem maskedScatter_split (nulls : Option (Nat → Bool)) (nv mid pos : Nat)
    (dst u : List Nat) (h1 : pos ≤ mid) (h2 : mid ≤ nv)
    (hcnt : nnCount nulls mid pos ≤ u.length) :
    maskedScatter nulls nv dst u pos =
      maskedScatter nulls nv (maskedScatter nulls mid dst u pos)
        (u.drop (nnCount nulls mid pos)) mid := by
  have H : ∀ d pos (dst u : List Nat), mid - pos = d → pos ≤ mid →
      nnCount nulls mid pos ≤ u.length →
      maskedScatter nulls nv dst u pos =
        maskedScatter nulls nv (maskedScatter nulls mid dst u pos)
          (u.drop (nnCount nulls mid pos)) mid := by
    intro d
    induction d with
    | zero =>
      intro pos dst u hd hp _
      have hpe : pos = mid := by omega
      subst hpe
      rw [maskedScatter_stop nulls pos dst u pos (by omega),
        nnCount_stop nulls pos pos (by omega), List.drop_zero]
    | succ d ih =>
      intro pos dst u hd hp hcnt
      have hpm : pos < mid := by omega
      by_cases hn : isNullAt nulls pos
      · rw [maskedScatter_step_null nulls nv dst u pos (by omega) hn,
          maskedScatter_step_null nulls mid dst u pos hpm hn]
        have hc : nnCount nulls mid pos = nnCount nulls mid (pos + 1) := by
          rw [nnCount_step nulls mid pos hpm, if_pos hn]
          omega
        rw [hc] at hcnt ⊢
        exact ih (pos + 1) dst u (by omega) (by omega) hcnt
      · have hn' : isNullAt nulls pos = false := bool_eq_false_of_not hn
        have hcpos : nnCount nulls mid pos = nnCount nulls mid (pos + 1) + 1 := by
          rw [nnCount_step nulls mid pos hpm, if_neg (by simp [hn'])]
          omega
        cases u with
        | nil =>
          rw [hcpos] at hcnt
          simp at hcnt
        | cons x u' =>
          rw [maskedScatter_step_cons nulls nv dst u' x pos (by omega) hn',
            maskedScatter_step_cons nulls mid dst u' x pos hpm hn', hcpos]
          have hdrop : (x :: u').drop (nnCount nulls mid (pos + 1) + 1) =
              u'.drop (nnCount nulls mid (pos + 1)) := rfl
          rw [hdrop]
          exact ih (pos + 1) (dst.set pos x) u' (by omega) (by omega)
            (by rw [hcpos] at hcnt; simp only [List.length_cons] at hcnt; omega)
  exact H (mid - pos) pos dst u rfl h1 hcnt

theorem maskedScatter_congr (nulls : Option (Nat → Bool)) (nv pos : Nat)
    (dst u1 u2 : List Nat)
    (hagree : ∀ k, k < nnCount nulls nv pos → u1.getD k 0 = u2.getD k 0)
    (hl1 : nnCount nulls nv pos ≤ u1.length)
    (hl2 : nnCount nulls nv pos ≤ u2.length) :
    maskedScatter nulls nv dst u1 pos = maskedScatter nulls nv dst u2 pos := by
  have H : ∀ d pos (dst u1 u2 : List Nat), nv - pos = d →
      (∀ k, k < nnCount nulls nv pos → u1.getD k 0 = u2.getD k 0) →
      nnCount nulls nv pos ≤ u1.length → nnCount nulls nv pos ≤ u2.length →
      maskedScatter nulls nv dst u1 pos = maskedScatter nulls nv dst u2 pos := by
    intro d
    induction d with
    | zero =>
      intro pos dst u1 u2 hd _ _ _
      rw [maskedScatter_stop nulls nv dst u1 pos (by omega),
        maskedScatter_stop nulls nv dst u2 pos (by omega)]
    | succ d ih =>
      intro pos dst u1 u2 hd hagree hl1 hl2
      by_cases hn : isNullAt nulls pos
      · have hc : nnCount nulls nv pos = nnCount nulls nv (pos + 1) := by
          rw [nnCount_step nulls nv pos (by omega), if_pos hn]
          omega
        rw [hc] at hagree hl1 hl2
        rw [maskedScatter_step_null nulls nv dst u1 pos (by omega) hn,
          maskedScatter_step_null nulls nv dst u2 pos (by omega) hn]
        exact ih (pos + 1) dst u1 u2 (by omega) hagree hl1 hl2
      · have hn' : isNullAt nulls pos = false := bool_eq_false_of_not hn
        have hcpos : nnCount nulls nv pos = nnCount nulls nv (pos + 1) + 1 := by
          rw [nnCount_step nulls nv pos (by omega), if_neg (by simp [hn'])]
          omega
        cases u1 with
        | nil =>
          rw [hcpos] at hl1
          simp at hl1
        | cons x1 u1' =>
          cases u2 with
          | nil =>
            rw [hcpos] at hl2
            simp at hl2
          | cons x2 u2' =>
            have hx : x1 = x2 := hagree 0 (by omega)
            subst hx
            rw [maskedScatter_step_cons nulls nv dst u1' x1 pos (by omega) hn',
              maskedScatter_step_cons nulls nv dst u2' x1 pos (by omega) hn']
            refine ih (pos + 1) (dst.set pos x1) u1' u2' (by omega) ?_ ?_ ?_
            · intro k hk
              exact hagree (k + 1) (by omega)
            · rw [hcpos] at hl1
              simp only [List.length_cons] at hl1
              omega
            · rw [hcpos] at hl2
              simp only [List.length_cons] at hl2
              omega
  exact H (nv - pos) pos dst u1 u2 rfl hagree hl1 hl2

theorem skipNullsSome_stop (isNull : Nat → Bool) (nv pos : Nat)
    (h : ¬ pos < nv) : skipNullsSome isNull nv pos = pos := by
  rw [skipNullsSome.eq_def, if_neg h]

theorem skipNullsSome_null (isNull : Nat → Bool) (nv pos : Nat)
    (h : pos < nv) (hn : isNull pos = true) :
    skipNullsSome isNull nv pos = skipNullsSome isNull nv (pos + 1) := by
  conv_lhs => rw [skipNullsSome.eq_def]
  rw [if_pos h, if_pos hn]

theorem skipNullsSome_nonnull (isNull : Nat → Bool) (nv pos : Nat)
    (h : pos < nv) (hn : isNull pos = false) :
    skipNullsSome isNull nv pos = pos := by
  rw [skipNullsSome.eq_def, if_pos h, if_neg (by simp [hn])]

theorem skipNullsSome_ge (isNull : Nat → Bool) (nv pos : Nat) :
    pos ≤ skipNullsSome isNull nv pos := by
  have H : ∀ d pos, nv - pos = d → pos ≤ skipNullsSome isNull nv pos := by
    intro d
    induction d with
    | zero =>
      intro pos hd
      rw [skipNullsSome_stop isNull nv pos (by omega)]
    | succ d ih =>
      intro pos hd
      by_cases hn : isNull pos
      · rw [skipNullsSome_null isNull nv pos (by omega) hn]
        have := ih (pos + 1) (by omega)
        omega
      · rw [skipNullsSome_nonnull isNull nv pos (by omega)
          (bool_eq_false_of_not hn)]
  exact H (nv - pos) pos rfl

theorem skipNullsSome_le (isNull : Nat → Bool) (nv pos : Nat) (h : pos ≤ nv) :
    skipNullsSome isNull nv pos ≤ nv := by
  have H : ∀ d pos, nv - pos = d → pos ≤ nv →
      skipNullsSome isNull nv pos ≤ nv := by
    intro d
    induction d with
    | zero =>
      intro pos hd hp
      rw [skipNullsSome_stop isNull nv pos (by omega)]
      omega
    | succ d ih =>
      intro pos hd hp
      by_cases hn : isNull pos
      · rw [skipNullsSome_null isNull nv pos (by omega) hn]
        exact ih (pos + 1) (by omega) (by omega)
      · rw [skipNullsSome_nonnull isNull nv pos (by omega)
          (bool_eq_false_of_not hn)]
        omega
  exact H (nv - pos) pos rfl h

theorem skipNullsSome_nonnull_at (isNull : Nat → Bool) (nv pos : Nat)
    (h : skipNullsSome isNull nv pos < nv) :
    isNull (skipNullsSome isNull nv pos) = false := by
  have H : ∀ d pos, nv - pos = d → skipNullsSome isNull nv pos < nv →
      isNull (skipNullsSome isNull nv pos) = false := by
    intro d
    induction d with
    | zero =>
      intro pos hd hlt
      rw [skipNullsSome_stop isNull nv pos (by omega)] at hlt
      omega
    | succ d ih =>
      intro pos hd hlt
      by_cases hn : isNull pos
      · rw [skipNullsSome_null isNull nv pos (by omega) hn] at hlt ⊢
        exact ih (pos + 1) (by omega) hlt
      · have hn' : isNull pos = false := bool_eq_false_of_not hn
        rw [skipNullsSome_nonnull isNull nv pos (by omega) hn']
        exact hn'
  exact H (nv - pos) pos rfl h

theorem skipNullsSome_all_null (isNull : Nat → Bool) (nv pos i : Nat)
    (h1 : pos ≤ i) (h2 : i < skipNullsSome isNull nv pos) :
    isNull i = true := by
  have H : ∀ d pos, nv - pos = d → pos ≤ i →
      i < skipNullsSome isNull nv pos → isNull i = true := by
    intro d
    induction d with
    | zero =>
      intro pos hd hp hlt
      rw [skipNullsSome_stop isNull nv pos (by omega)] at hlt
      omega
    | succ d ih =>
      intro pos hd hp hlt
      by_cases hn : isNull pos
      · by_cases hip : i = pos
        · subst hip
          exact hn
        · rw [skipNullsSome_null isNull nv pos (by omega) hn] at hlt
          exact ih (pos + 1) (by omega) (by omega) hlt
      · rw [skipNullsSome_nonnull isNull nv pos (by omega)
          (bool_eq_false_of_not hn)] at hlt
        omega
  exact H (nv - pos) pos rfl h1 h2

theorem nnCount_skipNullsSome (isNull : Nat → Bool) (nv pos : Nat) :
    nnCount (some isNull) nv pos =
      nnCount (some isNull) nv (skipNullsSome isNull nv pos) := by
  have H : ∀ d pos, nv - pos = d →
      nnCount (some isNull) nv pos =
        nnCount (some isNull) nv (skipNullsSome isNull nv pos) := by
    intro d
    induction d with
    | zero =>
      intro pos hd
      rw [skipNullsSome_stop isNull nv pos (by omega)]
    | succ d ih =>
      intro pos hd
      by_cases hn : isNull pos
      · rw [skipNullsSome_null isNull nv pos (by omega) hn,
          nnCount_step (some isNull) nv pos (by omega), isNullAt_some,
          if_pos hn, ih (pos + 1) (by omega)]
        omega
      · rw [skipNullsSome_nonnull isNull nv pos (by omega)
          (bool_eq_false_of_not hn)]
  exact H (nv - pos) pos rfl

theorem maskedScatter_skipNullsSome (isNull : Nat → Bool) (nv pos : Nat)
    (dst u : List Nat) :
    maskedScatter (some isNull) nv dst u pos =
      maskedScatter (some isNull) nv dst u (skipNullsSome isNull nv pos) := by
  have H : ∀ d pos, nv - pos = d →
      maskedScatter (some isNull) nv dst u pos =
        maskedScatter (some isNull) nv dst u (skipNullsSome isNull nv pos) := by
    intro d
    induction d with
    | zero =>
      intro pos hd
      rw [skipNullsSome_stop isNull nv pos (by omega)]
    | succ d ih =>
      intro pos hd
      by_cases hn : isNull pos
      · rw [skipNullsSome_null isNull nv pos (by omega) hn,
          maskedScatter_step_null (some isNull) nv dst u pos (by omega)
            (by rw [isNullAt_some]; exact hn),
          ih (pos + 1) (by omega)]
      · rw [skipNullsSome_nonnull isNull nv pos (by omega)
          (bool_eq_false_of_not hn)]
  exact H (nv - pos) pos rfl

theorem overwriteAt_length (dst src : List Nat) (pos : Nat)
    (h : pos + src.length ≤ dst.length) :
    (overwriteAt dst pos src).length = dst.length := by
  unfold overwriteAt
  simp only [List.length_append, List.length_take, List.length_drop]
  omega

theorem overwriteAt_getD (dst src : List Nat) (pos i : Nat)
    (h : pos + src.length ≤ dst.length) :
    (overwriteAt dst pos src).getD i 0 =
      if pos ≤ i ∧ i < pos + src.length then src.getD (i - pos) 0
      else dst.getD i 0 := by
  unfold overwriteAt
  have htl : (dst.take pos).length = pos := List.length_take_of_le (by omega)
  by_cases h1 : i < pos
  · rw [if_neg (by omega), getD_append_left _ _ _ (by rw [List.length_append, htl]; omega),
      getD_append_left _ _ _ (by omega), getD_take dst pos i h1]
  · by_cases h2 : i < pos + src.length
    · rw [if_pos ⟨by omega, h2⟩,
        getD_append_left _ _ _ (by rw [List.length_append, htl]; omega),
        getD_append_right _ _ _ (by omega), htl]
    · rw [if_neg (by omega),
        getD_append_right _ _ _ (by rw [List.length_append, htl]; omega),
        List.length_append, htl, getD_drop]
      congr 1
      omega

theorem overwriteAt_eq_maskedScatter (dst src u : List Nat) (pos : Nat)
    (hlen : src.length ≤ u.length)
    (hagree : ∀ k, k < src.length → src.getD k 0 = u.getD k 0)
    (hbound : pos + src.length ≤ dst.length) :
    overwriteAt dst pos src =
      maskedScatter none (pos + src.length) dst u pos := by
  apply list_eq_of_getD
  · rw [overwriteAt_length dst src pos hbound,
      maskedScatter_length none (pos + src.length) pos dst u]
  · intro i hi
    rw [overwriteAt_length dst src pos hbound] at hi
    rw [overwriteAt_getD dst src pos i hbound]
    by_cases hwin : pos ≤ i ∧ i < pos + src.length
    · rw [if_pos hwin,
        maskedScatter_getD_write none (pos + src.length) i pos dst u hwin.1
          hwin.2 rfl (by rw [nnCount_none]; omega) hi,
        nnCount_none, hagree (i - pos) (by omega)]
    · have hcond : i < pos ∨ pos + src.length ≤ i ∨
          isNullAt none i = true := by
        rcases Nat.lt_or_ge i pos with h | h
        · exact Or.inl h
        · exact Or.inr (Or.inl (by omega))
      rw [if_neg hwin,
        maskedScatter_getD_preserved none (pos + src.length) i pos dst u hcond]

theorem runChunkNulls_zero (isNull : Nat → Bool) (value : Nat)
    (dst : List Nat) (pos : Nat) :
    runChunkNulls isNull value dst pos 0 = (dst, 0) := rfl

theorem runChunkNulls_succ_null (isNull : Nat → Bool) (value : Nat)
    (dst : List Nat) (pos c : Nat) (hn : isNull pos = true) :
    runChunkNulls isNull value dst pos (c + 1) =
      runChunkNulls isNull value dst (pos + 1) c := by
  simp only [runChunkNulls]
  rw [if_pos hn]

theorem runChunkNulls_succ_nonnull (isNull : Nat → Bool) (value : Nat)
    (dst : List Nat) (pos c : Nat) (hn : isNull pos = false) :
    runChunkNulls isNull value dst pos (c + 1) =
      ((runChunkNulls isNull value (dst.set pos value) (pos + 1) c).1,
       (runChunkNulls isNull value (dst.set pos value) (pos + 1) c).2 + 1) := by
  simp only [runChunkNulls]
  rw [if_neg (by simp [hn])]

theorem litChunkNulls_zero (isNull : Nat → Bool) (dst input : List Nat)
    (pos : Nat) :
    litChunkNulls isNull dst input pos 0 = some (dst, input, 0) := rfl

theorem litChunkNulls_succ_null (isNull : Nat → Bool) (dst input : List Nat)
    (pos c : Nat) (hn : isNull pos = true) :
    litChunkNulls isNull dst input pos (c + 1) =
      litChunkNulls isNull dst input (pos + 1) c := by
  simp only [litChunkNulls]
  rw [if_pos hn]

theorem litChunkNulls_succ_nil (isNull : Nat → Bool) (dst : List Nat)
    (pos c : Nat) (hn : isNull pos = false) :
    litChunkNulls isNull dst [] pos (c + 1) = none := by
  simp only [litChunkNulls]
  rw [if_neg (by simp [hn])]

theorem litChunkNulls_succ_cons (isNull : Nat → Bool) (dst rest : List Nat)
    (b pos c : Nat) (hn : isNull pos = false) :
    litChunkNulls isNull dst (b :: rest) pos (c + 1) =
      (litChunkNulls isNull (dst.set pos b) rest (pos + 1) c).map
        (fun r => (r.1, r.2.1, r.2.2 + 1)) := by
  simp only [litChunkNulls]
  rw [if_neg (by simp [hn])]

theorem runChunkNulls_spec (isNull : Nat → Bool) (value : Nat) :
    ∀ (count pos : Nat) (dst : List Nat),
    runChunkNulls isNull value dst pos count =
      (maskedScatter (some isNull) (pos + count) dst
        (List.replicate (nnCount (some isNull) (pos + count) pos) value) pos,
       nnCount (some isNull) (pos + count) pos) := by
  intro count
  induction count with
  | zero =>
    intro pos dst
    rw [runChunkNulls_zero, nnCount_stop (some isNull) (pos + 0) pos (by omega),
      maskedScatter_stop (some isNull) (pos + 0) dst
        (List.replicate 0 value) pos (by omega)]
  | succ count ih =>
    intro pos dst
    have harith : pos + (count + 1) = (pos + 1) + count := by omega
    rw [harith]
    by_cases hn : isNull pos
    · have hc : nnCount (some isNull) ((pos + 1) + count) pos =
          nnCount (some isNull) ((pos + 1) + count) (pos + 1) := by
        rw [nnCount_step (some isNull) ((pos + 1) + count) pos (by omega),
          isNullAt_some, if_pos hn]
        omega
      rw [runChunkNulls_succ_null isNull value dst pos count hn, hc,
        maskedScatter_step_null (some isNull) ((pos + 1) + count) dst
          (List.replicate
            (nnCount (some isNull) ((pos + 1) + count) (pos + 1)) value) pos
          (by omega) (by rw [isNullAt_some]; exact hn)]
      exact ih (pos + 1) dst
    · have hn' : isNull pos = false := bool_eq_false_of_not hn
      have hcpos : nnCount (some isNull) ((pos + 1) + count) pos =
          nnCount (some isNull) ((pos + 1) + count) (pos + 1) + 1 := by
        rw [nnCount_step (some isNull) ((pos + 1) + count) pos (by omega),
          isNullAt_some, if_neg (by simp [hn'])]
        omega
      rw [runChunkNulls_succ_nonnull isNull value dst pos count hn',
        ih (pos + 1) (dst.set pos value), hcpos, List.replicate_succ,
        maskedScatter_step_cons (some isNull) ((pos + 1) + count) dst
          (List.replicate
            (nnCount (some isNull) ((pos + 1) + count) (pos + 1)) value)
          value pos (by omega) (by rw [isNullAt_some]; exact hn')]

theorem litChunkNulls_spec (isNull : Nat → Bool) :
    ∀ (count pos : Nat) (dst input : List Nat),
    nnCount (some isNull) (pos + count) pos ≤ input.length →
    litChunkNulls isNull dst input pos count =
      some (maskedScatter (some isNull) (pos + count) dst input pos,
        input.drop (nnCount (some isNull) (pos + count) pos),
        nnCount (some isNull) (pos + count) pos) := by
  intro count
  induction count with
  | zero =>
    intro pos dst input _
    rw [litChunkNulls_zero, nnCount_stop (some isNull) (pos + 0) pos (by omega),
      maskedScatter_stop (some isNull) (pos + 0) dst input pos (by omega),
      List.drop_zero]
  | succ count ih =>
    intro pos dst input hcnt
    have harith : pos + (count + 1) = (pos + 1) + count := by omega
    rw [harith] at hcnt ⊢
    by_cases hn : isNull pos
    · have hc : nnCount (some isNull) ((pos + 1) + count) pos =
          nnCount (some isNull) ((pos + 1) + count) (pos + 1) := by
        rw [nnCount_step (some isNull) ((pos + 1) + count) pos (by omega),
          isNullAt_some, if_pos hn]
        omega
      rw [hc] at hcnt ⊢
      rw [litChunkNulls_succ_null isNull dst input pos count hn,
        maskedScatter_step_null (some isNull) ((pos + 1) + count) dst input pos
          (by omega) (by rw [isNullAt_some]; exact hn)]
      exact ih (pos + 1) dst input hcnt
    · have hn' : isNull pos = false := bool_eq_false_of_not hn
      have hcpos : nnCount (some isNull) ((pos + 1) + count) pos =
          nnCount (some isNull) ((pos + 1) + count) (pos + 1) + 1 := by
        rw [nnCount_step (some isNull) ((pos + 1) + count) pos (by omega),
          isNullAt_some, if_neg (by simp [hn'])]
        omega
      cases input with
      | nil =>
        rw [hcpos] at hcnt
        simp at hcnt
      | cons b rest =>
        have hrest : nnCount (some isNull) ((pos + 1) + count) (pos + 1) ≤
            rest.length := by
          rw [hcpos] at hcnt
          simp only [List.length_cons] at hcnt
          omega
        rw [litChunkNulls_succ_cons isNull dst rest b pos count hn',
          ih (pos + 1) (dst.set pos b) rest hrest, hcpos,
          maskedScatter_step_cons (some isNull) ((pos + 1) + count) dst rest b
            pos (by omega) (by rw [isNullAt_some]; exact hn')]
        rfl

theorem parseFrames_run_short (h : Nat) (hh : h < 128) :
    parseFrames [h] = none := by
  rw [parseFrames.eq_def]
  simp only [if_pos hh]

theorem parseFrames_lit_short (h : Nat) (rest : List Nat) (hh : 128 ≤ h)
    (hlen : ¬ 256 - h ≤ rest.length) :
    parseFrames (h :: rest) = none := by
  rw [parseFrames.eq_def]
  simp only [if_neg (show ¬ h < 128 by omega), dif_neg hlen]

theorem parseFrames_nil : parseFrames [] = some [] := by
  rw [parseFrames.eq_def]

theorem parsePayload_nil : parsePayload [] = some [] := by
  unfold parsePayload
  rw [parseFrames_nil]
  rfl

theorem parsePayload_run_cons (h v : Nat) (rest2 : List Nat) (hh : h < 128) :
    parsePayload (h :: v :: rest2) =
      (parsePayload rest2).map
        (List.replicate (h + RLE_MINIMUM_REPEAT) v ++ ·) := by
  unfold parsePayload
  rw [parseFrames_run_cons h v rest2 hh]
  cases hp : parseFrames rest2 with
  | none => rfl
  | some fs => simp [RleFrame.payload]

theorem parsePayload_lit_cons (h : Nat) (rest : List Nat) (hh : 128 ≤ h)
    (hb : h < 256) (hlen : 256 - h ≤ rest.length) :
    parsePayload (h :: rest) =
      (parsePayload (rest.drop (256 - h))).map (rest.take (256 - h) ++ ·) := by
  unfold parsePayload
  rw [parseFrames_lit_cons h rest hh hb hlen]
  cases hp : parseFrames (rest.drop (256 - h)) with
  | none => rfl
  | some fs => simp [RleFrame.payload]

theorem readHeader_run (s : ByteRleDecoder) (h v : Nat) (rest2 : List Nat)
    (hin : s.input = h :: v :: rest2) (hh : h < 128) :
    s.readHeader = some { s with input := rest2, remainingValues_ := h + RLE_MINIMUM_REPEAT, repeating_ := true, value_ := v } := by
  unfold ByteRleDecoder.readHeader
  rw [hin]
  simp only [if_pos hh]

theorem readHeader_lit (s : ByteRleDecoder) (h : Nat) (rest : List Nat)
    (hin : s.input = h :: rest) (hh : ¬ h < 128) :
    s.readHeader = some { s with input := rest, remainingValues_ := 256 - h, repeating_ := false } := by
  unfold ByteRleDecoder.readHeader
  rw [hin]
  simp only [if_neg hh]

theorem avail_length (s : ByteRleDecoder) (u : List Nat)
    (hav : avail s = some u) : s.remainingValues_ ≤ u.length := by
  unfold avail at hav
  by_cases hr : s.repeating_
  · rw [if_pos hr] at hav
    rcases Option.map_eq_some'.mp hav with ⟨t, ht, hu⟩
    subst hu
    simp only [List.length_append, List.length_replicate]
    omega
  · rw [if_neg hr] at hav
    by_cases hle : s.remainingValues_ ≤ s.input.length
    · rw [if_pos hle] at hav
      rcases Option.map_eq_some'.mp hav with ⟨t, ht, hu⟩
      subst hu
      simp only [List.length_append, List.length_take_of_le hle]
      omega
    · rw [if_neg hle] at hav
      cases hav

theorem avail_run_values (s : ByteRleDecoder) (u : List Nat)
    (hr : s.repeating_ = true) (hav : avail s = some u) (k : Nat)
    (hk : k < s.remainingValues_) : u.getD k 0 = s.value_ := by
  unfold avail at hav
  rw [if_pos hr] at hav
  rcases Option.map_eq_some'.mp hav with ⟨t, ht, hu⟩
  subst hu
  rw [getD_append_left _ _ _ (by rw [List.length_replicate]; omega),
    getD_replicate _ _ _ hk]

theorem avail_run_drop (s : ByteRleDecoder) (u : List Nat) (c : Nat)
    (hr : s.repeating_ = true) (hav : avail s = some u)
    (hc : c ≤ s.remainingValues_) :
    avail { s with remainingValues_ := s.remainingValues_ - c } =
      some (u.drop c) := by
  unfold avail at hav ⊢
  rw [if_pos hr] at hav
  rcases Option.map_eq_some'.mp hav with ⟨t, ht, hu⟩
  subst hu
  rw [if_pos hr, ht, Option.map_some',
    List.drop_append_of_le_length (by rw [List.length_replicate]; omega),
    List.drop_replicate]

theorem avail_lit_le (s : ByteRleDecoder) (u : List Nat)
    (hr : s.repeating_ = false) (hav : avail s = some u) :
    s.remainingValues_ ≤ s.input.length := by
  unfold avail at hav
  rw [if_neg (by simp [hr])] at hav
  by_cases hle : s.remainingValues_ ≤ s.input.length
  · exact hle
  · rw [if_neg hle] at hav
    cases hav

theorem avail_lit_values (s : ByteRleDecoder) (u : List Nat)
    (hr : s.repeating_ = false) (hav : avail s = some u) (k : Nat)
    (hk : k < s.remainingValues_) : u.getD k 0 = s.input.getD k 0 := by
  have hle := avail_lit_le s u hr hav
  unfold avail at hav
  rw [if_neg (by simp [hr]), if_pos hle] at hav
  rcases Option.map_eq_some'.mp hav with ⟨t, ht, hu⟩
  subst hu
  rw [getD_append_left _ _ _ (by rw [List.length_take_of_le hle]; omega),
    getD_take _ _ _ hk]

theorem avail_lit_drop (s : ByteRleDecoder) (u : List Nat) (c : Nat)
    (hr : s.repeating_ = false) (hav : avail s = some u)
    (hc : c ≤ s.remainingValues_) :
    avail { s with input := s.input.drop c, remainingValues_ := s.remainingValues_ - c } = some (u.drop c) := by
  have hle := avail_lit_le s u hr hav
  unfold avail at hav ⊢
  rw [if_neg (by simp [hr]), if_pos hle] at hav
  rcases Option.map_eq_some'.mp hav with ⟨t, ht, hu⟩
  subst hu
  have he : c + (s.remainingValues_ - c) = s.remainingValues_ := by omega
  rw [if_neg (by simp [hr]),
    if_pos (by simp only [List.length_drop]; omega),
    List.drop_drop, he, ht, Option.map_some',
    List.drop_append_of_le_length (by rw [List.length_take_of_le hle]; omega),
    List.drop_take]

theorem avail_of_rv_zero (s : ByteRleDecoder) (u : List Nat)
    (hrv : s.remainingValues_ = 0) (hav : avail s = some u) :
    parsePayload s.input = some u := by
  unfold avail at hav
  by_cases hr : s.repeating_
  · rw [if_pos hr] at hav
    rcases Option.map_eq_some'.mp hav with ⟨t, ht, hu⟩
    rw [hrv] at hu
    simp only [List.replicate_zero, List.nil_append] at hu
    rw [ht, hu]
  · rw [if_neg hr, if_pos (by omega)] at hav
    rcases Option.map_eq_some'.mp hav with ⟨t, ht, hu⟩
    rw [hrv] at hu ht
    simp only [List.take_zero, List.nil_append] at hu
    simp only [List.drop_zero] at ht
    rw [ht, hu]

theorem avail_readHeader (s : ByteRleDecoder) (u : List Nat)
    (hrv : s.remainingValues_ = 0) (hav : avail s = some u) (hne : u ≠ [])
    (hb : ∀ b ∈ s.input, b < 256) :
    ∃ s1, s.readHeader = some s1 ∧ avail s1 = some u ∧
      1 ≤ s1.remainingValues_ ∧ (∀ b ∈ s1.input, b < 256) ∧
      s1.pendingSkip_ = s.pendingSkip_ := by
  have hpp := avail_of_rv_zero s u hrv hav
  cases hin : s.input with
  | nil =>
    rw [hin, parsePayload_nil] at hpp
    cases hpp
    exact absurd rfl hne
  | cons h rest =>
    rw [hin] at hpp hb
    have hhb : h < 256 := hb h (by simp)
    by_cases hh : h < 128
    · cases rest with
      | nil =>
        exfalso
        unfold parsePayload at hpp
        rw [parseFrames_run_short h hh] at hpp
        cases hpp
      | cons v rest2 =>
        rw [parsePayload_run_cons h v rest2 hh] at hpp
        rcases Option.map_eq_some'.mp hpp with ⟨t, ht, hu⟩
        refine ⟨{ s with input := rest2, remainingValues_ := h + RLE_MINIMUM_REPEAT, repeating_ := true, value_ := v }, readHeader_run s h v rest2 hin hh, ?_, ?_, ?_, rfl⟩
        · unfold avail
          rw [if_pos rfl, ht, Option.map_some', hu]
        · show 1 ≤ h + RLE_MINIMUM_REPEAT
          simp only [rle_min_eq]
          omega
        · intro b hbm
          exact hb b (List.mem_cons_of_mem _ (List.mem_cons_of_mem _ hbm))
    · have hlen : 256 - h ≤ rest.length := by
        by_contra hcon
        have hnone := parseFrames_lit_short h rest (by omega) hcon
        unfold parsePayload at hpp
        rw [hnone] at hpp
        cases hpp
      rw [parsePayload_lit_cons h rest (by omega) hhb hlen] at hpp
      rcases Option.map_eq_some'.mp hpp with ⟨t, ht, hu⟩
      refine ⟨{ s with input := rest, remainingValues_ := 256 - h, repeating_ := false }, readHeader_lit s h rest hin hh, ?_, ?_, ?_, rfl⟩
      · unfold avail
        rw [if_neg (by simp), if_pos hlen, ht, Option.map_some', hu]
      · show 1 ≤ 256 - h
        omega
      · intro b hbm
        exact hb b (List.mem_cons_of_mem _ hbm)

theorem skipNulls_none (nv pos : Nat) : skipNulls none nv pos = pos := rfl

theorem skipNulls_some (f : Nat → Bool) (nv pos : Nat) :
    skipNulls (some f) nv pos = skipNullsSome f nv pos := rfl

theorem skipNulls_ge (nulls : Option (Nat → Bool)) (nv pos : Nat) :
    pos ≤ skipNulls nulls nv pos := by
  cases nulls with
  | none => exact Nat.le_refl pos
  | some f => exact skipNullsSome_ge f nv pos

theorem skipNulls_nonnull_at (nulls : Option (Nat → Bool)) (nv pos : Nat)
    (h : skipNulls nulls nv pos < nv) :
    isNullAt nulls (skipNulls nulls nv pos) = false := by
  cases nulls with
  | none => rfl
  | some f => exact skipNullsSome_nonnull_at f nv pos h

theorem nnCount_skipNulls (nulls : Option (Nat → Bool)) (nv pos : Nat) :
    nnCount nulls nv pos = nnCount nulls nv (skipNulls nulls nv pos) := by
  cases nulls with
  | none => rfl
  | some f => exact nnCount_skipNullsSome f nv pos

theorem maskedScatter_skipNulls (nulls : Option (Nat → Bool)) (nv pos : Nat)
    (dst u : List Nat) :
    maskedScatter nulls nv dst u pos =
      maskedScatter nulls nv dst u (skipNulls nulls nv pos) := by
  cases nulls with
  | none => rfl
  | some f => exact maskedScatter_skipNullsSome f nv pos dst u

theorem nnCount_zero_of_skipNulls_ge (nulls : Option (Nat → Bool))
    (nv pos : Nat) (h : ¬ skipNulls nulls nv pos < nv) :
    nnCount nulls nv pos = 0 := by
  rw [nnCount_skipNulls nulls nv pos]
  exact nnCount_stop nulls nv _ h

theorem maskedScatter_id_of_skipNulls_ge (nulls : Option (Nat → Bool))
    (nv pos : Nat) (dst u : List Nat) (h : ¬ skipNulls nulls nv pos < nv) :
    maskedScatter nulls nv dst u pos = dst := by
  rw [maskedScatter_skipNulls nulls nv pos dst u]
  exact maskedScatter_stop nulls nv dst u _ h

theorem nnCount_pos_of_skipNulls_lt (nulls : Option (Nat → Bool))
    (nv pos : Nat) (h : skipNulls nulls nv pos < nv) :
    1 ≤ nnCount nulls nv pos := by
  rw [nnCount_skipNulls nulls nv pos]
  exact nnCount_pos_of_nonnull nulls nv _ h (skipNulls_nonnull_at nulls nv pos h)

theorem nextLoop_done (nulls : Option (Nat → Bool)) (nv fuel : Nat)
    (s : ByteRleDecoder) (data : List Nat) (pos : Nat)
    (h : ¬ skipNulls nulls nv pos < nv) :
    ByteRleDecoder.nextLoop nulls nv fuel s data pos = some (s, data) := by
  rw [ByteRleDecoder.nextLoop.eq_def]
  simp only [if_neg h]

/-- The frame loop of `ByteRleDecoder::next` realises the reference writer:
with the payload `u` available and enough of it to cover the non-null
positions of the window, the loop fills exactly those positions with the
successive payload bytes and leaves the rest of the payload available. -/
theorem nextLoop_spec (nulls : Option (Nat → Bool)) (nv : Nat) :
    ∀ (fuel : Nat) (s : ByteRleDecoder) (data : List Nat) (pos : Nat)
      (u : List Nat),
    avail s = some u →
    nnCount nulls nv pos ≤ u.length →
    nv ≤ data.length →
    (∀ b ∈ s.input, b < 256) →
    nv - pos ≤ fuel →
    ∃ s', ByteRleDecoder.nextLoop nulls nv fuel s data pos =
        some (s', maskedScatter nulls nv data u pos) ∧
      avail s' = some (u.drop (nnCount nulls nv pos)) ∧
      (∀ b ∈ s'.input, b < 256) ∧
      s'.pendingSkip_ = s.pendingSkip_ := by
  intro fuel
  induction fuel with
  | zero =>
    intro s data pos u hav hcnt hlen hb hfuel
    have hge : ¬ skipNulls nulls nv pos < nv := by
      have := skipNulls_ge nulls nv pos
      omega
    refine ⟨s, ?_, ?_, hb, rfl⟩
    · rw [nextLoop_done nulls nv 0 s data pos hge,
        maskedScatter_id_of_skipNulls_ge nulls nv pos data u hge]
    · rw [nnCount_zero_of_skipNulls_ge nulls nv pos hge, List.drop_zero]
      exact hav
  | succ fuel ih =>
    intro s data pos u hav hcnt hlen hb hfuel
    by_cases h1 : skipNulls nulls nv pos < nv
    · have hposge : pos ≤ skipNulls nulls nv pos := skipNulls_ge nulls nv pos
      have hnn1 : 1 ≤ nnCount nulls nv pos :=
        nnCount_pos_of_skipNulls_lt nulls nv pos h1
      have hne : u ≠ [] := by
        intro he
        subst he
        simp only [List.length_nil, Nat.le_zero] at hcnt
        omega
      have hs1 : ∃ s1,
          (if s.remainingValues_ = 0 then s.readHeader else some s) = some s1 ∧
          avail s1 = some u ∧ 1 ≤ s1.remainingValues_ ∧
          (∀ b ∈ s1.input, b < 256) ∧ s1.pendingSkip_ = s.pendingSkip_ := by
        by_cases hrv : s.remainingValues_ = 0
        · rcases avail_readHeader s u hrv hav hne hb with
            ⟨s1, hrh, hav1, hrv1, hb1, hps1⟩
          exact ⟨s1, by rw [if_pos hrv, hrh], hav1, hrv1, hb1, hps1⟩
        · exact ⟨s, by rw [if_neg hrv], hav, by omega, hb, rfl⟩
      rcases hs1 with ⟨s1, hs1eq, hav1, hrv1, hb1, hps1⟩
      have hrvle : s1.remainingValues_ ≤ u.length := avail_length s1 u hav1
      cases nulls with
      | none =>
        rw [skipNulls_none] at h1
        have hcnt1 : 1 ≤ min (nv - pos) s1.remainingValues_ := by omega
        have hcntle : min (nv - pos) s1.remainingValues_ ≤
            s1.remainingValues_ := by omega
        have hmid : pos + min (nv - pos) s1.remainingValues_ ≤ nv := by omega
        have hcn : nnCount none (pos + min (nv - pos) s1.remainingValues_) pos =
            min (nv - pos) s1.remainingValues_ := by
          rw [nnCount_none]
          omega
        have hnnnv : nnCount none nv pos = nv - pos := nnCount_none nv pos
        have hnnmid : nnCount none nv (pos + min (nv - pos) s1.remainingValues_) =
            nv - (pos + min (nv - pos) s1.remainingValues_) :=
          nnCount_none nv _
        have hcnt' : nnCount none nv (pos + min (nv - pos) s1.remainingValues_) ≤
            (u.drop (min (nv - pos) s1.remainingValues_)).length := by
          rw [List.length_drop, hnnmid]
          rw [hnnnv] at hcnt
          omega
        have hfuel' : nv - (pos + min (nv - pos) s1.remainingValues_) ≤ fuel := by
          omega
        have hsplitms : maskedScatter none nv data u pos =
            maskedScatter none nv
              (maskedScatter none (pos + min (nv - pos) s1.remainingValues_) data u pos)
              (u.drop (min (nv - pos) s1.remainingValues_))
              (pos + min (nv - pos) s1.remainingValues_) := by
          have hs := maskedScatter_split none nv
            (pos + min (nv - pos) s1.remainingValues_) pos data u (by omega)
            hmid (by rw [hcn]; omega)
          rw [hcn] at hs
          exact hs
        have harr : min (nv - pos) s1.remainingValues_ +
            nnCount none nv (pos + min (nv - pos) s1.remainingValues_) =
            nnCount none nv pos := by
          rw [hnnnv, hnnmid]
          omega
        by_cases hr1 : s1.repeating_
        · have hov : overwriteAt data pos
              (List.replicate (min (nv - pos) s1.remainingValues_) s1.value_) =
              maskedScatter none
                (pos + (List.replicate (min (nv - pos) s1.remainingValues_) s1.value_).length)
                data u pos := by
            apply overwriteAt_eq_maskedScatter
            · rw [List.length_replicate]
              omega
            · intro k hk
              rw [List.length_replicate] at hk
              rw [getD_replicate _ _ _ hk,
                avail_run_values s1 u hr1 hav1 k (by omega)]
            · rw [List.length_replicate]
              omega
          rw [List.length_replicate] at hov
          have havn := avail_run_drop s1 u (min (nv - pos) s1.remainingValues_) hr1 hav1 (by omega)
          have hlen' : nv ≤ (maskedScatter none
              (pos + min (nv - pos) s1.remainingValues_) data u pos).length := by
            rw [maskedScatter_length]
            exact hlen
          rcases ih _ _ _ _ havn hcnt' hlen' hb1 hfuel' with
            ⟨s'', hloop, hav'', hb'', hps''⟩
          refine ⟨s'', ?_, ?_, hb'', by rw [hps'']; exact hps1⟩
          · rw [ByteRleDecoder.nextLoop.eq_def]
            simp only [skipNulls_none, if_pos h1]
            rw [hs1eq]
            simp only [if_pos hr1]
            rw [hov, hloop, hsplitms]
          · rw [hav'', List.drop_drop, harr]
        · have hr1f : s1.repeating_ = false := bool_eq_false_of_not hr1
          have hinple : s1.remainingValues_ ≤ s1.input.length :=
            avail_lit_le s1 u hr1f hav1
          have hcntinp : min (nv - pos) s1.remainingValues_ ≤
              s1.input.length := by omega
          have hov : overwriteAt data pos
              (s1.input.take (min (nv - pos) s1.remainingValues_)) =
              maskedScatter none
                (pos + (s1.input.take (min (nv - pos) s1.remainingValues_)).length)
                data u pos := by
            apply overwriteAt_eq_maskedScatter
            · rw [List.length_take_of_le hcntinp]
              omega
            · intro k hk
              rw [List.length_take_of_le hcntinp] at hk
              rw [getD_take _ _ _ hk]
              exact (avail_lit_values s1 u hr1f hav1 k (by omega)).symm
            · rw [List.length_take_of_le hcntinp]
              omega
          rw [List.length_take_of_le hcntinp] at hov
          have havn := avail_lit_drop s1 u (min (nv - pos) s1.remainingValues_) hr1f hav1 (by omega)
          have hlen' : nv ≤ (maskedScatter none
              (pos + min (nv - pos) s1.remainingValues_) data u pos).length := by
            rw [maskedScatter_length]
            exact hlen
          rcases ih _ _ _ _ havn hcnt' hlen'
            (fun b hbm => hb1 b (List.mem_of_mem_drop hbm)) hfuel' with
            ⟨s'', hloop, hav'', hb'', hps''⟩
          refine ⟨s'', ?_, ?_, hb'', by rw [hps'']; exact hps1⟩
          · rw [ByteRleDecoder.nextLoop.eq_def]
            simp only [skipNulls_none, if_pos h1]
            rw [hs1eq]
            simp only [if_neg hr1, if_pos hcntinp]
            rw [hov, hloop, hsplitms]
          · rw [hav'', List.drop_drop, harr]
      | some isNull =>
        have hcnt1 : 1 ≤ min (nv - skipNulls (some isNull) nv pos)
            s1.remainingValues_ := by omega
        have hcntle : min (nv - skipNulls (some isNull) nv pos)
            s1.remainingValues_ ≤ s1.remainingValues_ := by omega
        have hmid : skipNulls (some isNull) nv pos +
            min (nv - skipNulls (some isNull) nv pos) s1.remainingValues_ ≤
            nv := by omega
        have hcP : nnCount (some isNull) nv pos =
            nnCount (some isNull) nv (skipNulls (some isNull) nv pos) :=
          nnCount_skipNulls (some isNull) nv pos
        have hsplitn : nnCount (some isNull) nv (skipNulls (some isNull) nv pos) =
            nnCount (some isNull)
              (skipNulls (some isNull) nv pos +
                min (nv - skipNulls (some isNull) nv pos) s1.remainingValues_)
              (skipNulls (some isNull) nv pos) +
            nnCount (some isNull) nv
              (skipNulls (some isNull) nv pos +
                min (nv - skipNulls (some isNull) nv pos) s1.remainingValues_) :=
          nnCount_split (some isNull) nv _ _ (by omega) hmid
        have hc'le : nnCount (some isNull)
            (skipNulls (some isNull) nv pos +
              min (nv - skipNulls (some isNull) nv pos) s1.remainingValues_)
            (skipNulls (some isNull) nv pos) ≤
            min (nv - skipNulls (some isNull) nv pos) s1.remainingValues_ := by
          have := nnCount_le (some isNull)
            (skipNulls (some isNull) nv pos +
              min (nv - skipNulls (some isNull) nv pos) s1.remainingValues_)
            (skipNulls (some isNull) nv pos)
          omega
        have hc'u : nnCount (some isNull)
            (skipNulls (some isNull) nv pos +
              min (nv - skipNulls (some isNull) nv pos) s1.remainingValues_)
            (skipNulls (some isNull) nv pos) ≤ u.length := by omega
        have hcnt' : nnCount (some isNull) nv
            (skipNulls (some isNull) nv pos +
              min (nv - skipNulls (some isNull) nv pos) s1.remainingValues_) ≤
            (u.drop (nnCount (some isNull)
              (skipNulls (some isNull) nv pos +
                min (nv - skipNulls (some isNull) nv pos) s1.remainingValues_)
              (skipNulls (some isNull) nv pos))).length := by
          rw [List.length_drop]
          omega
        have hfuel' : nv - (skipNulls (some isNull) nv pos +
            min (nv - skipNulls (some isNull) nv pos) s1.remainingValues_) ≤
            fuel := by omega
        have hsplitms : maskedScatter (some isNull) nv data u pos =
            maskedScatter (some isNull) nv
              (maskedScatter (some isNull)
                (skipNulls (some isNull) nv pos +
                  min (nv - skipNulls (some isNull) nv pos) s1.remainingValues_)
                data u (skipNulls (some isNull) nv pos))
              (u.drop (nnCount (some isNull)
                (skipNulls (some isNull) nv pos +
                  min (nv - skipNulls (some isNull) nv pos) s1.remainingValues_)
                (skipNulls (some isNull) nv pos)))
              (skipNulls (some isNull) nv pos +
                min (nv - skipNulls (some isNull) nv pos) s1.remainingValues_) := by
          rw [maskedScatter_skipNulls (some isNull) nv pos data u]
          exact maskedScatter_split (some isNull) nv _ _ data u (by omega) hmid
            hc'u
        have harr : nnCount (some isNull)
            (skipNulls (some isNull) nv pos +
              min (nv - skipNulls (some isNull) nv pos) s1.remainingValues_)
            (skipNulls (some isNull) nv pos) +
            nnCount (some isNull) nv
              (skipNulls (some isNull) nv pos +
                min (nv - skipNulls (some isNull) nv pos) s1.remainingValues_) =
            nnCount (some isNull) nv pos := by
          rw [hcP, hsplitn]
        by_cases hr1 : s1.repeating_
        · have hchunkeq : maskedScatter (some isNull)
              (skipNulls (some isNull) nv pos +
                min (nv - skipNulls (some isNull) nv pos) s1.remainingValues_)
              data
              (List.replicate (nnCount (some isNull)
                (skipNulls (some isNull) nv pos +
                  min (nv - skipNulls (some isNull) nv pos) s1.remainingValues_)
                (skipNulls (some isNull) nv pos)) s1.value_)
              (skipNulls (some isNull) nv pos) =
              maskedScatter (some isNull)
                (skipNulls (some isNull) nv pos +
                  min (nv - skipNulls (some isNull) nv pos) s1.remainingValues_)
                data u (skipNulls (some isNull) nv pos) := by
            apply maskedScatter_congr
            · intro k hk
              rw [getD_replicate _ _ _ hk,
                avail_run_values s1 u hr1 hav1 k (by omega)]
            · rw [List.length_replicate]
            · exact hc'u
          have havn := avail_run_drop s1 u
            (nnCount (some isNull)
              (skipNulls (some isNull) nv pos +
                min (nv - skipNulls (some isNull) nv pos) s1.remainingValues_)
              (skipNulls (some isNull) nv pos)) hr1 hav1 (by omega)
          have hlen' : nv ≤ (maskedScatter (some isNull)
              (skipNulls (some isNull) nv pos +
                min (nv - skipNulls (some isNull) nv pos) s1.remainingValues_)
              data u (skipNulls (some isNull) nv pos)).length := by
            rw [maskedScatter_length]
            exact hlen
          rcases ih _ _ _ _ havn hcnt' hlen' hb1 hfuel' with
            ⟨s'', hloop, hav'', hb'', hps''⟩
          refine ⟨s'', ?_, ?_, hb'', by rw [hps'']; exact hps1⟩
          · rw [ByteRleDecoder.nextLoop.eq_def]
            simp only [if_pos h1]
            rw [hs1eq]
            simp only [if_pos hr1, runChunkNulls_spec]
            rw [hchunkeq, hloop, hsplitms]
          · rw [hav'', List.drop_drop, harr]
        · have hr1f : s1.repeating_ = false := bool_eq_false_of_not hr1
          have hinple : s1.remainingValues_ ≤ s1.input.length :=
            avail_lit_le s1 u hr1f hav1
          have hc'inp : nnCount (some isNull)
              (skipNulls (some isNull) nv pos +
                min (nv - skipNulls (some isNull) nv pos) s1.remainingValues_)
              (skipNulls (some isNull) nv pos) ≤ s1.input.length := by omega
          have hchunkeq : maskedScatter (some isNull)
              (skipNulls (some isNull) nv pos +
                min (nv - skipNulls (some isNull) nv pos) s1.remainingValues_)
              data s1.input (skipNulls (some isNull) nv pos) =
              maskedScatter (some isNull)
                (skipNulls (some isNull) nv pos +
                  min (nv - skipNulls (some isNull) nv pos) s1.remainingValues_)
                data u (skipNulls (some isNull) nv pos) := by
            apply maskedScatter_congr
            · intro k hk
              exact (avail_lit_values s1 u hr1f hav1 k (by omega)).symm
            · exact hc'inp
            · exact hc'u
          have havn := avail_lit_drop s1 u
            (nnCount (some isNull)
              (skipNulls (some isNull) nv pos +
                min (nv - skipNulls (some isNull) nv pos) s1.remainingValues_)
              (skipNulls (some isNull) nv pos)) hr1f hav1 (by omega)
          have hlen' : nv ≤ (maskedScatter (some isNull)
              (skipNulls (some isNull) nv pos +
                min (nv - skipNulls (some isNull) nv pos) s1.remainingValues_)
              data u (skipNulls (some isNull) nv pos)).length := by
            rw [maskedScatter_length]
            exact hlen
          rcases ih _ _ _ _ havn hcnt' hlen'
            (fun b hbm => hb1 b (List.mem_of_mem_drop hbm)) hfuel' with
            ⟨s'', hloop, hav'', hb'', hps''⟩
          refine ⟨s'', ?_, ?_, hb'', by rw [hps'']; exact hps1⟩
          · rw [ByteRleDecoder.nextLoop.eq_def]
            simp only [if_pos h1]
            rw [hs1eq]
            simp only [if_neg hr1,
              litChunkNulls_spec isNull
                (min (nv - skipNulls (some isNull) nv pos) s1.remainingValues_)
                (skipNulls (some isNull) nv pos) data s1.input hc'inp,
              Option.map_some']
            rw [hchunkeq, hloop, hsplitms]
          · rw [hav'', List.drop_drop, harr]
    · refine ⟨s, ?_, ?_, hb, rfl⟩
      · rw [nextLoop_done nulls nv (fuel + 1) s data pos h1,
          maskedScatter_id_of_skipNulls_ge nulls nv pos data u h1]
      · rw [nnCount_zero_of_skipNulls_ge nulls nv pos h1, List.drop_zero]
        exact hav

theorem wire_bytes_lt (f : RleFrame) (hwf : f.wf) : ∀ b ∈ f.wire, b < 256 := by
  cases f with
  | run n v =>
    obtain ⟨h1, h2, h3⟩ := hwf
    intro b hb
    simp only [RleFrame.wire, List.mem_cons, List.not_mem_nil, or_false] at hb
    rcases hb with hb | hb
    · subst hb
      rw [rle_max_eq] at h2
      simp only [rle_min_eq]
      omega
    · subst hb
      exact h3
  | lit bs =>
    obtain ⟨h1, h2, h3, h4⟩ := hwf
    intro b hb
    simp only [RleFrame.wire, List.mem_cons] at hb
    rcases hb with hb | hb
    · subst hb
      omega
    · exact h3 b hb

theorem flatten_wire_bytes_lt (fs : List RleFrame) (hwf : ∀ f ∈ fs, f.wf) :
    ∀ b ∈ (fs.map RleFrame.wire).flatten, b < 256 := by
  intro b hb
  rw [List.mem_flatten] at hb
  obtain ⟨l, hl, hbl⟩ := hb
  rw [List.mem_map] at hl
  obtain ⟨f, hf, rfl⟩ := hl
  exact wire_bytes_lt f (hwf f hf) b hbl

theorem avail_mk0 (inp u : List Nat) (h : parsePayload inp = some u) :
    avail (ByteRleDecoder.mk0 inp) = some u := by
  unfold avail ByteRleDecoder.mk0
  simp [h]

theorem skipPending_zero (s : ByteRleDecoder) (h : s.pendingSkip_ = 0) :
    s.skipPending = some { s with pendingSkip_ := 0 } := by
  unfold ByteRleDecoder.skipPending
  rw [h]
  rfl

theorem avail_set_ps (s : ByteRleDecoder) (n : Nat) :
    avail { s with pendingSkip_ := n } = avail s := rfl

/-- `ByteRleDecoder::next` from a state with no pending skip: the reference
writer, consuming exactly the non-null count of payload values. -/
theorem next_spec (s : ByteRleDecoder) (data : List Nat) (nv : Nat)
    (nulls : Option (Nat → Bool)) (u : List Nat)
    (hps : s.pendingSkip_ = 0) (hav : avail s = some u)
    (hcnt : nnCount nulls nv 0 ≤ u.length) (hlen : nv ≤ data.length)
    (hb : ∀ b ∈ s.input, b < 256) :
    ∃ s', ByteRleDecoder.next s data nv nulls =
        some (s', maskedScatter nulls nv data u 0) ∧
      avail s' = some (u.drop (nnCount nulls nv 0)) := by
  have hav' : avail { s with pendingSkip_ := 0 } = some u := by
    rw [avail_set_ps]
    exact hav
  rcases nextLoop_spec nulls nv nv { s with pendingSkip_ := 0 } data 0 u hav'
    hcnt hlen hb (by omega) with ⟨s', hloop, hav'', _, _⟩
  refine ⟨s', ?_, hav''⟩
  unfold ByteRleDecoder.next
  rw [skipPending_zero s hps]
  simp only [hloop]

theorem nnCount_eq_filter_length (nulls : Option (Nat → Bool)) :
    ∀ n : Nat, nnCount nulls n 0 =
      ((List.range n).filter (fun pos => !isNullAt nulls pos)).length := by
  intro n
  induction n with
  | zero =>
    rw [nnCount_stop nulls 0 0 (by omega)]
    rfl
  | succ n ih =>
    rw [List.range_succ, List.filter_append, List.length_append,
      nnCount_split nulls (n + 1) n 0 (by omega) (by omega), ih]
    have hstep : nnCount nulls (n + 1) n =
        (List.filter (fun pos => !isNullAt nulls pos) [n]).length := by
      rw [nnCount_step nulls (n + 1) n (by omega),
        nnCount_stop nulls (n + 1) (n + 1) (by omega)]
      by_cases hn : isNullAt nulls n
      · rw [if_pos hn]
        simp [hn]
      · rw [if_neg hn]
        simp [bool_eq_false_of_not hn]
    rw [hstep]

theorem filter_range_getD (nulls : Option (Nat → Bool)) :
    ∀ (n i : Nat), i < n → isNullAt nulls i = false →
    ((List.range n).filter (fun pos => !isNullAt nulls pos)).getD
      (nnCount nulls i 0) 0 = i := by
  intro n
  induction n with
  | zero => intro i hi _; omega
  | succ n ih =>
    intro i hi hni
    rw [List.range_succ, List.filter_append]
    by_cases hin : i < n
    · have hklt : nnCount nulls i 0 <
          ((List.range n).filter (fun pos => !isNullAt nulls pos)).length := by
        rw [← nnCount_eq_filter_length nulls n,
          nnCount_split nulls n i 0 (by omega) (by omega)]
        have := nnCount_pos_of_nonnull nulls n i hin hni
        omega
      rw [getD_append_left _ _ _ hklt]
      exact ih i hin hni
    · have hie : i = n := by omega
      subst hie
      have hfi : List.filter (fun pos => !isNullAt nulls pos) [i] = [i] := by
        simp [hni]
      have hkeq : nnCount nulls i 0 =
          ((List.range i).filter (fun pos => !isNullAt nulls pos)).length :=
        nnCount_eq_filter_length nulls i
      rw [hfi, hkeq, getD_append_right _ _ _ (Nat.le_refl _), Nat.sub_self]
      rfl

theorem getD_map_of_lt (f : Nat → Nat) (l : List Nat) (k : Nat)
    (h : k < l.length) :
    (l.map f).getD k 0 = f (l.getD k 0) := by
  rw [List.getD_eq_getElem?_getD, List.getD_eq_getElem?_getD,
    List.getElem?_map, List.getElem?_eq_getElem h]
  rfl

/-- C1: round-trip under a null mask.  For any byte sequence (given as
`data` over positions `0..n-1`) and any null mask, encoding the non-null
positions with `ByteRleEncoderImpl::add` plus `flush` and then decoding the
resulting wire bytes with `ByteRleDecoder::next` for `n` values under the
same mask succeeds and writes back exactly the original value at every
non-null position of the destination. -/
theorem c1_roundtrip_under_mask (data : Nat → Nat) (n : Nat)
    (nulls : Option (Nat → Bool)) (dst : List Nat)
    (hdata : ∀ pos ∈ List.range n, data pos < 256)
    (hlen : n ≤ dst.length) :
    ∃ s' dst',
      ByteRleDecoder.next
        (ByteRleDecoder.mk0
          (((ByteRleEncoderImpl.init.add data (List.range n) nulls).1.flush).1.out))
        dst n nulls = some (s', dst') ∧
      ∀ i, i < n → isNullAt nulls i = false → dst'.getD i 0 = data i := by
  obtain ⟨fs, hout, hwf, hpay⟩ := encode_spec data (List.range n) nulls hdata
  have hpp : parsePayload
      (((ByteRleEncoderImpl.init.add data (List.range n) nulls).1.flush).1.out) =
      some (nonNullValues data (List.range n) nulls) := by
    rw [hout, parsePayload_of_frames fs hwf, hpay]
  have hav := avail_mk0 _ _ hpp
  have hb : ∀ b ∈ (ByteRleDecoder.mk0
      (((ByteRleEncoderImpl.init.add data (List.range n) nulls).1.flush).1.out)).input,
      b < 256 := by
    intro b hbm
    rw [hout] at hbm
    exact flatten_wire_bytes_lt fs hwf b hbm
  have hulen : nnCount nulls n 0 ≤
      (nonNullValues data (List.range n) nulls).length := by
    unfold nonNullValues
    rw [List.length_map]
    exact Nat.le_of_eq (nnCount_eq_filter_length nulls n)
  rcases next_spec (ByteRleDecoder.mk0 _) dst n nulls
    (nonNullValues data (List.range n) nulls) rfl hav hulen hlen hb with
    ⟨s', hnext, hav'⟩
  refine ⟨s',
    maskedScatter nulls n dst (nonNullValues data (List.range n) nulls) 0,
    hnext, ?_⟩
  intro i hi hni
  have hklt : nnCount nulls i 0 <
      ((List.range n).filter (fun pos => !isNullAt nulls pos)).length := by
    rw [← nnCount_eq_filter_length nulls n,
      nnCount_split nulls n i 0 (by omega) (by omega)]
    have := nnCount_pos_of_nonnull nulls n i hi hni
    omega
  have hkltu : nnCount nulls i 0 <
      (nonNullValues data (List.range n) nulls).length := by
    unfold nonNullValues
    rw [List.length_map]
    exact hklt
  rw [maskedScatter_getD_write nulls n i 0 dst _ (by omega) hi hni hkltu
    (by omega)]
  unfold nonNullValues
  rw [getD_map_of_lt data _ _ hklt, filter_range_getD nulls n i hi hni]

/-- C1 witness: values `[10, 20, 30]` with position 1 null. -/
theorem c1_roundtrip_under_mask_witness :
    (∀ pos ∈ List.range 3, (fun i => [10, 20, 30].getD i 0) pos < 256) ∧
    3 ≤ ([0, 0, 0] : List Nat).length ∧
    ∃ s' dst',
      ByteRleDecoder.next
        (ByteRleDecoder.mk0
          (((ByteRleEncoderImpl.init.add (fun i => [10, 20, 30].getD i 0)
            (List.range 3) (some fun i => decide (i = 1))).1.flush).1.out))
        [0, 0, 0] 3 (some fun i => decide (i = 1)) = some (s', dst') ∧
      ∀ i, i < 3 → isNullAt (some fun i => decide (i = 1)) i = false →
        dst'.getD i 0 = (fun i => [10, 20, 30].getD i 0) i :=
  ⟨by decide, by decide,
   c1_roundtrip_under_mask (fun i => [10, 20, 30].getD i 0) 3
     (some fun i => decide (i = 1)) [0, 0, 0] (by decide) (by decide)⟩

/-- C5: null positions are untouched and consume nothing.  From any
no-pending-skip state whose stream still carries the payload `u`,
`ByteRleDecoder::next` under a null mask succeeds, leaves the destination
byte of every null position of the window exactly as it was, and consumes
exactly the window's non-null count of payload values from the source —
so the null positions consume no source bytes and the remaining-values
accounting advances only by values actually delivered. -/
theorem c5_nulls_untouched (s : ByteRleDecoder) (dst : List Nat) (nv : Nat)
    (isNull : Nat → Bool) (u : List Nat)
    (hps : s.pendingSkip_ = 0) (hav : avail s = some u)
    (hcnt : nnCount (some isNull) nv 0 ≤ u.length) (hlen : nv ≤ dst.length)
    (hb : ∀ b ∈ s.input, b < 256) :
    ∃ s' dst', ByteRleDecoder.next s dst nv (some isNull) = some (s', dst') ∧
      (∀ i, i < nv → isNull i = true → dst'.getD i 0 = dst.getD i 0) ∧
      avail s' = some (u.drop (nnCount (some isNull) nv 0)) := by
  rcases next_spec s dst nv (some isNull) u hps hav hcnt hlen hb with
    ⟨s', hnext, hav'⟩
  refine ⟨s', maskedScatter (some isNull) nv dst u 0, hnext, ?_, hav'⟩
  intro i hi hni
  exact maskedScatter_getD_preserved (some isNull) nv i 0 dst u
    (Or.inr (Or.inr hni))

/-- C5 witness: a run frame of five 7s decoded for 4 values with position 2
null. -/
theorem c5_nulls_untouched_witness :
    (ByteRleDecoder.mk0 [0x02, 7]).pendingSkip_ = 0 ∧
    avail (ByteRleDecoder.mk0 [0x02, 7]) = some (List.replicate 5 7) ∧
    nnCount (some fun i => decide (i = 2)) 4 0 ≤ (List.replicate 5 7).length ∧
    4 ≤ ([9, 9, 9, 9] : List Nat).length ∧
    (∀ b ∈ (ByteRleDecoder.mk0 [0x02, 7]).input, b < 256) ∧
    ∃ s' dst',
      ByteRleDecoder.next (ByteRleDecoder.mk0 [0x02, 7]) [9, 9, 9, 9] 4
        (some fun i => decide (i = 2)) = some (s', dst') ∧
      (∀ i, i < 4 → (fun i => decide (i = 2)) i = true →
        dst'.getD i 0 = ([9, 9, 9, 9] : List Nat).getD i 0) ∧
      avail s' = some ((List.replicate 5 7).drop
        (nnCount (some fun i => decide (i = 2)) 4 0)) := by
  have hav : avail (ByteRleDecoder.mk0 [0x02, 7]) =
      some (List.replicate 5 7) := by
    apply avail_mk0
    rw [parsePayload_run_cons 2 7 [] (by decide), parsePayload_nil]
    rfl
  have hcnt : nnCount (some fun i => decide (i = 2)) 4 0 ≤
      (List.replicate 5 7).length :=
    Nat.le_trans (nnCount_le _ 4 0) (by decide)
  exact ⟨rfl, hav, hcnt, by decide, by decide,
    c5_nulls_untouched (ByteRleDecoder.mk0 [0x02, 7]) [9, 9, 9, 9] 4
      (fun i => decide (i = 2)) (List.replicate 5 7) rfl hav hcnt (by decide)
      (by decide)⟩

theorem skipPendingLoop_zero_n (fuel : Nat) (s : ByteRleDecoder) :
    ByteRleDecoder.skipPendingLoop fuel s 0 = some s := by
  cases fuel with
  | zero => rfl
  | succ fuel => rfl

theorem skipPendingLoop_succ (fuel : Nat) (s : ByteRleDecoder) (n : Nat)
    (hn : n ≠ 0) :
    ByteRleDecoder.skipPendingLoop (fuel + 1) s n =
      match (if s.remainingValues_ = 0 then s.readHeader else some s) with
      | none => none
      | some s1 =>
        match (if s1.repeating_ then some s1
               else s1.skipBytes (min n s1.remainingValues_)) with
        | none => none
        | some s2 =>
          ByteRleDecoder.skipPendingLoop fuel
            { s2 with remainingValues_ := s2.remainingValues_ - min n s1.remainingValues_ }
            (n - min n s1.remainingValues_) := by
  rw [ByteRleDecoder.skipPendingLoop.eq_def]
  simp only [if_neg hn]

theorem skipPendingLoop_zero_fuel (s : ByteRleDecoder) (n : Nat)
    (hn : n ≠ 0) :
    ByteRleDecoder.skipPendingLoop 0 s n = none := by
  rw [ByteRleDecoder.skipPendingLoop.eq_def]
  simp only [if_neg hn]

/-- The byte-level pending-skip loop is the frame loop of `next` under a
null-free mask, with the destination discarded. -/
theorem skipPendingLoop_eq_nextLoop (fuel : Nat) :
    ∀ (n pos : Nat) (s : ByteRleDecoder) (data : List Nat),
    ByteRleDecoder.skipPendingLoop fuel s n =
      (ByteRleDecoder.nextLoop none (pos + n) fuel s data pos).map Prod.fst := by
  induction fuel with
  | zero =>
    intro n pos s data
    by_cases hn : n = 0
    · subst hn
      rw [skipPendingLoop_zero_n 0 s,
        nextLoop_done none (pos + 0) 0 s data pos
          (by rw [skipNulls_none]; omega)]
      rfl
    · rw [skipPendingLoop_zero_fuel s n hn, ByteRleDecoder.nextLoop.eq_def]
      simp only [skipNulls_none, if_pos (show pos < pos + n by omega)]
      rfl
  | succ fuel ih =>
    intro n pos s data
    by_cases hn : n = 0
    · subst hn
      rw [skipPendingLoop_zero_n (fuel + 1) s,
        nextLoop_done none (pos + 0) (fuel + 1) s data pos
          (by rw [skipNulls_none]; omega)]
      rfl
    · rw [skipPendingLoop_succ fuel s n hn, ByteRleDecoder.nextLoop.eq_def]
      simp only [skipNulls_none, if_pos (show pos < pos + n by omega),
        Nat.add_sub_cancel_left]
      cases hh : (if s.remainingValues_ = 0 then s.readHeader else some s) with
      | none => rfl
      | some s1 =>
        have hcle : min n s1.remainingValues_ ≤ n := Nat.min_le_left _ _
        have harith : (pos + min n s1.remainingValues_) +
            (n - min n s1.remainingValues_) = pos + n := by omega
        by_cases hr : s1.repeating_
        · simp only [if_pos hr]
          rw [ih (n - min n s1.remainingValues_)
            (pos + min n s1.remainingValues_)
            { s1 with remainingValues_ := s1.remainingValues_ - min n s1.remainingValues_ }
            (overwriteAt data pos
              (List.replicate (min n s1.remainingValues_) s1.value_)),
            harith]
        · simp only [if_neg hr, ByteRleDecoder.skipBytes]
          by_cases hsk : min n s1.remainingValues_ ≤ s1.input.length
          · simp only [if_pos hsk]
            rw [ih (n - min n s1.remainingValues_)
              (pos + min n s1.remainingValues_)
              { s1 with input := s1.input.drop (min n s1.remainingValues_), remainingValues_ := s1.remainingValues_ - min n s1.remainingValues_ }
              (overwriteAt data pos
                (s1.input.take (min n s1.remainingValues_))),
              harith]
          · simp only [if_neg hsk]
            rfl

/-- Byte codec: `skip(n)` followed by `next` writes the same bytes as
reading `n` values into a discarded scratch buffer and then calling `next`
— both write the scatter of the payload with its first `n` values dropped. -/
theorem skip_eq_read_discard_byte (s : ByteRleDecoder)
    (u scratch dst : List Nat) (n m : Nat) (nulls : Option (Nat → Bool))
    (hps : s.pendingSkip_ = 0) (hav : avail s = some u)
    (hb : ∀ b ∈ s.input, b < 256)
    (hn : n ≤ scratch.length) (hm : m ≤ dst.length)
    (hcnt : n + nnCount nulls m 0 ≤ u.length) :
    ∃ s1 d1, ByteRleDecoder.next s scratch n none = some (s1, d1) ∧
      ((s.skip n).next dst m nulls).map Prod.snd =
        (s1.next dst m nulls).map Prod.snd ∧
      ((s.skip n).next dst m nulls).map Prod.snd =
        some (maskedScatter nulls m dst (u.drop n) 0) := by
  have hav0 : avail { s with pendingSkip_ := 0 } = some u := by
    rw [avail_set_ps]
    exact hav
  have hcnt1 : nnCount none n 0 ≤ u.length := by
    rw [nnCount_none]
    omega
  rcases nextLoop_spec none n n { s with pendingSkip_ := 0 } scratch 0 u hav0
    hcnt1 hn hb (by omega) with ⟨s1, hloop1, hav1, hb1, hps1⟩
  have hnext1 : ByteRleDecoder.next s scratch n none =
      some (s1, maskedScatter none n scratch u 0) := by
    unfold ByteRleDecoder.next
    rw [skipPending_zero s hps]
    simp only [hloop1]
  have hav1' : avail s1 = some (u.drop n) := by
    rw [hav1, nnCount_none]
    simp only [Nat.sub_zero]
  have hps1' : s1.pendingSkip_ = 0 := hps1
  have hcnt2 : nnCount nulls m 0 ≤ (u.drop n).length := by
    rw [List.length_drop]
    have := nnCount_le none n 0
    omega
  rcases nextLoop_spec nulls m m s1 dst 0 (u.drop n) hav1' hcnt2 hm hb1
    (by omega) with ⟨s2, hloop2, _, _, _⟩
  have hav1'' : avail { s1 with pendingSkip_ := 0 } = some (u.drop n) := by
    rw [avail_set_ps]
    exact hav1'
  rcases nextLoop_spec nulls m m { s1 with pendingSkip_ := 0 } dst 0
    (u.drop n) hav1'' hcnt2 hm hb1 (by omega) with ⟨s2', hloop2', _, _, _⟩
  have hskipnext : ((s.skip n).next dst m nulls) =
      some (s2, maskedScatter nulls m dst (u.drop n) 0) := by
    unfold ByteRleDecoder.next
    have hsp : (s.skip n).skipPending = some s1 := by
      unfold ByteRleDecoder.skipPending ByteRleDecoder.skip
      simp only [hps, Nat.zero_add]
      rw [skipPendingLoop_eq_nextLoop n n 0 { s with pendingSkip_ := 0 }
        scratch]
      rw [Nat.zero_add, hloop1]
      rfl
    rw [hsp]
    simp only [hloop2]
  have hs1next : (s1.next dst m nulls) =
      some (s2', maskedScatter nulls m dst (u.drop n) 0) := by
    unfold ByteRleDecoder.next
    rw [skipPending_zero s1 hps1']
    simp only [hloop2']
  refine ⟨s1, maskedScatter none n scratch u 0, hnext1, ?_, ?_⟩
  · rw [hskipnext, hs1next]
    rfl
  · rw [hskipnext]
    rfl

theorem or_lt_256 {x y : Nat} (hx : x < 256) (hy : y < 256) :
    x ||| y < 256 := by
  have hx' : x < 2 ^ 8 := hx
  have hy' : y < 2 ^ 8 := hy
  exact Nat.or_lt_two_pow hx' hy'

theorem shift_term_lt_256 (c : Bool) (j : Nat) (hj : j < 8) :
    (if c = true then 1 <<< (7 - j) else 0) < 256 := by
  split
  · rw [Nat.one_shiftLeft]
    have h1 : 2 ^ (7 - j) ≤ 2 ^ 7 := Nat.pow_le_pow_right (by omega) (by omega)
    omega
  · omega

theorem reverseByte_lt (b : Nat) : reverseByte b < 256 := by
  unfold reverseByte
  rw [show List.range 8 = [0, 1, 2, 3, 4, 5, 6, 7] from rfl]
  simp only [List.foldl_cons, List.foldl_nil]
  refine or_lt_256 (or_lt_256 (or_lt_256 (or_lt_256 (or_lt_256 (or_lt_256
    (or_lt_256 (or_lt_256 (by omega) ?_) ?_) ?_) ?_) ?_) ?_) ?_) ?_
  · exact shift_term_lt_256 (b.testBit 0) 0 (by omega)
  · exact shift_term_lt_256 (b.testBit 1) 1 (by omega)
  · exact shift_term_lt_256 (b.testBit 2) 2 (by omega)
  · exact shift_term_lt_256 (b.testBit 3) 3 (by omega)
  · exact shift_term_lt_256 (b.testBit 4) 4 (by omega)
  · exact shift_term_lt_256 (b.testBit 5) 5 (by omega)
  · exact shift_term_lt_256 (b.testBit 6) 6 (by omega)
  · exact shift_term_lt_256 (b.testBit 7) 7 (by omega)

theorem reverseFirstBytes_getD (data : List Nat) (n k : Nat) (hk : k < n)
    (hn : n ≤ data.length) :
    (reverseFirstBytes data n).getD k 0 = reverseByte (data.getD k 0) := by
  unfold reverseFirstBytes
  rw [getD_append_left _ _ _
      (by rw [List.length_map, List.length_take_of_le hn]; omega),
    getD_map_of_lt reverseByte _ _
      (by rw [List.length_take_of_le hn]; omega),
    getD_take _ _ _ hk]

theorem countNonNulls_le (isNull : Nat → Bool) (m : Nat) :
    countNonNulls isNull m ≤ m := by
  unfold countNonNulls
  calc ((List.range m).filter (fun i => !isNull i)).length
      ≤ (List.range m).length := List.length_filter_le _ _
    _ = m := List.length_range m

theorem divRoundUp_le_divRoundUp (a b c : Nat) (h : a ≤ b) :
    divRoundUp a c ≤ divRoundUp b c := by
  unfold divRoundUp
  exact Nat.div_le_div_right (by omega)

theorem boolSkipPending_zero (s : BooleanRleDecoder)
    (h : s.pendingSkip_ = 0) :
    s.skipPending = some { s with pendingSkip_ := 0, remainingBits_ := s.remainingBits_ } := by
  unfold BooleanRleDecoder.skipPending
  simp only [h, Nat.sub_zero]
  rw [if_pos (Nat.zero_le _)]

/-- Two boolean decoder states with the same pending bits, the same
available byte payload and (when bits are pending) the same retained
reversed byte produce the same output bytes from `next`. -/
theorem boolNext_congr (s1 s2 : BooleanRleDecoder) (dst : List Nat) (m : Nat)
    (nulls : Option (Nat → Bool)) (w : List Nat)
    (hps1 : s1.pendingSkip_ = 0) (hps2 : s2.pendingSkip_ = 0)
    (hav1 : avail s1.toByteRleDecoder = some w)
    (hav2 : avail s2.toByteRleDecoder = some w)
    (hb1 : ∀ b ∈ s1.toByteRleDecoder.input, b < 256)
    (hb2 : ∀ b ∈ s2.toByteRleDecoder.input, b < 256)
    (hrb : s2.remainingBits_ = s1.remainingBits_)
    (hrlb : s1.remainingBits_ = 0 ∨
      s2.reversedLastByte_ = s1.reversedLastByte_)
    (hwlen : divRoundUp m 8 ≤ w.length)
    (hdst : divRoundUp m 8 ≤ dst.length) :
    (BooleanRleDecoder.next s1 dst m nulls).map Prod.snd =
      (BooleanRleDecoder.next s2 dst m nulls).map Prod.snd := by
  obtain ⟨N, hNdef, hNle⟩ : ∃ N,
      (match nulls with
        | none => m
        | some isNull => countNonNulls isNull m) = N ∧ N ≤ m := by
    refine ⟨_, rfl, ?_⟩
    cases nulls with
    | none => exact Nat.le_refl m
    | some f => exact countNonNulls_le f m
  unfold BooleanRleDecoder.next
  rw [boolSkipPending_zero s1 hps1, boolSkipPending_zero s2 hps2]
  simp only [hNdef, hrb]
  by_cases hN0 : N = 0
  · simp only [if_pos hN0]
    rfl
  · simp only [if_neg hN0]
    by_cases hge : s1.remainingBits_ ≥ N
    · have hrbne : s1.remainingBits_ ≠ 0 := by omega
      have hrlbe : s2.reversedLastByte_ = s1.reversedLastByte_ := by
        rcases hrlb with h | h
        · exact absurd h hrbne
        · exact h
      simp only [hrlbe, if_pos hge]
      rfl
    · simp only [if_neg hge]
      have hbr : divRoundUp (N - s1.remainingBits_) 8 ≤ divRoundUp m 8 :=
        divRoundUp_le_divRoundUp _ _ 8 (by omega)
      rcases next_spec { s1.toByteRleDecoder with pendingSkip_ := 0 } dst
        (divRoundUp (N - s1.remainingBits_) 8)
        none w rfl (by rw [avail_set_ps]; exact hav1)
        (by rw [nnCount_none]; omega) (by omega) hb1 with ⟨sbA, hnA, _⟩
      rcases next_spec { s2.toByteRleDecoder with pendingSkip_ := 0 } dst
        (divRoundUp (N - s1.remainingBits_) 8)
        none w rfl (by rw [avail_set_ps]; exact hav2)
        (by rw [nnCount_none]; omega) (by omega) hb2 with ⟨sbB, hnB, _⟩
      by_cases hrbpos : s1.remainingBits_ > 0
      · have hrlbe : s2.reversedLastByte_ = s1.reversedLastByte_ := by
          rcases hrlb with h | h
          · omega
          · exact h
        simp only [hrlbe, if_pos hrbpos]
        rw [hnA, hnB]
        rfl
      · simp only [if_neg hrbpos]
        rw [hnA, hnB]
        rfl

theorem divRoundUp_eq (x y : Nat) : divRoundUp x y = (x + y - 1) / y := rfl

theorem next_spec_full (s : ByteRleDecoder) (data : List Nat) (nv : Nat)
    (nulls : Option (Nat → Bool)) (u : List Nat)
    (hps : s.pendingSkip_ = 0) (hav : avail s = some u)
    (hcnt : nnCount nulls nv 0 ≤ u.length) (hlen : nv ≤ data.length)
    (hb : ∀ b ∈ s.input, b < 256) :
    ∃ s', ByteRleDecoder.next s data nv nulls =
        some (s', maskedScatter nulls nv data u 0) ∧
      avail s' = some (u.drop (nnCount nulls nv 0)) ∧
      (∀ b ∈ s'.input, b < 256) ∧ s'.pendingSkip_ = 0 := by
  have hav' : avail { s with pendingSkip_ := 0 } = some u := by
    rw [avail_set_ps]
    exact hav
  rcases nextLoop_spec nulls nv nv { s with pendingSkip_ := 0 } data 0 u hav'
    hcnt hlen hb (by omega) with ⟨s', hloop, hav'', hb'', hps''⟩
  refine ⟨s', ?_, hav'', hb'', hps''⟩
  unfold ByteRleDecoder.next
  rw [skipPending_zero s hps]
  simp only [hloop]

theorem boolSkipPending_le (x : BooleanRleDecoder)
    (hle : x.pendingSkip_ ≤ x.remainingBits_) :
    x.skipPending = some { x with pendingSkip_ := 0, remainingBits_ := x.remainingBits_ - x.pendingSkip_ } := by
  unfold BooleanRleDecoder.skipPending
  simp only [if_pos hle]

theorem boolSkipPending_gt (x : BooleanRleDecoder)
    (hgt : ¬ x.pendingSkip_ ≤ x.remainingBits_) :
    x.skipPending =
      match ({ x.toByteRleDecoder with pendingSkip_ := (x.pendingSkip_ - x.remainingBits_) / 8 } : ByteRleDecoder).skipPending with
      | none => none
      | some sb =>
        if (x.pendingSkip_ - x.remainingBits_) % 8 ≠ 0 then
          match sb.next [x.reversedLastByte_] 1 none with
          | none => none
          | some (sb2, buf) =>
            some { toByteRleDecoder := sb2, remainingBits_ := 8 - (x.pendingSkip_ - x.remainingBits_) % 8, reversedLastByte_ := reverseByte (buf.getD 0 0) }
        else some { toByteRleDecoder := sb, remainingBits_ := 0, reversedLastByte_ := x.reversedLastByte_ } := by
  unfold BooleanRleDecoder.skipPending
  simp only [if_neg hgt]

/-- The byte-level skip of `q` source values, expressed through `avail`. -/
theorem byteSkipPending_spec (tb : ByteRleDecoder) (q : Nat) (w : List Nat)
    (hav : avail tb = some w) (hq : q ≤ w.length)
    (hb : ∀ b ∈ tb.input, b < 256) :
    ∃ sb, ({ tb with pendingSkip_ := q } : ByteRleDecoder).skipPending =
        some sb ∧
      avail sb = some (w.drop q) ∧ (∀ b ∈ sb.input, b < 256) ∧
      sb.pendingSkip_ = 0 := by
  have hav0 : avail { tb with pendingSkip_ := 0 } = some w := by
    rw [avail_set_ps]
    exact hav
  have hcnt : nnCount none q 0 ≤ w.length := by
    rw [nnCount_none]
    omega
  rcases nextLoop_spec none q q { tb with pendingSkip_ := 0 }
    (List.replicate q 0) 0 w hav0 hcnt (by rw [List.length_replicate]) hb
    (by omega) with ⟨sb, hloop, havb, hbb, hpsb⟩
  refine ⟨sb, ?_, ?_, hbb, hpsb⟩
  · unfold ByteRleDecoder.skipPending
    simp only []
    rw [skipPendingLoop_eq_nextLoop q q 0 _ (List.replicate q 0), Nat.zero_add,
      hloop]
    rfl
  · rw [havb, nnCount_none]
    simp only [Nat.sub_zero]

/-- Read-and-discard and deferred skip land in matching boolean decoder
states: same pending bit count, same available byte payload, and the same
retained reversed byte whenever bits are pending. -/
theorem boolSkipReadMatch (s : BooleanRleDecoder) (scratch : List Nat)
    (n : Nat) (w : List Nat)
    (hps : s.pendingSkip_ = 0) (hrb : s.remainingBits_ ≤ 8)
    (hav : avail s.toByteRleDecoder = some w)
    (hb : ∀ b ∈ s.toByteRleDecoder.input, b < 256)
    (hwlen : divRoundUp n 8 ≤ w.length)
    (hscr : divRoundUp n 8 ≤ scratch.length) :
    ∃ s1 d1 s2 c, BooleanRleDecoder.next s scratch n none = some (s1, d1) ∧
      (BooleanRleDecoder.skip s n).skipPending = some s2 ∧
      s1.pendingSkip_ = 0 ∧ s2.pendingSkip_ = 0 ∧
      c ≤ divRoundUp n 8 ∧
      avail s1.toByteRleDecoder = some (w.drop c) ∧
      avail s2.toByteRleDecoder = some (w.drop c) ∧
      (∀ b ∈ s1.toByteRleDecoder.input, b < 256) ∧
      (∀ b ∈ s2.toByteRleDecoder.input, b < 256) ∧
      s2.remainingBits_ = s1.remainingBits_ ∧
      (s1.remainingBits_ = 0 ∨
        s2.reversedLastByte_ = s1.reversedLastByte_) := by
  have hskipX : BooleanRleDecoder.skip s n = { s with pendingSkip_ := n } := by
    unfold BooleanRleDecoder.skip
    rw [hps, Nat.zero_add]
  rw [hskipX]
  by_cases hle : n ≤ s.remainingBits_
  · -- all requested bits are already buffered
    have hsp2 : ({ s with pendingSkip_ := n } : BooleanRleDecoder).skipPending =
        some { s with pendingSkip_ := 0, remainingBits_ := s.remainingBits_ - n } :=
      boolSkipPending_le { s with pendingSkip_ := n } hle
    by_cases hn0 : n = 0
    · subst hn0
      refine ⟨{ s with pendingSkip_ := 0, remainingBits_ := s.remainingBits_ },
        overwriteAt scratch 0 (List.replicate ((0 + 7) / 8) 0),
        { s with pendingSkip_ := 0, remainingBits_ := s.remainingBits_ - 0 },
        0, ?_, hsp2, rfl, rfl, by omega, ?_, ?_, hb, hb, by simp, by simp⟩
      · unfold BooleanRleDecoder.next
        rw [boolSkipPending_zero s hps]
        simp
      · rw [List.drop_zero]
        exact hav
      · rw [List.drop_zero]
        exact hav
    · have hread : ∃ d1, BooleanRleDecoder.next s scratch n none =
          some ({ s with pendingSkip_ := 0, remainingBits_ := s.remainingBits_ - n }, d1) := by
        unfold BooleanRleDecoder.next
        rw [boolSkipPending_zero s hps]
        simp only [if_neg hn0, if_pos hle]
        exact ⟨_, rfl⟩
      rcases hread with ⟨d1, hread⟩
      refine ⟨{ s with pendingSkip_ := 0, remainingBits_ := s.remainingBits_ - n },
        d1,
        { s with pendingSkip_ := 0, remainingBits_ := s.remainingBits_ - n },
        0, hread, hsp2, rfl, rfl, by omega, ?_, ?_, hb, hb, rfl, Or.inr rfl⟩
      · rw [List.drop_zero]
        exact hav
      · rw [List.drop_zero]
        exact hav
  · -- bits must come from the source
    have hBR1 : 1 ≤ divRoundUp (n - s.remainingBits_) 8 := by
      simp only [divRoundUp_eq]
      omega
    have hBRle : divRoundUp (n - s.remainingBits_) 8 ≤ divRoundUp n 8 :=
      divRoundUp_le_divRoundUp _ _ 8 (by omega)
    have hBRw : divRoundUp (n - s.remainingBits_) 8 ≤ w.length := by omega
    have hq : (n - s.remainingBits_) / 8 ≤ w.length := by
      have hd : (n - s.remainingBits_) / 8 ≤
          divRoundUp (n - s.remainingBits_) 8 := by
        simp only [divRoundUp_eq]
        omega
      omega
    rcases next_spec_full { s.toByteRleDecoder with pendingSkip_ := 0 } scratch
      (divRoundUp (n - s.remainingBits_) 8) none w rfl
      (by rw [avail_set_ps]; exact hav) (by rw [nnCount_none]; omega)
      (by omega) hb with ⟨sb1, hn1eq, havb1, hbb1, hpsb1⟩
    have hdata1 : (maskedScatter none (divRoundUp (n - s.remainingBits_) 8)
        scratch w 0).getD (divRoundUp (n - s.remainingBits_) 8 - 1) 0 =
        w.getD (divRoundUp (n - s.remainingBits_) 8 - 1) 0 := by
      rw [maskedScatter_getD_write none _ _ 0 scratch w (by omega) (by omega)
        rfl (by rw [nnCount_none]; omega) (by omega), nnCount_none]
      simp only [Nat.sub_zero]
    have hdata2 : (reverseFirstBytes
        (maskedScatter none (divRoundUp (n - s.remainingBits_) 8) scratch w 0)
        (divRoundUp (n - s.remainingBits_) 8)).getD
        (divRoundUp (n - s.remainingBits_) 8 - 1) 0 % 256 =
        reverseByte (w.getD (divRoundUp (n - s.remainingBits_) 8 - 1) 0) := by
      rw [reverseFirstBytes_getD _ _ _ (by omega)
        (by rw [maskedScatter_length]; omega), hdata1,
        Nat.mod_eq_of_lt (reverseByte_lt _)]
    have hread : ∃ d1, BooleanRleDecoder.next s scratch n none =
        some ({ toByteRleDecoder := sb1, remainingBits_ := divRoundUp (n - s.remainingBits_) 8 * 8 + s.remainingBits_ - n, reversedLastByte_ := reverseByte (w.getD (divRoundUp (n - s.remainingBits_) 8 - 1) 0) }, d1) := by
      unfold BooleanRleDecoder.next
      rw [boolSkipPending_zero s hps]
      simp only [if_neg (show ¬ n = 0 by omega), if_neg hle]
      rw [hn1eq]
      simp only [hdata2]
      exact ⟨_, rfl⟩
    rcases hread with ⟨d1, hread⟩
    have havb1' : avail sb1 =
        some (w.drop (divRoundUp (n - s.remainingBits_) 8)) := by
      rw [havb1, nnCount_none]
      simp only [Nat.sub_zero]
    rcases byteSkipPending_spec s.toByteRleDecoder
      ((n - s.remainingBits_) / 8) w hav hq hb with ⟨sbq, hbsp, havq, hbq, hpsq⟩
    by_cases hr0 : (n - s.remainingBits_) % 8 = 0
    · have hqBR : (n - s.remainingBits_) / 8 =
          divRoundUp (n - s.remainingBits_) 8 := by
        simp only [divRoundUp_eq]
        omega
      have hrb1z : divRoundUp (n - s.remainingBits_) 8 * 8 +
          s.remainingBits_ - n = 0 := by
        simp only [divRoundUp_eq]
        omega
      have hskip2 : ({ s with pendingSkip_ := n } : BooleanRleDecoder).skipPending = some { toByteRleDecoder := sbq, remainingBits_ := 0, reversedLastByte_ := s.reversedLastByte_ } := by
        rw [boolSkipPending_gt { s with pendingSkip_ := n } hle]
        simp only []
        rw [hbsp]
        simp only [if_neg (not_not_intro hr0)]
      have havq' : avail sbq =
          some (w.drop (divRoundUp (n - s.remainingBits_) 8)) := by
        rw [havq, hqBR]
      refine ⟨_, d1, _, divRoundUp (n - s.remainingBits_) 8, hread, hskip2,
        hpsb1, hpsq, hBRle, havb1', havq', hbb1, hbq, ?_, Or.inl ?_⟩
      · exact hrb1z.symm
      · exact hrb1z
    · have hBRq : divRoundUp (n - s.remainingBits_) 8 =
          (n - s.remainingBits_) / 8 + 1 := by
        simp only [divRoundUp_eq]
        omega
      have hqlt : (n - s.remainingBits_) / 8 < w.length := by omega
      rcases next_spec_full sbq [s.reversedLastByte_] 1 none
        (w.drop ((n - s.remainingBits_) / 8)) hpsq havq
        (by rw [nnCount_none, List.length_drop]; omega) (by simp) hbq with
        ⟨sb2, hn2eq, havb2, hbb2, hpsb2⟩
      have hbuf : (maskedScatter none 1 [s.reversedLastByte_]
          (w.drop ((n - s.remainingBits_) / 8)) 0).getD 0 0 =
          w.getD ((n - s.remainingBits_) / 8) 0 := by
        rw [maskedScatter_getD_write none 1 0 0 _ _ (by omega) (by omega) rfl
          (by rw [nnCount_stop none 0 0 (by omega), List.length_drop]; omega)
          (by simp), nnCount_stop none 0 0 (by omega), getD_drop,
          Nat.add_zero]
      have hskip2 : ({ s with pendingSkip_ := n } : BooleanRleDecoder).skipPending = some { toByteRleDecoder := sb2, remainingBits_ := 8 - (n - s.remainingBits_) % 8, reversedLastByte_ := reverseByte (w.getD ((n - s.remainingBits_) / 8) 0) } := by
        rw [boolSkipPending_gt { s with pendingSkip_ := n } hle]
        simp only []
        rw [hbsp]
        simp only [if_pos hr0, hn2eq, hbuf]
      have havb2' : avail sb2 =
          some (w.drop (divRoundUp (n - s.remainingBits_) 8)) := by
        rw [havb2, nnCount_none, List.drop_drop]
        have h1 : (n - s.remainingBits_) / 8 + (1 - 0) =
            divRoundUp (n - s.remainingBits_) 8 := by
          simp only [divRoundUp_eq]
          omega
        rw [h1]
      refine ⟨_, d1, _, divRoundUp (n - s.remainingBits_) 8, hread, hskip2,
        hpsb1, hpsb2, hBRle, havb1', havb2', hbb1, hbb2, ?_, Or.inr ?_⟩
      · simp only [divRoundUp_eq]
        omega
      · have hm1 : divRoundUp (n - s.remainingBits_) 8 - 1 =
            (n - s.remainingBits_) / 8 := by
          simp only [divRoundUp_eq]
          omega
        rw [hm1]

theorem byte_set_ps_self (tb : ByteRleDecoder) (h : tb.pendingSkip_ = 0) :
    ({ tb with pendingSkip_ := 0 } : ByteRleDecoder) = tb := by
  cases tb
  simp_all

theorem bool_set_ps_self (x : BooleanRleDecoder) (h : x.pendingSkip_ = 0) :
    ({ x with pendingSkip_ := 0, remainingBits_ := x.remainingBits_ } : BooleanRleDecoder) = x := by
  cases x with
  | mk tb rb rlb =>
    show BooleanRleDecoder.mk { tb with pendingSkip_ := 0 } rb rlb =
      BooleanRleDecoder.mk tb rb rlb
    rw [byte_set_ps_self tb h]

theorem boolSkipPending_id (x : BooleanRleDecoder)
    (h : x.pendingSkip_ = 0) : x.skipPending = some x := by
  rw [boolSkipPending_zero x h, bool_set_ps_self x h]

/-- Boolean codec: `skip(n)` followed by `next` writes the same bytes as
reading `n` booleans into a discarded scratch buffer and then calling
`next`. -/
theorem skip_eq_read_discard_bool (s : BooleanRleDecoder)
    (w scratch dst : List Nat) (n m : Nat) (nulls : Option (Nat → Bool))
    (hps : s.pendingSkip_ = 0) (hrb : s.remainingBits_ ≤ 8)
    (hav : avail s.toByteRleDecoder = some w)
    (hb : ∀ b ∈ s.toByteRleDecoder.input, b < 256)
    (hscr : divRoundUp n 8 ≤ scratch.length)
    (hwlen : divRoundUp n 8 + divRoundUp m 8 ≤ w.length)
    (hdst : divRoundUp m 8 ≤ dst.length) :
    ∃ s1 d1, BooleanRleDecoder.next s scratch n none = some (s1, d1) ∧
      ((BooleanRleDecoder.skip s n).next dst m nulls).map Prod.snd =
        (s1.next dst m nulls).map Prod.snd := by
  rcases boolSkipReadMatch s scratch n w hps hrb hav hb (by omega) hscr with
    ⟨s1, d1, s2, c, hread, hskip2, hps1, hps2, hc, hav1, hav2, hb1, hb2,
      hrbe, hrlbe⟩
  refine ⟨s1, d1, hread, ?_⟩
  have hstep : (BooleanRleDecoder.skip s n).next dst m nulls =
      BooleanRleDecoder.next s2 dst m nulls := by
    unfold BooleanRleDecoder.next
    rw [hskip2, boolSkipPending_id s2 hps2]
  rw [hstep]
  have hcong := boolNext_congr s1 s2 dst m nulls (w.drop c) hps1 hps2 hav1
    hav2 hb1 hb2 hrbe hrlbe (by rw [List.length_drop]; omega) hdst
  exact hcong.symm

/-- C6: for both the byte decoder and the boolean decoder, `skip` is
read-and-discard: from any no-pending-skip state with the payload still
available, skipping `n` values and then reading writes the same bytes into
the destination as first reading `n` values into a discarded scratch buffer
and then reading. -/
theorem c6_skip_is_read_and_discard :
    (∀ (s : ByteRleDecoder) (u scratch dst : List Nat) (n m : Nat)
      (nulls : Option (Nat → Bool)),
      s.pendingSkip_ = 0 → avail s = some u →
      (∀ b ∈ s.input, b < 256) → n ≤ scratch.length → m ≤ dst.length →
      n + nnCount nulls m 0 ≤ u.length →
      ∃ s1 d1, ByteRleDecoder.next s scratch n none = some (s1, d1) ∧
        ((s.skip n).next dst m nulls).map Prod.snd =
          (s1.next dst m nulls).map Prod.snd) ∧
    (∀ (s : BooleanRleDecoder) (w scratch dst : List Nat) (n m : Nat)
      (nulls : Option (Nat → Bool)),
      s.pendingSkip_ = 0 → s.remainingBits_ ≤ 8 →
      avail s.toByteRleDecoder = some w →
      (∀ b ∈ s.toByteRleDecoder.input, b < 256) →
      divRoundUp n 8 ≤ scratch.length →
      divRoundUp n 8 + divRoundUp m 8 ≤ w.length →
      divRoundUp m 8 ≤ dst.length →
      ∃ s1 d1, BooleanRleDecoder.next s scratch n none = some (s1, d1) ∧
        ((BooleanRleDecoder.skip s n).next dst m nulls).map Prod.snd =
          (s1.next dst m nulls).map Prod.snd) := by
  constructor
  · intro s u scratch dst n m nulls hps hav hb hn hm hcnt
    rcases skip_eq_read_discard_byte s u scratch dst n m nulls hps hav hb hn
      hm hcnt with ⟨s1, d1, h1, h2, _⟩
    exact ⟨s1, d1, h1, h2⟩
  · intro s w scratch dst n m nulls hps hrb hav hb hscr hwlen hdst
    exact skip_eq_read_discard_bool s w scratch dst n m nulls hps hrb hav hb
      hscr hwlen hdst

/-- C6 witness: a run frame of five 7s, skipped and re-read through both
codecs. -/
theorem c6_skip_is_read_and_discard_witness :
    (∃ s1 d1, ByteRleDecoder.next (ByteRleDecoder.mk0 [0x02, 7]) [0, 0] 2
        none = some (s1, d1) ∧
      (((ByteRleDecoder.mk0 [0x02, 7]).skip 2).next [9, 9] 2 none).map
          Prod.snd =
        (s1.next [9, 9] 2 none).map Prod.snd) ∧
    (∃ s1 d1, BooleanRleDecoder.next (BooleanRleDecoder.mk0 [0x02, 7]) [0] 3
        none = some (s1, d1) ∧
      ((BooleanRleDecoder.skip (BooleanRleDecoder.mk0 [0x02, 7]) 3).next [0]
          4 none).map Prod.snd =
        (s1.next [0] 4 none).map Prod.snd) := by
  have hav : avail (ByteRleDecoder.mk0 [0x02, 7]) =
      some (List.replicate 5 7) := by
    apply avail_mk0
    rw [parsePayload_run_cons 2 7 [] (by decide), parsePayload_nil]
    rfl
  constructor
  · exact c6_skip_is_read_and_discard.1 (ByteRleDecoder.mk0 [0x02, 7])
      (List.replicate 5 7) [0, 0] [9, 9] 2 2 none rfl hav (by decide)
      (by decide) (by decide) (by rw [nnCount_none]; decide)
  · exact c6_skip_is_read_and_discard.2 (BooleanRleDecoder.mk0 [0x02, 7])
      (List.replicate 5 7) [0] [0] 3 4 none rfl (by decide) hav (by decide)
      (by decide) (by decide) (by decide)

theorem testBit_shift_term (c : Bool) (k j : Nat) :
    (if c = true then 1 <<< k else 0).testBit j = (c && decide (j = k)) := by
  cases c
  · simp
  · simp [Nat.one_shiftLeft, Nat.testBit_two_pow, eq_comm]

theorem reverseByte_testBit (b : Nat) (k : Nat) (hk : k < 8) :
    (reverseByte b).testBit k = b.testBit (7 - k) := by
  unfold reverseByte
  rw [show List.range 8 = [0, 1, 2, 3, 4, 5, 6, 7] from rfl]
  simp only [List.foldl_cons, List.foldl_nil, Nat.testBit_or,
    testBit_shift_term, Nat.zero_testBit, Bool.false_or]
  interval_cases k <;> simp

theorem testBit_255 (j : Nat) : (255 : Nat).testBit j = decide (j < 8) := by
  have h : (255 : Nat) = 2 ^ 8 - 1 := rfl
  rw [h, Nat.testBit_two_pow_sub_one]

/-- The boolean decoder from a state with no buffered bits, under a
null-free mask: output bit `i` (LSB-first within each byte) is the MSB-first
bit `i` of the byte payload stream, and the unused trailing bits of the
last output byte are zero. -/
theorem boolNext_fresh_bits (s : BooleanRleDecoder) (dst : List Nat)
    (nv : Nat) (u : List Nat)
    (hps : s.pendingSkip_ = 0) (hrb : s.remainingBits_ = 0)
    (hav : avail s.toByteRleDecoder = some u)
    (hb : ∀ b ∈ s.toByteRleDecoder.input, b < 256)
    (hnv : 1 ≤ nv)
    (hwlen : divRoundUp nv 8 ≤ u.length)
    (hdst : divRoundUp nv 8 ≤ dst.length) :
    ∃ s' d, BooleanRleDecoder.next s dst nv none = some (s', d) ∧
      (∀ i, i < nv →
        bitOfBytes d i = (u.getD (i / 8) 0).testBit (7 - i % 8)) ∧
      (∀ i, nv ≤ i → i < 8 * divRoundUp nv 8 → bitOfBytes d i = false) := by
  have hOB : (nv + 7) / 8 = divRoundUp nv 8 := by
    simp only [divRoundUp_eq]
    omega
  have hsub : nv - s.remainingBits_ = nv := by omega
  rcases next_spec_full { s.toByteRleDecoder with pendingSkip_ := 0 } dst
    (divRoundUp nv 8) none u rfl (by rw [avail_set_ps]; exact hav)
    (by rw [nnCount_none]; omega) (by omega) hb with ⟨sb1, hn1eq, _, _, _⟩
  have hread : ∃ s', BooleanRleDecoder.next s dst nv none =
      some (s', (reverseFirstBytes
          (maskedScatter none (divRoundUp nv 8) dst u 0)
          (divRoundUp nv 8)).set ((nv + 7) / 8 - 1)
        ((reverseFirstBytes (maskedScatter none (divRoundUp nv 8) dst u 0)
          (divRoundUp nv 8)).getD ((nv + 7) / 8 - 1) 0 &&&
          (255 >>> ((nv + 7) / 8 * 8 - nv)))) := by
    unfold BooleanRleDecoder.next
    rw [boolSkipPending_zero s hps]
    simp only [hrb, Nat.sub_zero, if_neg (show ¬ nv = 0 by omega),
      if_neg (show ¬ nv ≤ 0 by omega), if_neg (show ¬ (0 : Nat) > 0 by omega)]
    rw [hn1eq]
    exact ⟨_, rfl⟩
  rcases hread with ⟨s', hread⟩
  refine ⟨s', _, hread, ?_, ?_⟩
  all_goals
    have hdlen : (maskedScatter none (divRoundUp nv 8) dst u 0).length =
      dst.length := maskedScatter_length none (divRoundUp nv 8) 0 dst u
  all_goals
    have hrlen : (reverseFirstBytes
        (maskedScatter none (divRoundUp nv 8) dst u 0)
        (divRoundUp nv 8)).length = dst.length := by
      unfold reverseFirstBytes
      rw [List.length_append, List.length_map, List.length_take_of_le
        (by omega), List.length_drop]
      omega
  all_goals
    have hbyte : ∀ j, j < divRoundUp nv 8 →
        (reverseFirstBytes (maskedScatter none (divRoundUp nv 8) dst u 0)
          (divRoundUp nv 8)).getD j 0 = reverseByte (u.getD j 0) := by
      intro j hj
      rw [reverseFirstBytes_getD _ _ _ hj (by omega),
        maskedScatter_getD_write none _ _ 0 dst u (by omega) hj rfl
          (by rw [nnCount_none]; omega) (by omega), nnCount_none]
      simp only [Nat.sub_zero]
  · -- decoded bits
    intro i hi
    have hij : i / 8 < divRoundUp nv 8 := by
      simp only [divRoundUp_eq]
      omega
    have hklt : i % 8 < 8 := Nat.mod_lt _ (by omega)
    unfold bitOfBytes
    by_cases hlast : i / 8 = (nv + 7) / 8 - 1
    · rw [hlast, getD_set_self _ _ _ (by rw [hrlen]; rw [hOB] at hlast ⊢; omega),
        Nat.testBit_and, Nat.testBit_shiftRight, testBit_255, ← hlast,
        hbyte (i / 8) hij, reverseByte_testBit _ _ hklt]
      have hmask : (nv + 7) / 8 * 8 - nv + i % 8 < 8 := by
        rw [hOB] at hlast
        simp only [divRoundUp_eq] at hlast hij ⊢
        omega
      rw [decide_eq_true hmask, Bool.and_true]
    · rw [getD_set_ne _ _ _ _ (fun he => hlast he.symm),
        hbyte (i / 8) hij, reverseByte_testBit _ _ hklt]
  · -- trailing zeros
    intro i hnvi hiob
    have hij : i / 8 < divRoundUp nv 8 := by omega
    have hklt : i % 8 < 8 := Nat.mod_lt _ (by omega)
    have hlast : i / 8 = (nv + 7) / 8 - 1 := by
      rw [hOB]
      simp only [divRoundUp_eq] at hiob ⊢
      omega
    unfold bitOfBytes
    rw [hlast, getD_set_self _ _ _ (by rw [hrlen]; rw [hOB] at hlast ⊢; omega),
      Nat.testBit_and, Nat.testBit_shiftRight, testBit_255]
    have hmask : ¬ ((nv + 7) / 8 * 8 - nv + i % 8 < 8) := by
      rw [hOB] at hlast
      simp only [divRoundUp_eq] at hlast ⊢
      omega
    rw [decide_eq_false hmask, Bool.and_false]

/-- C2 (corrected): `BooleanRleDecoder::next` under a null-free mask from a
state with no buffered bits stores the decoded booleans bit-packed
LSB-first, not MSB-first: decoded boolean `i` — the MSB-first bit `i` of
the encoded payload bytes — lands at bit position `i % 8` counting from the
least significant bit of output byte `i / 8`, and the unused trailing bits
of the last output byte are zero. -/
theorem c2_boolean_decoder_bitpacking (s : BooleanRleDecoder)
    (dst : List Nat) (nv : Nat) (u : List Nat)
    (hps : s.pendingSkip_ = 0) (hrb : s.remainingBits_ = 0)
    (hav : avail s.toByteRleDecoder = some u)
    (hb : ∀ b ∈ s.toByteRleDecoder.input, b < 256)
    (hnv : 1 ≤ nv) (hwlen : divRoundUp nv 8 ≤ u.length)
    (hdst : divRoundUp nv 8 ≤ dst.length) :
    ∃ s' d, BooleanRleDecoder.next s dst nv none = some (s', d) ∧
      (∀ i, i < nv →
        (d.getD (i / 8) 0).testBit (i % 8) =
          (u.getD (i / 8) 0).testBit (7 - i % 8)) ∧
      (∀ i, nv ≤ i → i < 8 * divRoundUp nv 8 →
        (d.getD (i / 8) 0).testBit (i % 8) = false) := by
  rcases boolNext_fresh_bits s dst nv u hps hrb hav hb hnv hwlen hdst with
    ⟨s', d, h1, h2, h3⟩
  exact ⟨s', d, h1, fun i hi => h2 i hi, fun i ha hc => h3 i ha hc⟩

/-- C2 witness: nine encoded trues (`0xFE 0xFF 0x80` on the wire) decoded
into a two-byte destination. -/
theorem c2_boolean_decoder_bitpacking_witness :
    (BooleanRleDecoder.mk0 [0xFE, 0xFF, 0x80]).pendingSkip_ = 0 ∧
    (BooleanRleDecoder.mk0 [0xFE, 0xFF, 0x80]).remainingBits_ = 0 ∧
    avail (BooleanRleDecoder.mk0 [0xFE, 0xFF, 0x80]).toByteRleDecoder =
      some [0xFF, 0x80] ∧
    (∀ b ∈ (BooleanRleDecoder.mk0
      [0xFE, 0xFF, 0x80]).toByteRleDecoder.input, b < 256) ∧
    1 ≤ 9 ∧ divRoundUp 9 8 ≤ ([0xFF, 0x80] : List Nat).length ∧
    divRoundUp 9 8 ≤ ([0, 0] : List Nat).length ∧
    ∃ s' d, BooleanRleDecoder.next (BooleanRleDecoder.mk0
        [0xFE, 0xFF, 0x80]) [0, 0] 9 none = some (s', d) ∧
      (∀ i, i < 9 →
        (d.getD (i / 8) 0).testBit (i % 8) =
          (([0xFF, 0x80] : List Nat).getD (i / 8) 0).testBit (7 - i % 8)) ∧
      (∀ i, 9 ≤ i → i < 8 * divRoundUp 9 8 →
        (d.getD (i / 8) 0).testBit (i % 8) = false) := by
  have hav : avail (BooleanRleDecoder.mk0
      [0xFE, 0xFF, 0x80]).toByteRleDecoder = some [0xFF, 0x80] := by
    apply avail_mk0
    rw [parsePayload_lit_cons 0xFE [0xFF, 0x80] (by decide) (by decide)
      (by decide),
      show List.drop (256 - 0xFE) [0xFF, 0x80] = ([] : List Nat) from rfl,
      parsePayload_nil]
    rfl
  exact ⟨rfl, rfl, hav, by decide, by decide, by decide, by decide,
    c2_boolean_decoder_bitpacking (BooleanRleDecoder.mk0
      [0xFE, 0xFF, 0x80]) [0, 0] 9 [0xFF, 0x80] rfl rfl hav (by decide)
      (by decide) (by decide) (by decide)⟩

-- DECODER_LEMMAS_19

/-! ## Claim theorems: encoder-side claims settled by computation or by
direct structural arguments -/

/-- C3: encoding `[1,2,3,4,4,4,4,4]` with no nulls and flushing produces the
wire bytes `[0xFD, 1, 2, 3, 0x02, 4]` — a 3-byte literal frame followed by a
run frame of five 4s; moreover after the sixth value (when the tail run
reaches `MINIMUM_REPEAT` inside the longer literal buffer) the encoder has
emitted the shrunk literal prefix and holds a fresh run of length
`MINIMUM_REPEAT`. -/
theorem c3_literal_run_split :
    ((ByteRleEncoderImpl.init.add (fun i => [1,2,3,4,4,4,4,4].getD i 0)
        (List.range 8) none).1.flush).1.out = [0xFD, 1, 2, 3, 0x02, 4] ∧
    ([1, 2, 3, 4, 4, 4].foldl ByteRleEncoderImpl.write
        ByteRleEncoderImpl.init) =
      { literals_ := [4], numLiterals_ := RLE_MINIMUM_REPEAT, repeat_ := true,
        tailRunLength_ := 0, out := [0xFD, 1, 2, 3] } := by
  decide

theorem boolFlush_bitsRemained (s : BooleanRleEncoderImpl) :
    s.flush.1.bitsRemained = 8 := by
  unfold BooleanRleEncoderImpl.flush
  by_cases h : s.bitsRemained ≠ 8
  · rw [if_pos h]; rfl
  · rw [if_neg h]; exact Decidable.not_not.mp h

theorem boolFlush_base_numLiterals (s : BooleanRleEncoderImpl) :
    s.flush.1.base.numLiterals_ = 0 := by
  unfold BooleanRleEncoderImpl.flush
  by_cases h : s.bitsRemained ≠ 8
  · rw [if_pos h]; exact writeValues_numLiterals _
  · rw [if_neg h]; exact writeValues_numLiterals _

theorem boolFlush_of_drained (t : BooleanRleEncoderImpl)
    (h : t.bitsRemained = 8) (h2 : t.base.numLiterals_ = 0) :
    t.flush = (t, t.base.out.length) := by
  unfold BooleanRleEncoderImpl.flush
  rw [if_neg (by simp [h])]
  have hb : t.base.flush.1 = t.base := writeValues_of_numLiterals_zero _ h2
  have hl : t.base.flush.2 = t.base.out.length := by
    show t.base.writeValues.out.length = _
    rw [writeValues_of_numLiterals_zero _ h2]
  rw [hb, hl]

/-- C7: for both the byte encoder and the boolean encoder, a second `flush`
immediately after a first one returns the same cumulative byte count and
emits no further bytes. -/
theorem c7_flush_idempotent :
    (∀ s : ByteRleEncoderImpl,
        (s.flush.1.flush).2 = s.flush.2 ∧
        (s.flush.1.flush).1.out = s.flush.1.out) ∧
    (∀ s : BooleanRleEncoderImpl,
        (s.flush.1.flush).2 = s.flush.2 ∧
        (s.flush.1.flush).1.base.out = s.flush.1.base.out) := by
  constructor
  · intro s
    have h : s.writeValues.writeValues = s.writeValues :=
      writeValues_of_numLiterals_zero _ (writeValues_numLiterals s)
    constructor
    · show (s.writeValues.writeValues).out.length = s.writeValues.out.length
      rw [h]
    · show (s.writeValues.writeValues).out = s.writeValues.out
      rw [h]
  · intro s
    rw [boolFlush_of_drained s.flush.1 (boolFlush_bitsRemained s)
      (boolFlush_base_numLiterals s)]
    constructor
    · show s.flush.1.base.out.length = (BooleanRleEncoderImpl.flush s).2
      unfold BooleanRleEncoderImpl.flush
      split <;> rfl
    · rfl

/-- C8: `addBits` on the byte-only encoder always fails with the static
message `"addBits is only for bool stream"` (both overloads), and
`BooleanRleDecoder::seekToRowGroup` fails whenever the bit offset yielded by
the position provider exceeds 8. -/
theorem c8_misuse_errors :
    (∀ s data ranges nulls invert,
        ByteRleEncoderImpl.addBits s data ranges nulls invert =
          Except.error "addBits is only for bool stream") ∧
    (∀ s isNullAtFn ranges valueAtFn invert,
        ByteRleEncoderImpl.addBitsFn s isNullAtFn ranges valueAtFn invert =
          Except.error "addBits is only for bool stream") ∧
    (∀ (s : BooleanRleDecoder) newInput skipCount consumed, 8 < consumed →
        s.seekToRowGroup newInput skipCount consumed =
          Except.error "bad position") := by
  refine ⟨fun _ _ _ _ _ => rfl, fun _ _ _ _ _ => rfl, ?_⟩
  intro s newInput skipCount consumed h
  unfold BooleanRleDecoder.seekToRowGroup
  rw [if_neg (by omega)]

/-- C8 witness: a concrete misuse of each kind. -/
theorem c8_misuse_errors_witness :
    ByteRleEncoderImpl.addBits ByteRleEncoderImpl.init none [] none false =
      Except.error "addBits is only for bool stream" ∧
    (8 < 9 ∧
      (BooleanRleDecoder.mk0 []).seekToRowGroup [] 0 9 =
        Except.error "bad position") :=
  ⟨c8_misuse_errors.1 _ _ _ _ _,
   by decide,
   c8_misuse_errors.2.2 (BooleanRleDecoder.mk0 []) [] 0 9 (by decide)⟩

/-- C9: `BooleanRleEncoderImpl::addBits` with an absent bit-data pointer
writes the bit 1 at every non-null position, and the `invert` flag plays no
role: the run is the same fold that unconditionally writes `true`,
independently of `invert`. -/
theorem c9_addBits_null_data (s : BooleanRleEncoderImpl) (ranges : List Nat)
    (nulls : Option (Nat → Bool)) (invert : Bool) :
    BooleanRleEncoderImpl.addBits s none ranges nulls invert =
      ranges.foldl
        (fun acc pos =>
          if isNullAt nulls pos then acc else (acc.1.writeBool true, acc.2 + 1))
        (s, 0) := by
  cases nulls with
  | none =>
    show ranges.foldl _ (s, 0) = _
    simp [isNullAt]
  | some isNull =>
    show ranges.foldl _ (s, 0) = _
    simp [isNullAt]

/-- C10: the byte encoder's `add` never reads data at null positions: two
data sources agreeing at every non-null position of `ranges` produce the
same final state (including the committed output bytes) and the same
returned count. -/
theorem add_foldl_congr (d1 d2 : Nat → Nat) (isNull : Nat → Bool) :
    ∀ (ranges : List Nat) (acc : ByteRleEncoderImpl × Nat),
    (∀ pos ∈ ranges, isNull pos = false → d1 pos = d2 pos) →
    ranges.foldl
      (fun acc pos =>
        if isNull pos then acc else (acc.1.write (d1 pos), acc.2 + 1)) acc =
    ranges.foldl
      (fun acc pos =>
        if isNull pos then acc else (acc.1.write (d2 pos), acc.2 + 1)) acc := by
  intro ranges
  induction ranges with
  | nil => intro acc _; rfl
  | cons pos rest ih =>
    intro acc h
    simp only [List.foldl_cons]
    by_cases hn : isNull pos
    · rw [if_pos hn, if_pos hn]
      exact ih _ (fun p hp hnp => h p (List.mem_cons_of_mem _ hp) hnp)
    · rw [if_neg hn, if_neg hn,
        h pos (List.mem_cons_self _ _) (by simpa using hn)]
      exact ih _ (fun p hp hnp => h p (List.mem_cons_of_mem _ hp) hnp)

/-- C10: the byte encoder's `add` never reads data at null positions: two
data sources agreeing at every non-null position of `ranges` produce the
same final state (including the committed output bytes) and the same
returned count. -/
theorem c10_no_read_at_nulls (s : ByteRleEncoderImpl) (d1 d2 : Nat → Nat)
    (ranges : List Nat) (isNull : Nat → Bool)
    (h : ∀ pos ∈ ranges, isNull pos = false → d1 pos = d2 pos) :
    s.add d1 ranges (some isNull) = s.add d2 ranges (some isNull) :=
  add_foldl_congr d1 d2 isNull ranges (s, 0) h

/-- C10 witness. -/
theorem c10_no_read_at_nulls_witness :
    (∀ pos ∈ [0, 1], (fun i => decide (i = 0)) pos = false →
        (fun _ => (7 : Nat)) pos = (fun i => if i = 0 then 9 else 7) pos) ∧
    ByteRleEncoderImpl.init.add (fun _ => (7 : Nat)) [0, 1]
        (some (fun i => decide (i = 0))) =
      ByteRleEncoderImpl.init.add (fun i => if i = 0 then 9 else 7) [0, 1]
        (some (fun i => decide (i = 0))) :=
  ⟨by decide,
   c10_no_read_at_nulls _ _ _ _ _ (by decide)⟩

/-- C2 counterexample: decoding the encoding of nine `true` booleans yields
the output bytes `[0xFF, 0x01]`; under the claimed MSB-first layout the 9th
decoded boolean (`true`) would sit at bit `7 - (8 % 8) = 7` of byte `8 / 8 =
1`, but that bit of the actual second output byte `0x01` is clear — the
decoder packs LSB-first. -/
theorem c2_msb_counterexample :
    (BooleanRleDecoder.next (BooleanRleDecoder.mk0 [0xFE, 0xFF, 0x80])
        [0, 0] 9 none).map (fun r => r.2) = some [0xFF, 0x01] ∧
    Nat.testBit 0x01 (7 - (8 % 8)) = false := by
  decide

end VeloxDwrf
